import Mathlib

/-!
# The native-method bridge of `vm/builtin/nativemethod.cpp`

A shallow embedding of the functions defined in `vm/builtin/nativemethod.cpp`
(`NativeMethodFrame`, `NativeMethodEnvironment`, `NativeMethod`) and theorems about
them.

Conventions of the embedding.

* Pointers, `VALUE`s and `Object*`s are machine words (`Nat`); `reinterpret_cast`
  is the identity on words and `NULL` is `0`.
* Memory is explicit state: `Machine` holds the heap of `capi::Handle` objects, the
  memory of `NativeMethodFrame` objects, the shared handle tables, the hidden
  `capi_handle` slot of every object and the thread's `NativeMethodEnvironment`.
* Every function is a state transformer `Exec α := Machine → Step α`; a `Step`
  carries how the function ended (`Outcome`), the machine it left, and the list of
  observable events the code of this file performed (`Event`), in program order.
* What the file uses but does not define (tag predicates, sentinel constants, the
  arity constant `INIT_FUNCTION`, `operator new`, `Arguments::as_array`, the
  conversion routines of the C-API) is gathered in the record `Headers` and taken
  as a parameter.
-/

namespace rubinius

abbrev Word := Nat
abbrev VALUE := Word
abbrev Object := Word

/-- The null pointer. -/
def NULL : Word := 0

namespace capi

/-- The kinds `capi::Handle::type()` distinguishes in `flush_cached_data` and
`update_cached_data`; every kind the two switches send to `default` is `cUnknown`. -/
inductive HandleType where
  | cUnknown
  | cRArray
  | cRString
  | cRData
  | cRFloat
deriving DecidableEq, Repr

/-- Modelled from the spec: `capi::Handle` is declared in `capi/handle.hpp`, which is
not part of the sources. The spec gives a Handle "a reference count, a
back-reference to the managed object, a validity flag"; `type_` is what
`Handle::type()` returns. -/
structure Handle where
  object_ : Object
  references_ : Int
  valid_ : Bool
  type_ : HandleType
deriving DecidableEq, Repr

/-- Modelled from the spec: `Handle::ref()` increments the reference count. -/
def Handle.ref (h : Handle) : Handle := { h with references_ := h.references_ + 1 }

/-- Modelled from the spec: `Handle::deref()` decrements the reference count. -/
def Handle.deref (h : Handle) : Handle := { h with references_ := h.references_ - 1 }

/-- Modelled from the spec: `Handle::valid_p()` reads the validity flag. -/
def Handle.valid_p (h : Handle) : Bool := h.valid_

/-- Modelled from the spec: `Handle::object()` reads the back-reference. -/
def Handle.object (h : Handle) : Object := h.object_

/-- Modelled from the spec: `Handle::as_value()`; the foreign value of a Handle is
"derived deterministically from the handle's own address so it round-trips": the
address itself, reinterpreted. -/
def Handle.as_value (addr : Word) : VALUE := addr

/-- Modelled from the spec: `Handle::from(VALUE)`, the inverse reinterpretation. -/
def Handle.from_ (val : VALUE) : Word := val

/-- Modelled from the spec: `capi::HandleSet` is declared in `capi/handle.hpp`; the
spec calls it the "set of Handles minted during this crossing". A set of Handle
pointers, kept as a list without repetition; `insert` of a member changes nothing. -/
abbrev HandleSet := List Word

/-- Insertion into a `HandleSet`. -/
def HandleSet.insert (s : HandleSet) (h : Word) : HandleSet :=
  if h ∈ s then s else s ++ [h]

end capi

/-- What `Object::get_table_ivar(state, symbol("capi_handle"))` can find in the hidden
slot of an object: a `CApiHandle` wrapper, whose field `handle` points to a Handle,
or any other object (`Qnil` when the slot was never set). `try_as<CApiHandle>`
succeeds on the first only. -/
inductive TableIvar where
  | wrapper (handle : Word)
  | other (obj : Object)
deriving DecidableEq, Repr

/-- The cast `try_as<CApiHandle>(existing)`. -/
def TableIvar.try_as_CApiHandle : TableIvar → Option Word
  | .wrapper h => some h
  | .other _ => none

/-- The conversion routines of the C-API that `flush_cached_data` and
`update_cached_data` call, with their argument. -/
inductive Conversion where
  | capi_get_array (val : VALUE)
  | capi_get_string (val : VALUE)
  | capi_rdata_flush_handle (handle : Word)
  | capi_get_float (val : VALUE)
  | capi_update_array (val : VALUE)
  | capi_update_string (val : VALUE)
deriving DecidableEq, Repr

/-- The messages of the three `capi_raise_runtime_error` calls of the file. -/
inductive RuntimeErrorMessage where
  | handle_requested_for_unknown_object_type
  | requested_Object_for_unknown_handle_type
  | unrecognized_arity
deriving DecidableEq, Repr

/-- The managed exceptions the file raises. `argument_error` is what
`Exception::make_argument_error(state, arity, args.total(), msg.name)` builds, with
the call frame its backtrace (`locations`) is captured from. -/
inductive Exception where
  | argument_error (expected : Int) (given : Nat) (name : Word) (backtrace_from : Word)
  | runtime_error (message : RuntimeErrorMessage)
deriving DecidableEq, Repr

/-- The parameter list a foreign function pointer is called with, one constructor
per functor type of the file. -/
inductive ForeignArgs where
  | InitFunctor
  | OneArgFunctor (a : VALUE)
  | TwoArgFunctor (a b : VALUE)
  | ThreeArgFunctor (a b c : VALUE)
  | FourArgFunctor (a b c d : VALUE)
  | FiveArgFunctor (a b c d e : VALUE)
  | SixArgFunctor (a b c d e f : VALUE)
  | ArgcFunctor (argument_count : Nat) (ary : List VALUE) (receiver : VALUE)
deriving DecidableEq, Repr

/-- The values a foreign call passes, in parameter order (for `ArgcFunctor` the
array elements followed by the receiver). -/
def ForeignArgs.values : ForeignArgs → List VALUE
  | .InitFunctor => []
  | .OneArgFunctor a => [a]
  | .TwoArgFunctor a b => [a, b]
  | .ThreeArgFunctor a b c => [a, b, c]
  | .FourArgFunctor a b c d => [a, b, c, d]
  | .FiveArgFunctor a b c d e => [a, b, c, d, e]
  | .SixArgFunctor a b c d e f => [a, b, c, d, e, f]
  | .ArgcFunctor _ ary receiver => ary ++ [receiver]

/-- The observable actions of the code of this file, recorded in program order. -/
inductive Event where
  /-- A foreign function pointer is invoked. -/
  | foreign_call (args : ForeignArgs)
  /-- The expression `new VALUE[n]`. -/
  | new_array (n : Nat)
  /-- The statement `delete[] ary`. -/
  | delete_array
  /-- A `NativeMethodFrame` is constructed at the given address. -/
  | frame_constructed (frame : Word)
  /-- The destructor of the `NativeMethodFrame` at the given address starts. -/
  | frame_destroyed (frame : Word)
  /-- The expression `new capi::Handle(state, obj)`, with the address it returned. -/
  | handle_created (handle : Word) (obj : Object)
  /-- The call `handle->ref()`. -/
  | handle_ref (handle : Word)
  /-- The call `handle->deref()`. -/
  | handle_deref (handle : Word)
  /-- A conversion routine of the C-API is called. -/
  | conversion (c : Conversion)
  /-- An exception is raised by the code of this file. -/
  | raise_exception (exc : Exception)
deriving DecidableEq, Repr

/-- A `NativeMethodFrame` object: the previous frame and the set of handles. (The
three lazily allocated `CApiStructs` tables `strings_`, `arrays_`, `data_` are only
handed out by accessors in this file; they are kept as the flags "allocated".) -/
structure NativeMethodFrame where
  previous_ : Word
  handles_ : capi.HandleSet
  strings_ : Bool
  arrays_ : Bool
  data_ : Bool
deriving DecidableEq, Repr

/-- The fields of `NativeMethodEnvironment` the file reads and writes. -/
structure NativeMethodEnvironment where
  current_call_frame_ : Word
  current_native_frame_ : Word
  current_block_ : Object
deriving DecidableEq, Repr

/-- The state shared by the whole VM (`state->shared`) that the file touches, with
the heap of `capi::Handle` objects and the hidden `capi_handle` slots. -/
structure SharedState where
  /-- The memory of Handle objects, by address. -/
  handle_mem : Word → capi.Handle
  /-- How many Handles `operator new` has allocated so far. -/
  handles_allocated : Nat
  /-- The table `shared.global_handles()`. -/
  global_handles : List Word
  /-- The table `shared.cached_handles()`. -/
  cached_handles : List Word
  /-- The slot `capi_handle` of every object. -/
  capi_handle_ivar : Object → TableIvar
  /-- The managed objects and native mirrors the conversion routines synchronise. -/
  memory : Word → Word

/-- The whole state the file works on. -/
structure Machine where
  env : NativeMethodEnvironment
  /-- The memory of `NativeMethodFrame` objects, by address. -/
  frame_mem : Word → NativeMethodFrame
  shared : SharedState
  /-- The exception `state->thread_state()` holds, if one was raised. -/
  thread_state : Option Exception

/-- How a function ends. -/
inductive Outcome (α : Type) where
  /-- It returns a value. -/
  | returned (a : α)
  /-- Control is transferred to the current exception point (a raise). -/
  | raised
  /-- The process is terminated by `rubinius::abort()`. -/
  | aborted
  /-- Behaviour is undefined: a null or dangling pointer is dereferenced. -/
  | undefined
deriving DecidableEq, Repr

/-- The result of running a function. -/
structure Step (α : Type) where
  out : Outcome α
  m : Machine
  trace : List Event

/-- A function of the file, as a state transformer. -/
def Exec (α : Type) : Type := Machine → Step α

/-- Return a value without effect. -/
def Exec.pure {α : Type} (a : α) : Exec α := fun m => ⟨.returned a, m, []⟩

/-- Sequencing: run `x`; when it returns, run `f` on its value. Any other outcome
ends the sequence there. The events are concatenated. -/
def Exec.bind {α β : Type} (x : Exec α) (f : α → Exec β) : Exec β := fun m =>
  match x m with
  | ⟨.returned a, m1, t1⟩ =>
    match f a m1 with
    | ⟨o, m2, t2⟩ => ⟨o, m2, t1 ++ t2⟩
  | ⟨.raised, m1, t1⟩ => ⟨.raised, m1, t1⟩
  | ⟨.aborted, m1, t1⟩ => ⟨.aborted, m1, t1⟩
  | ⟨.undefined, m1, t1⟩ => ⟨.undefined, m1, t1⟩

instance : Monad Exec where
  pure := Exec.pure
  bind := Exec.bind

/-- Record one event. -/
def emit (e : Event) : Exec Unit := fun m => ⟨.returned (), m, [e]⟩

/-- Read the machine. -/
def getMachine : Exec Machine := fun m => ⟨.returned m, m, []⟩

/-- Change the machine. -/
def modifyMachine (f : Machine → Machine) : Exec Unit := fun m => ⟨.returned (), f m, []⟩

/-- End with an outcome that is not a return. -/
def stop {α : Type} (o : Outcome Unit) : Exec α := fun m =>
  match o with
  | .returned _ => ⟨.undefined, m, []⟩
  | .raised => ⟨.raised, m, []⟩
  | .aborted => ⟨.aborted, m, []⟩
  | .undefined => ⟨.undefined, m, []⟩

/-- How a foreign function ends: it returns a `VALUE`, or control leaves it through
the exception point (`ret = none`); either way it may have changed the machine. -/
structure ForeignResult where
  ret : Option VALUE
  m : Machine

/-- A `NativeMethod`: the declared arity (`arity()->to_int()`) and the foreign
function pointer, which `functor_as<T>` casts to the functor type `T`. -/
structure NativeMethod where
  arity : Int
  functor : ForeignArgs → Machine → ForeignResult

/-- The fields of `Arguments` the file reads. `total()` is the number of
arguments. -/
structure Arguments where
  recv : Object
  block : Object
  arguments : List Object
deriving DecidableEq, Repr

/-- The method `Arguments::total()`. -/
def Arguments.total (args : Arguments) : Nat := args.arguments.length

/-- The fields of `Dispatch` the file reads. -/
structure Dispatch where
  name : Word
  method : NativeMethod

/-- The declarations the file takes from headers that are not part of the sources. -/
structure Headers where
  /-- The test `Object::reference_p()`, and below the other tag tests of `Object`. -/
  reference_p : Object → Bool
  fixnum_p : Object → Bool
  symbol_p : Object → Bool
  nil_p : Object → Bool
  false_p : Object → Bool
  true_p : Object → Bool
  Qnil : Object
  Qtrue : Object
  Qfalse : Object
  Qundef : Object
  /-- The tag tests of `VALUE`. -/
  CAPI_REFERENCE_P : VALUE → Bool
  FIXNUM_P : VALUE → Bool
  SYMBOL_P : VALUE → Bool
  CAPI_FALSE_P : VALUE → Bool
  CAPI_TRUE_P : VALUE → Bool
  CAPI_NIL_P : VALUE → Bool
  CAPI_UNDEF_P : VALUE → Bool
  cCApiHandleQnil : VALUE
  cCApiHandleQfalse : VALUE
  cCApiHandleQtrue : VALUE
  cCApiHandleQundef : VALUE
  /-- The arity code of extension entry points. -/
  INIT_FUNCTION : Int
  /-- The address `operator new` gives the `k`-th Handle it allocates. -/
  handle_addr : Nat → Word
  /-- The method `Arguments::as_array(state)`: the managed Array holding the arguments, and the
  memory after its allocation. -/
  as_array : List Object → (Word → Word) → Object × (Word → Word)
  /-- The effect of a conversion routine on managed objects and mirrors. -/
  convert : Conversion → (Word → Word) → (Word → Word)

/-- Arity -3: `VALUE func(VALUE argument_array)`. -/
def ARGS_IN_RUBY_ARRAY : Int := -3

/-- Arity -2: `VALUE func(VALUE receiver, VALUE argument_array)`. -/
def RECEIVER_PLUS_ARGS_IN_RUBY_ARRAY : Int := -2

/-- Arity -1: `VALUE func(int argument_count, VALUE*, VALUE receiver)`. -/
def ARG_COUNT_ARGS_IN_C_ARRAY_PLUS_RECEIVER : Int := -1

/-- Overwrite one cell of a memory. -/
def store {α : Type} (mem : Word → α) (addr : Word) (a : α) : Word → α :=
  fun x => if x = addr then a else mem x

namespace capi

/-- Modelled from the spec: `capi::capi_raise_runtime_error` is declared in
`capi/capi.hpp`. The error is "surfaced as a managed runtime error raised into the
managed exception mechanism": the exception becomes the thread's exception and
control goes to the current exception point; the call does not return. -/
def capi_raise_runtime_error {α : Type} (msg : RuntimeErrorMessage) : Exec α := fun m =>
  ⟨.raised, { m with thread_state := some (.runtime_error msg) },
    [.raise_exception (.runtime_error msg)]⟩

/-- Modelled from the spec: `new capi::Handle(state, obj)`. A Handle is created at
the next address of the allocator, valid, with back-reference `obj` and no reference
counted yet; its address is returned. -/
def new_Handle (hd : Headers) (obj : Object) : Exec Word := fun m =>
  let addr := hd.handle_addr m.shared.handles_allocated
  ⟨.returned addr,
    { m with shared := { m.shared with
        handle_mem := store m.shared.handle_mem addr ⟨obj, 0, true, .cUnknown⟩
        handles_allocated := m.shared.handles_allocated + 1 } },
    [.handle_created addr obj]⟩

/-- The call `state->shared.global_handles()->add(handle)`. -/
def global_handles_add (handle : Word) : Exec Unit :=
  modifyMachine fun m =>
    { m with shared := { m.shared with global_handles := m.shared.global_handles ++ [handle] } }

/-- The call `handle->ref()`. -/
def Handle_ref (handle : Word) : Exec Unit := fun m =>
  ⟨.returned (),
    { m with shared := { m.shared with
        handle_mem := store m.shared.handle_mem handle (m.shared.handle_mem handle).ref } },
    [.handle_ref handle]⟩

/-- The call `handle->deref()`. -/
def Handle_deref (handle : Word) : Exec Unit := fun m =>
  ⟨.returned (),
    { m with shared := { m.shared with
        handle_mem := store m.shared.handle_mem handle (m.shared.handle_mem handle).deref } },
    [.handle_deref handle]⟩

/-- A call of a conversion routine of the C-API (`capi_get_array` and the like, defined
outside this file): it is recorded and changes managed objects and mirrors as
`Headers.convert` says; the routines are taken to leave Handles, handle tables and
frames alone. -/
def call_conversion (hd : Headers) (c : Conversion) : Exec Unit := fun m =>
  ⟨.returned (),
    { m with shared := { m.shared with memory := hd.convert c m.shared.memory } },
    [.conversion c]⟩

end capi

/-- The call `obj->set_table_ivar(state, state->symbol("capi_handle"), wrapper)`, with
`wrapper = CApiHandle::create(state, handle)`. -/
def set_table_ivar_capi_handle (obj : Object) (handle : Word) : Exec Unit :=
  modifyMachine fun m =>
    { m with shared := { m.shared with
        capi_handle_ivar := store m.shared.capi_handle_ivar obj (.wrapper handle) } }

/-- The call `handles_.insert(handle)` on the frame at `self`. -/
def NativeMethodFrame.handles_insert (self : Word) (handle : Word) : Exec Unit :=
  modifyMachine fun m =>
    { m with
      frame_mem := store m.frame_mem self
        { m.frame_mem self with handles_ := (m.frame_mem self).handles_.insert handle } }

/-- The function `VALUE NativeMethodFrame::get_handle(STATE, Object* obj)`. -/
def NativeMethodFrame.get_handle (hd : Headers) (self : Word) (obj : Object) : Exec VALUE := do
  let m ← getMachine
  let existing := m.shared.capi_handle_ivar obj
  let handle ←
    match existing.try_as_CApiHandle with
    | some wrapper_handle => pure wrapper_handle
    | none => do
      let handle ← capi.new_Handle hd obj
      capi.global_handles_add handle
      set_table_ivar_capi_handle obj handle
      pure handle
  capi.Handle_ref handle
  NativeMethodFrame.handles_insert self handle
  pure (capi.Handle.as_value handle)

/-- The function `Object* NativeMethodFrame::get_object(VALUE val)`. -/
def NativeMethodFrame.get_object (val : VALUE) : Exec Object := do
  let m ← getMachine
  pure (m.shared.handle_mem (capi.Handle.from_ val)).object

/-- The body of the loop of `flush_cached_data` for the cached Handle at `i`. -/
def NativeMethodFrame.flush_cached_data_body (hd : Headers) (i : Word) : Exec Unit := do
  let m ← getMachine
  match (m.shared.handle_mem i).type_ with
  | .cRArray => capi.call_conversion hd (.capi_get_array (capi.Handle.as_value i))
  | .cRString => capi.call_conversion hd (.capi_get_string (capi.Handle.as_value i))
  | .cRData => capi.call_conversion hd (.capi_rdata_flush_handle i)
  | .cRFloat => capi.call_conversion hd (.capi_get_float (capi.Handle.as_value i))
  | .cUnknown => pure ()

/-- The body of the loop of `update_cached_data` for the cached Handle at `i`. -/
def NativeMethodFrame.update_cached_data_body (hd : Headers) (i : Word) : Exec Unit := do
  let m ← getMachine
  match (m.shared.handle_mem i).type_ with
  | .cRArray => capi.call_conversion hd (.capi_update_array (capi.Handle.as_value i))
  | .cRString => capi.call_conversion hd (.capi_update_string (capi.Handle.as_value i))
  | _ => pure ()

/-- A `for` loop over a list of pointers. -/
def for_each (body : Word → Exec Unit) : List Word → Exec Unit
  | [] => pure ()
  | i :: rest => do
    body i
    for_each body rest

/-- The function `void NativeMethodFrame::flush_cached_data()`. -/
def NativeMethodFrame.flush_cached_data (hd : Headers) : Exec Unit := do
  let m ← getMachine
  let handles := m.shared.cached_handles
  if handles.length > 0 then
    for_each (NativeMethodFrame.flush_cached_data_body hd) handles
  else
    pure ()

/-- The function `void NativeMethodFrame::update_cached_data()`. -/
def NativeMethodFrame.update_cached_data (hd : Headers) : Exec Unit := do
  let m ← getMachine
  let handles := m.shared.cached_handles
  if handles.length > 0 then
    for_each (NativeMethodFrame.update_cached_data_body hd) handles
  else
    pure ()

/-- The constructor `NativeMethodFrame::NativeMethodFrame(NativeMethodFrame* prev)`,
constructing the frame at address `self`: no handles, no table allocated. -/
def NativeMethodFrame.construct (self : Word) (prev : Word) : Exec Unit := fun m =>
  ⟨.returned (),
    { m with frame_mem := store m.frame_mem self ⟨prev, [], false, false, false⟩ },
    [.frame_constructed self]⟩

/-- The destructor `NativeMethodFrame::~NativeMethodFrame()`. -/
def NativeMethodFrame.destroy (hd : Headers) (self : Word) : Exec Unit := do
  emit (.frame_destroyed self)
  NativeMethodFrame.flush_cached_data hd
  let m ← getMachine
  for_each capi.Handle_deref (m.frame_mem self).handles_

/-- The function `VALUE NativeMethodEnvironment::get_handle(Object* obj)`. The member call
through `current_native_frame_` dereferences that pointer: through a null pointer the
behaviour is undefined. -/
def NativeMethodEnvironment.get_handle (hd : Headers) (obj : Object) : Exec VALUE := do
  let m ← getMachine
  if hd.reference_p obj then
    if m.env.current_native_frame_ = NULL then
      stop .undefined
    else
      NativeMethodFrame.get_handle hd m.env.current_native_frame_ obj
  else if hd.fixnum_p obj || hd.symbol_p obj then
    pure obj
  else if hd.nil_p obj then
    pure hd.cCApiHandleQnil
  else if hd.false_p obj then
    pure hd.cCApiHandleQfalse
  else if hd.true_p obj then
    pure hd.cCApiHandleQtrue
  else if obj = hd.Qundef then
    pure hd.cCApiHandleQundef
  else
    capi.capi_raise_runtime_error .handle_requested_for_unknown_object_type

/-- The function `Object* NativeMethodEnvironment::get_object(VALUE val)`. For an invalid
Handle: `handle->debug_print(); rubinius::abort();`. -/
def NativeMethodEnvironment.get_object (hd : Headers) (val : VALUE) : Exec Object := do
  let m ← getMachine
  if hd.CAPI_REFERENCE_P val then
    let handle := capi.Handle.from_ val
    if !(m.shared.handle_mem handle).valid_p then
      stop .aborted
    else
      pure (m.shared.handle_mem handle).object
  else if hd.FIXNUM_P val || hd.SYMBOL_P val then
    pure val
  else if hd.CAPI_FALSE_P val then
    pure hd.Qfalse
  else if hd.CAPI_TRUE_P val then
    pure hd.Qtrue
  else if hd.CAPI_NIL_P val then
    pure hd.Qnil
  else if hd.CAPI_UNDEF_P val then
    pure hd.Qundef
  else
    capi.capi_raise_runtime_error .requested_Object_for_unknown_handle_type

/-- The function `Object* NativeMethodEnvironment::block()`. -/
def NativeMethodEnvironment.block : Exec Object := do
  let m ← getMachine
  pure m.env.current_block_

/-- The method `Arguments::get_argument(i)`: the `i`-th argument; reading past the end of
the argument list is undefined. -/
def Arguments.get_argument (args : Arguments) (i : Nat) : Exec Object :=
  match args.arguments[i]? with
  | some obj => pure obj
  | none => stop .undefined

/-- The method `Arguments::as_array(state)`. -/
def Arguments.as_array (hd : Headers) (args : Arguments) : Exec Object := fun m =>
  ⟨.returned (hd.as_array args.arguments m.shared.memory).1,
    { m with shared := { m.shared with
        memory := (hd.as_array args.arguments m.shared.memory).2 } },
    []⟩

/-- The call of the foreign function pointer, cast to the functor type of `a`. When
control leaves the foreign function through the exception point, the call does not
return. -/
def NativeMethod.invoke (nm : NativeMethod) (a : ForeignArgs) : Exec VALUE := fun m =>
  match nm.functor a m with
  | ⟨some ret, m1⟩ => ⟨.returned ret, m1, [.foreign_call a]⟩
  | ⟨none, m1⟩ => ⟨.raised, m1, [.foreign_call a]⟩

/-- The loop `for (i = 0; i < args.total(); ++i) ary[i] = env->get_handle(args.get_argument(i))`
of the arity -1 case, from index `i` with `remaining = args.total() - i` rounds to go;
`ary` holds the elements already written. -/
def NativeMethod.call_fill_ary (hd : Headers) (args : Arguments) :
    (remaining : Nat) → (i : Nat) → (ary : List VALUE) → Exec (List VALUE)
  | 0, _, ary => pure ary
  | remaining + 1, i, ary => do
    let obj ← args.get_argument i
    let v ← NativeMethodEnvironment.get_handle hd obj
    NativeMethod.call_fill_ary hd args remaining (i + 1) (ary ++ [v])

/-- The function
`Object* NativeMethod::call(STATE, NativeMethodEnvironment* env, Arguments& args)`.
The `switch` on `arity()->to_int()` is the chain of tests on the case labels, in the
order of the source. -/
def NativeMethod.call (hd : Headers) (nm : NativeMethod) (args : Arguments) : Exec Object := do
  let receiver ← NativeMethodEnvironment.get_handle hd args.recv
  if nm.arity = ARGS_IN_RUBY_ARRAY then do
    let array ← args.as_array hd
    let ary ← NativeMethodEnvironment.get_handle hd array
    let ret ← nm.invoke (.OneArgFunctor ary)
    NativeMethodEnvironment.get_object hd ret
  else if nm.arity = RECEIVER_PLUS_ARGS_IN_RUBY_ARRAY then do
    let array ← args.as_array hd
    let ary ← NativeMethodEnvironment.get_handle hd array
    let ret ← nm.invoke (.TwoArgFunctor receiver ary)
    NativeMethodEnvironment.get_object hd ret
  else if nm.arity = ARG_COUNT_ARGS_IN_C_ARRAY_PLUS_RECEIVER then do
    emit (.new_array args.total)
    let ary ← NativeMethod.call_fill_ary hd args args.total 0 []
    let ret ← nm.invoke (.ArgcFunctor args.total ary receiver)
    emit .delete_array
    NativeMethodEnvironment.get_object hd ret
  else if nm.arity = 0 then do
    let ret ← nm.invoke (.OneArgFunctor receiver)
    NativeMethodEnvironment.get_object hd ret
  else if nm.arity = 1 then do
    let a1 ← NativeMethodEnvironment.get_handle hd (← args.get_argument 0)
    let ret ← nm.invoke (.TwoArgFunctor receiver a1)
    NativeMethodEnvironment.get_object hd ret
  else if nm.arity = 2 then do
    let a1 ← NativeMethodEnvironment.get_handle hd (← args.get_argument 0)
    let a2 ← NativeMethodEnvironment.get_handle hd (← args.get_argument 1)
    let ret ← nm.invoke (.ThreeArgFunctor receiver a1 a2)
    NativeMethodEnvironment.get_object hd ret
  else if nm.arity = 3 then do
    let a1 ← NativeMethodEnvironment.get_handle hd (← args.get_argument 0)
    let a2 ← NativeMethodEnvironment.get_handle hd (← args.get_argument 1)
    let a3 ← NativeMethodEnvironment.get_handle hd (← args.get_argument 2)
    let ret ← nm.invoke (.FourArgFunctor receiver a1 a2 a3)
    NativeMethodEnvironment.get_object hd ret
  else if nm.arity = 4 then do
    let a1 ← NativeMethodEnvironment.get_handle hd (← args.get_argument 0)
    let a2 ← NativeMethodEnvironment.get_handle hd (← args.get_argument 1)
    let a3 ← NativeMethodEnvironment.get_handle hd (← args.get_argument 2)
    let a4 ← NativeMethodEnvironment.get_handle hd (← args.get_argument 3)
    let ret ← nm.invoke (.FiveArgFunctor receiver a1 a2 a3 a4)
    NativeMethodEnvironment.get_object hd ret
  else if nm.arity = 5 then do
    let a1 ← NativeMethodEnvironment.get_handle hd (← args.get_argument 0)
    let a2 ← NativeMethodEnvironment.get_handle hd (← args.get_argument 1)
    let a3 ← NativeMethodEnvironment.get_handle hd (← args.get_argument 2)
    let a4 ← NativeMethodEnvironment.get_handle hd (← args.get_argument 3)
    let a5 ← NativeMethodEnvironment.get_handle hd (← args.get_argument 4)
    let ret ← nm.invoke (.SixArgFunctor receiver a1 a2 a3 a4 a5)
    NativeMethodEnvironment.get_object hd ret
  else if nm.arity = hd.INIT_FUNCTION then do
    let _ ← nm.invoke .InitFunctor
    pure hd.Qnil
  else
    capi.capi_raise_runtime_error .unrecognized_arity

/-- The call `state->thread_state()->raise_exception(exc)`: the exception becomes the
thread's exception; the call returns. -/
def raise_exception (exc : Exception) : Exec Unit := fun m =>
  ⟨.returned (), { m with thread_state := some exc }, [.raise_exception exc]⟩

/-- The exception point of a crossing (`ExceptionPoint ep(env); PLACE_EXCEPTION_POINT(ep);`
and the test of `ep.jumped_to()`): when control arrives through the exception point,
`ret = NULL`; otherwise `ret` is what the body returns. -/
def exception_point (body : Exec Object) : Exec Object := fun m =>
  match body m with
  | ⟨.raised, m1, t1⟩ => ⟨.returned NULL, m1, t1⟩
  | ⟨o, m1, t1⟩ => ⟨o, m1, t1⟩

/-- The call `env->set_current_call_frame(frame)`. -/
def NativeMethodEnvironment.set_current_call_frame (frame : Word) : Exec Unit :=
  modifyMachine fun m => { m with env := { m.env with current_call_frame_ := frame } }

/-- The call `env->set_current_native_frame(frame)`. -/
def NativeMethodEnvironment.set_current_native_frame (frame : Word) : Exec Unit :=
  modifyMachine fun m => { m with env := { m.env with current_native_frame_ := frame } }

/-- The call `env->set_current_block(block)`. -/
def NativeMethodEnvironment.set_current_block (block : Object) : Exec Unit :=
  modifyMachine fun m => { m with env := { m.env with current_block_ := block } }

/-- The function `Object* NativeMethod::executor_implementation(STATE, CallFrame* call_frame,
Dispatch& msg, Arguments& args)`. `nmf` is the address of the local variable
`NativeMethodFrame nmf`, which is destroyed when the function returns. The profiler
branch calls `nm->call` exactly like the other branch. `ep.pop(env)` retires the
exception point, whose chain is kept outside this file; it has no counterpart here. -/
def NativeMethod.executor_implementation (hd : Headers) (nmf : Word) (call_frame : Word)
    (msg : Dispatch) (args : Arguments) : Exec Object := do
  let nm := msg.method
  let arity := nm.arity
  if arity ≥ 0 ∧ arity.toNat ≠ args.total then
    let exc := Exception.argument_error arity args.total msg.name call_frame
    raise_exception exc
    pure NULL
  else
    let m ← getMachine
    NativeMethodFrame.construct nmf m.env.current_native_frame_
    let saved_frame := m.env.current_call_frame_
    let saved_block ← NativeMethodEnvironment.block
    NativeMethodEnvironment.set_current_call_frame call_frame
    NativeMethodEnvironment.set_current_native_frame nmf
    NativeMethodEnvironment.set_current_block args.block
    let ret ← exception_point (nm.call hd args)
    NativeMethodEnvironment.set_current_block saved_block
    NativeMethodEnvironment.set_current_call_frame saved_frame
    let m1 ← getMachine
    NativeMethodEnvironment.set_current_native_frame (m1.frame_mem nmf).previous_
    NativeMethodFrame.destroy hd nmf
    pure ret

/-! ## An instance of the header declarations

A tag scheme in the style of the VM, used to evaluate the functions on concrete
inputs: references are the words that are multiples of four, small integers the odd
words, symbols the words `6 mod 8`; a Handle's foreign value is a non-null multiple
of four. -/

/-- A concrete choice for everything `Headers` leaves open. -/
def tagged : Headers where
  reference_p := fun (o : Nat) => o % 4 == 0
  fixnum_p := fun (o : Nat) => o % 2 == 1
  symbol_p := fun (o : Nat) => o % 8 == 6
  nil_p := fun (o : Nat) => o == 26
  false_p := fun (o : Nat) => o == 10
  true_p := fun (o : Nat) => o == 18
  Qnil := (26 : Nat)
  Qtrue := (18 : Nat)
  Qfalse := (10 : Nat)
  Qundef := (34 : Nat)
  CAPI_REFERENCE_P := fun (v : Nat) => v != 0 && v % 4 == 0
  FIXNUM_P := fun (v : Nat) => v % 2 == 1
  SYMBOL_P := fun (v : Nat) => v % 8 == 6
  CAPI_FALSE_P := fun (v : Nat) => v == 0
  CAPI_TRUE_P := fun (v : Nat) => v == 34
  CAPI_NIL_P := fun (v : Nat) => v == 66
  CAPI_UNDEF_P := fun (v : Nat) => v == 98
  cCApiHandleQnil := (66 : Nat)
  cCApiHandleQfalse := (0 : Nat)
  cCApiHandleQtrue := (34 : Nat)
  cCApiHandleQundef := (98 : Nat)
  INIT_FUNCTION := -99
  handle_addr := fun (k : Nat) => 8 * (k + 1)
  as_array := fun _ mem => (4096, mem)
  convert := fun _ mem => mem

/-- A machine in which nothing has happened yet: no Handle, empty tables, every
`capi_handle` slot unset, no frame, no exception. -/
def Machine.initial (hd : Headers) : Machine where
  env := ⟨NULL, NULL, hd.Qnil⟩
  frame_mem := fun _ => ⟨NULL, [], false, false, false⟩
  shared :=
    { handle_mem := fun _ => ⟨hd.Qnil, 0, false, .cUnknown⟩
      handles_allocated := 0
      global_handles := []
      cached_handles := []
      capi_handle_ivar := fun _ => .other hd.Qnil
      memory := fun _ => 0 }
  thread_state := none

/-- A foreign function that returns its last parameter and changes nothing. -/
def echo_functor : ForeignArgs → Machine → ForeignResult :=
  fun a m => ⟨some (a.values.getLastD 0), m⟩

/-- A foreign function that raises: control leaves it through the exception point, and
it changes nothing. -/
def raise_functor : ForeignArgs → Machine → ForeignResult :=
  fun _ m => ⟨none, m⟩

/-! ## The encoding contract -/

/-- The classes of `Object*` words the tag tests of `Object` distinguish, in the order
`NativeMethodEnvironment::get_handle` tests them. -/
def Headers.object_classes (hd : Headers) (o : Object) : List Bool :=
  [hd.reference_p o, hd.fixnum_p o, hd.symbol_p o, hd.nil_p o, hd.false_p o, hd.true_p o,
    o == hd.Qundef]

/-- The classes of `VALUE` words the tag tests of the C-API distinguish. -/
def Headers.value_classes (hd : Headers) (v : VALUE) : List Bool :=
  [hd.CAPI_REFERENCE_P v, hd.FIXNUM_P v, hd.SYMBOL_P v, hd.CAPI_FALSE_P v, hd.CAPI_TRUE_P v,
    hd.CAPI_NIL_P v, hd.CAPI_UNDEF_P v]

/-- The word is an object of one of the seven classes. -/
def Headers.known_p (hd : Headers) (o : Object) : Bool := (hd.object_classes o).any id

/-- The word is an immediate: of one of the six classes other than heap reference. -/
def Headers.immediate_p (hd : Headers) (o : Object) : Bool :=
  !hd.reference_p o && hd.known_p o

/-- The word is a foreign value of one of the seven encodings. -/
def Headers.known_value_p (hd : Headers) (v : VALUE) : Bool := (hd.value_classes v).any id

/-- Modelled from the spec: the tag tests and sentinel constants are declared in
headers that are not part of the sources. The spec's encoding contract: "exactly one
bit pattern class is reserved for each of {heap handle, small integer, symbol, nil,
true, false, undefined}"; "sentinel values for nil/true/false/undefined are fixed
constants"; small integers and symbols are "encoded directly in the foreign value's
bit pattern"; a Handle's foreign value is a heap-handle pattern, and `operator new`
never returns the address of a Handle that is still allocated. -/
structure Headers.EncodingContract (hd : Headers) : Prop where
  object_classes_disjoint : ∀ o, (hd.object_classes o).count true ≤ 1
  value_classes_disjoint : ∀ v, (hd.value_classes v).count true ≤ 1
  nil_p_iff : ∀ o, hd.nil_p o = true ↔ o = hd.Qnil
  false_p_iff : ∀ o, hd.false_p o = true ↔ o = hd.Qfalse
  true_p_iff : ∀ o, hd.true_p o = true ↔ o = hd.Qtrue
  CAPI_NIL_P_iff : ∀ v, hd.CAPI_NIL_P v = true ↔ v = hd.cCApiHandleQnil
  CAPI_FALSE_P_iff : ∀ v, hd.CAPI_FALSE_P v = true ↔ v = hd.cCApiHandleQfalse
  CAPI_TRUE_P_iff : ∀ v, hd.CAPI_TRUE_P v = true ↔ v = hd.cCApiHandleQtrue
  CAPI_UNDEF_P_iff : ∀ v, hd.CAPI_UNDEF_P v = true ↔ v = hd.cCApiHandleQundef
  FIXNUM_P_eq : ∀ w, hd.FIXNUM_P w = hd.fixnum_p w
  SYMBOL_P_eq : ∀ w, hd.SYMBOL_P w = hd.symbol_p w
  handle_addr_reference : ∀ k, hd.CAPI_REFERENCE_P (hd.handle_addr k) = true
  handle_addr_injective : ∀ j k, hd.handle_addr j = hd.handle_addr k → j = k

/-- The machine after `NativeMethodFrame::get_handle` found the Handle `h` in the slot
of the object: one more reference on `h`, and `h` in the handle set of the frame. -/
def Machine.after_found (m : Machine) (self h : Word) : Machine :=
  { m with
    frame_mem := store m.frame_mem self
      { m.frame_mem self with handles_ := (m.frame_mem self).handles_.insert h }
    shared := { m.shared with
      handle_mem := store m.shared.handle_mem h (m.shared.handle_mem h).ref } }

/-- The machine after `NativeMethodFrame::get_handle` created a Handle for `obj` at
address `h`. -/
def Machine.after_created (m : Machine) (self h : Word) (obj : Object) : Machine :=
  { m with
    frame_mem := store m.frame_mem self
      { m.frame_mem self with handles_ := (m.frame_mem self).handles_.insert h }
    shared := { m.shared with
      handle_mem := store m.shared.handle_mem h ⟨obj, 1, true, .cUnknown⟩
      handles_allocated := m.shared.handles_allocated + 1
      global_handles := m.shared.global_handles ++ [h]
      capi_handle_ivar := store m.shared.capi_handle_ivar obj (.wrapper h) } }

/-! ## Notions used to state the properties -/

/-- Every Handle recorded in the `capi_handle` slot of an object was allocated by
`operator new`, is valid, and refers back to that object. `NativeMethodFrame::get_handle`
is the only code that writes the slot, and it keeps this true
(`NativeMethodFrame.get_handle_sound`). -/
structure Machine.handles_sound (hd : Headers) (m : Machine) : Prop where
  allocated : ∀ o h, m.shared.capi_handle_ivar o = .wrapper h →
    ∃ k, k < m.shared.handles_allocated ∧ h = hd.handle_addr k
  valid : ∀ o h, m.shared.capi_handle_ivar o = .wrapper h →
    (m.shared.handle_mem h).valid_ = true
  object : ∀ o h, m.shared.capi_handle_ivar o = .wrapper h →
    (m.shared.handle_mem h).object_ = o

/-- The initial machine, entered into a crossing whose frame is at `frame`. -/
def Machine.entered (hd : Headers) (frame : Word) : Machine :=
  { Machine.initial hd with env := ⟨NULL, frame, hd.Qnil⟩ }

/-- The event is the invocation of a foreign function pointer. -/
def Event.is_foreign_call : Event → Bool
  | .foreign_call _ => true
  | _ => false

/-- The event is the raise of an ArgumentError. -/
def Event.is_argument_error : Event → Bool
  | .raise_exception (.argument_error _ _ _ _) => true
  | _ => false

/-- The event is the creation of a Handle. -/
def Event.is_handle_created : Event → Bool
  | .handle_created _ _ => true
  | _ => false

/-- The Handle an event releases, when the event is a `deref`. -/
def Event.deref_target : Event → Option Word
  | .handle_deref h => some h
  | _ => none

/-- The Handles released in a trace, in order. -/
def releases (trace : List Event) : List Word := trace.filterMap Event.deref_target

/-- The foreign calls of a trace, in order. -/
def foreign_calls (trace : List Event) : List Event := trace.filter Event.is_foreign_call

/-- The function `NativeMethodEnvironment::get_handle` applied to each object of a list, in order;
the values it returned, in the same order. -/
def get_handles (hd : Headers) : List Object → Exec (List VALUE)
  | [] => pure []
  | obj :: rest => do
    let v ← NativeMethodEnvironment.get_handle hd obj
    let vs ← get_handles hd rest
    pure (v :: vs)

/-- A sequence of mints: `NativeMethodFrame::get_handle(obj)` through the frame at
`self`, for each pair `(self, obj)` in order; each value returned, with its frame. -/
def mints (hd : Headers) : List (Word × Object) → Exec (List (Word × VALUE))
  | [] => pure []
  | (self, obj) :: rest => do
    let v ← NativeMethodFrame.get_handle hd self obj
    let vs ← mints hd rest
    pure ((self, v) :: vs)

/-- The parameter list of a fixed-arity foreign call with the given values: the
receiver's handle, then one value per argument. -/
def positional_args : List VALUE → ForeignArgs
  | [r] => .OneArgFunctor r
  | [r, a1] => .TwoArgFunctor r a1
  | [r, a1, a2] => .ThreeArgFunctor r a1 a2
  | [r, a1, a2, a3] => .FourArgFunctor r a1 a2 a3
  | [r, a1, a2, a3, a4] => .FiveArgFunctor r a1 a2 a3 a4
  | [r, a1, a2, a3, a4, a5] => .SixArgFunctor r a1 a2 a3 a4 a5
  | _ => .InitFunctor

/-- The arity codes `NativeMethod::call` has a case for. -/
def Headers.supported_arity (hd : Headers) (arity : Int) : Prop :=
  arity = -3 ∨ arity = -2 ∨ arity = -1 ∨ (0 ≤ arity ∧ arity ≤ 5) ∨ arity = hd.INIT_FUNCTION

/-- Every event the function can record, from any machine, satisfies `P`. -/
def Exec.emits_only {α : Type} (P : Event → Prop) (x : Exec α) : Prop :=
  ∀ m, ∀ e ∈ (x m).trace, P e

/-- The event is neither a foreign call nor the raise of an ArgumentError. -/
def Event.bookkeeping (e : Event) : Prop :=
  e.is_foreign_call = false ∧ e.is_argument_error = false

/-- The machine at the start of the body of a crossing: the frame at `nmf` is
constructed on top of the current one, and the environment points to the new triple. -/
def Machine.enter (m : Machine) (nmf call_frame : Word) (block : Object) : Machine :=
  { m with
    env := ⟨call_frame, nmf, block⟩
    frame_mem := store m.frame_mem nmf ⟨m.env.current_native_frame_, [], false, false, false⟩ }

/-- The machine after the three `set_current_...` calls that end a crossing. -/
def Machine.leave (m : Machine) (nmf saved_frame : Word) (saved_block : Object) : Machine :=
  { m with env := ⟨saved_frame, (m.frame_mem nmf).previous_, saved_block⟩ }

/-- The body of a crossing, from the exception point on: the call under the exception
point, then the three `set_current_...` calls that restore the environment, the
destructor of the frame, and the return of `ret`. -/
def NativeMethod.crossing (hd : Headers) (nm : NativeMethod) (args : Arguments)
    (nmf saved_frame : Word) (saved_block : Object) : Exec Object :=
  Exec.bind (exception_point (nm.call hd args)) fun ret =>
    Exec.bind (modifyMachine fun m1 => m1.leave nmf saved_frame saved_block) fun _ =>
      Exec.bind (NativeMethodFrame.destroy hd nmf) fun _ => Exec.pure ret

/-- Every Handle recorded in a `capi_handle` slot of `m` is still recorded there in
`m2`. -/
def Machine.keeps_slots (m m2 : Machine) : Prop :=
  ∀ o h, m.shared.capi_handle_ivar o = .wrapper h → m2.shared.capi_handle_ivar o = .wrapper h

/-- From `m` to `m1` only Handle objects and managed objects or mirrors changed: the
environment, the frames, the thread's exception and the handle tables are the same. -/
def Machine.only_heap_changed (m m1 : Machine) : Prop :=
  m1.env = m.env ∧ m1.frame_mem = m.frame_mem ∧ m1.thread_state = m.thread_state ∧
    m1.shared.global_handles = m.shared.global_handles ∧
    m1.shared.cached_handles = m.shared.cached_handles ∧
    m1.shared.capi_handle_ivar = m.shared.capi_handle_ivar

/-- A machine with a stale Handle: the Handle at `8` still refers to the object at
`1000`, but is marked invalid. -/
def Machine.stale (hd : Headers) : Machine :=
  { Machine.entered hd 64 with
    shared := { (Machine.initial hd).shared with
      handle_mem := store (Machine.initial hd).shared.handle_mem 8 ⟨1000, 1, false, .cUnknown⟩
      handles_allocated := 1
      global_handles := [8] } }

/-- The Handle an event creates, when the event is the creation of a Handle. -/
def Event.created_handle : Event → Option Word
  | .handle_created h _ => some h
  | _ => none

/-- The Handles created in a trace, in order. -/
def created_handles (trace : List Event) : List Word := trace.filterMap Event.created_handle

/-- The conversion routine the loop of `flush_cached_data` calls for a cached Handle at
`i` of the given kind, if it calls one. -/
def flush_conversion : capi.HandleType → Word → Option Conversion
  | .cRArray, i => some (.capi_get_array (capi.Handle.as_value i))
  | .cRString, i => some (.capi_get_string (capi.Handle.as_value i))
  | .cRData, i => some (.capi_rdata_flush_handle i)
  | .cRFloat, i => some (.capi_get_float (capi.Handle.as_value i))
  | .cUnknown, _ => none

/-- The conversion routine the loop of `update_cached_data` calls for a cached Handle
at `i` of the given kind, if it calls one. -/
def update_conversion : capi.HandleType → Word → Option Conversion
  | .cRArray, i => some (.capi_update_array (capi.Handle.as_value i))
  | .cRString, i => some (.capi_update_string (capi.Handle.as_value i))
  | _, _ => none

/-- The events a flush of the cached Handles of `m` records: one conversion per cached
Handle of kind array, string, data or float, in the order of the table. -/
def Machine.flush_events (m : Machine) : List Event :=
  m.shared.cached_handles.filterMap fun i =>
    (flush_conversion (m.shared.handle_mem i).type_ i).map Event.conversion

/-- The events an update of the cached Handles of `m` records: one conversion per
cached Handle of kind array or string, in the order of the table. -/
def Machine.update_events (m : Machine) : List Event :=
  m.shared.cached_handles.filterMap fun i =>
    (update_conversion (m.shared.handle_mem i).type_ i).map Event.conversion

/-- From `m` to `m1` nothing changed but managed objects and mirrors (`memory`). -/
def Machine.only_memory_changed (m m1 : Machine) : Prop :=
  m1 = { m with shared := { m.shared with memory := m1.shared.memory } }

/-- A machine with one cached conversion: the object at `1000` has the Handle at `8`,
of kind array, which is in the table of cached Handles. -/
def Machine.cached (hd : Headers) : Machine :=
  { Machine.initial hd with
    shared := { (Machine.initial hd).shared with
      handle_mem := store (Machine.initial hd).shared.handle_mem 8 ⟨1000, 0, true, .cRArray⟩
      handles_allocated := 1
      global_handles := [8]
      cached_handles := [8]
      capi_handle_ivar := store (Machine.initial hd).shared.capi_handle_ivar 1000 (.wrapper 8) } }

/-- The Handle a mint of `obj` yields on `m`: the one recorded in the slot of `obj`, or
else the one `operator new` allocates next. -/
def Machine.handle_of (hd : Headers) (m : Machine) (obj : Object) : Word :=
  match m.shared.capi_handle_ivar obj with
  | .wrapper h => h
  | .other _ => hd.handle_addr m.shared.handles_allocated

/-- The reference count of the Handle of `obj` before a mint on `m`: the count of the
recorded Handle, or else the count a Handle is created with. -/
def Machine.count_before (m : Machine) (obj : Object) : Int :=
  match m.shared.capi_handle_ivar obj with
  | .wrapper h => (m.shared.handle_mem h).references_
  | .other _ => 0

/-- The function leaves every machine `m` in a machine related to `m` by `R`. -/
def Exec.preserves {α : Type} (R : Machine → Machine → Prop) (x : Exec α) : Prop :=
  ∀ m, R m (x m).m

/-- From `m` to `m1` the environment is the same and every frame has the previous
frame it had. -/
def Machine.same_control (m m1 : Machine) : Prop :=
  m1.env = m.env ∧ ∀ f, (m1.frame_mem f).previous_ = (m.frame_mem f).previous_

/-- From `m` to `m1` the frame at `nmf` has the previous frame it had. -/
def Machine.same_previous (nmf : Word) (m m1 : Machine) : Prop :=
  (m1.frame_mem nmf).previous_ = (m.frame_mem nmf).previous_

/-- The native method whose foreign function runs only when the environment is `E`:
on any other machine it gives up at once. It serves to state that a foreign function is
invoked only with the environment `E`. -/
def NativeMethod.guarded (nm : NativeMethod) (E : NativeMethodEnvironment) : NativeMethod :=
  { nm with functor := fun a m0 => if m0.env = E then nm.functor a m0 else ⟨none, m0⟩ }

/-- The two functions do the same from every machine that satisfies `I`. -/
def Exec.agree_on {α : Type} (I : Machine → Prop) (x y : Exec α) : Prop :=
  ∀ m, I m → x m = y m

/-- The function keeps `I`: from a machine that satisfies it, it leaves one that does. -/
def Exec.keeps {α : Type} (I : Machine → Prop) (x : Exec α) : Prop :=
  ∀ m, I m → I (x m).m

/-! # Lemmas -/

/-! ## Running sequences -/

theorem Exec.bind_eq {α β : Type} (x : Exec α) (f : α → Exec β) : (x >>= f) = Exec.bind x f := rfl

theorem Exec.pure_eq {α : Type} (a : α) : (Pure.pure a : Exec α) = Exec.pure a := rfl

theorem Exec.bind_returned {α β : Type} (x : Exec α) (f : α → Exec β) (m m1 : Machine)
    (a : α) (t1 : List Event) (h : x m = ⟨.returned a, m1, t1⟩) :
    Exec.bind x f m = ⟨(f a m1).out, (f a m1).m, t1 ++ (f a m1).trace⟩ := by
  simp [Exec.bind, h]

theorem Exec.pure_bind {α β : Type} (a : α) (f : α → Exec β) :
    Exec.bind (Exec.pure a) f = f a := by
  funext m
  simp [Exec.bind, Exec.pure]

theorem Exec.bind_assoc {α β γ : Type} (x : Exec α) (f : α → Exec β) (g : β → Exec γ) :
    Exec.bind (Exec.bind x f) g = Exec.bind x (fun a => Exec.bind (f a) g) := by
  funext m
  simp only [Exec.bind]
  rcases hx : x m with ⟨o, m1, t1⟩
  cases o with
  | returned a =>
    simp only
    rcases hf : f a m1 with ⟨o2, m2, t2⟩
    cases o2 with
    | returned b =>
      simp only
      rcases hg : g b m2 with ⟨o3, m3, t3⟩
      simp
    | raised => simp
    | aborted => simp
    | undefined => simp
  | raised => simp
  | aborted => simp
  | undefined => simp

theorem getMachine_bind {β : Type} (f : Machine → Exec β) (m : Machine) :
    Exec.bind getMachine f m = f m m := by
  simp [Exec.bind, getMachine]

theorem modifyMachine_bind {β : Type} (g : Machine → Machine) (f : Unit → Exec β) (m : Machine) :
    Exec.bind (modifyMachine g) f m = f () (g m) := by
  simp [Exec.bind, modifyMachine]

theorem emit_bind {β : Type} (e : Event) (f : Unit → Exec β) (m : Machine) :
    Exec.bind (emit e) f m = ⟨(f () m).out, (f () m).m, e :: (f () m).trace⟩ := by
  simp [Exec.bind, emit]

/-! ## What one mint does -/

theorem store_same {α : Type} (mem : Word → α) (a : Word) (x : α) : store mem a x a = x := by
  simp [store]

theorem store_store {α : Type} (mem : Word → α) (a : Word) (x y : α) :
    store (store mem a x) a y = store mem a y := by
  funext b
  by_cases hb : b = a <;> simp [store, hb]

theorem NativeMethodFrame.get_handle_found (hd : Headers) (self : Word) (obj : Object)
    (m : Machine) (h : Word) (hslot : m.shared.capi_handle_ivar obj = .wrapper h) :
    NativeMethodFrame.get_handle hd self obj m
      = ⟨.returned h, m.after_found self h, [.handle_ref h]⟩ := by
  simp [NativeMethodFrame.get_handle, Exec.bind_eq, Exec.pure_eq, getMachine, hslot,
    TableIvar.try_as_CApiHandle, Exec.pure_bind, Exec.bind, capi.Handle_ref,
    NativeMethodFrame.handles_insert, modifyMachine, Exec.pure, capi.Handle.as_value,
    Machine.after_found]

theorem NativeMethodFrame.get_handle_created (hd : Headers) (self : Word) (obj : Object)
    (m : Machine) (hslot : (m.shared.capi_handle_ivar obj).try_as_CApiHandle = none) :
    NativeMethodFrame.get_handle hd self obj m
      = ⟨.returned (hd.handle_addr m.shared.handles_allocated),
          m.after_created self (hd.handle_addr m.shared.handles_allocated) obj,
          [.handle_created (hd.handle_addr m.shared.handles_allocated) obj,
           .handle_ref (hd.handle_addr m.shared.handles_allocated)]⟩ := by
  simp [NativeMethodFrame.get_handle, Exec.bind_eq, Exec.pure_eq, getMachine, hslot,
    Exec.bind, capi.Handle_ref, capi.new_Handle, capi.global_handles_add,
    set_table_ivar_capi_handle,
    NativeMethodFrame.handles_insert, modifyMachine, Exec.pure, capi.Handle.as_value,
    Machine.after_created, store_same, store_store, capi.Handle.ref]

/-! ## The instance satisfies the contract -/

theorem tagged_contract : tagged.EncodingContract where
  object_classes_disjoint := by
    intro (o : Nat)
    simp only [Headers.object_classes, tagged, List.count_cons, List.count_nil, beq_iff_eq, Object,
      Word]
    split_ifs <;> omega
  value_classes_disjoint := by
    intro (v : Nat)
    simp only [Headers.value_classes, tagged, List.count_cons, List.count_nil, beq_iff_eq,
      Bool.and_eq_true, bne_iff_ne]
    split_ifs <;> omega
  nil_p_iff := by intro o; simp [tagged]
  false_p_iff := by intro o; simp [tagged]
  true_p_iff := by intro o; simp [tagged]
  CAPI_NIL_P_iff := by intro o; simp [tagged]
  CAPI_FALSE_P_iff := by intro o; simp [tagged]
  CAPI_TRUE_P_iff := by intro o; simp [tagged]
  CAPI_UNDEF_P_iff := by intro o; simp [tagged]
  FIXNUM_P_eq := by intro w; rfl
  SYMBOL_P_eq := by intro w; rfl
  handle_addr_reference := by
    intro k
    simp [tagged]
    omega
  handle_addr_injective := by
    intro j k h
    simp [tagged] at h
    exact h

/-- Of seven class tests of which at most one holds, each one that holds excludes the
other six. -/
theorem classes_exclusive :
    ∀ a b c d e f g : Bool, [a, b, c, d, e, f, g].count true ≤ 1 →
      (a = true → b = false ∧ c = false ∧ d = false ∧ e = false ∧ f = false ∧ g = false) ∧
      (b = true → a = false ∧ c = false ∧ d = false ∧ e = false ∧ f = false ∧ g = false) ∧
      (c = true → a = false ∧ b = false ∧ d = false ∧ e = false ∧ f = false ∧ g = false) ∧
      (d = true → a = false ∧ b = false ∧ c = false ∧ e = false ∧ f = false ∧ g = false) ∧
      (e = true → a = false ∧ b = false ∧ c = false ∧ d = false ∧ f = false ∧ g = false) ∧
      (f = true → a = false ∧ b = false ∧ c = false ∧ d = false ∧ e = false ∧ g = false) ∧
      (g = true → a = false ∧ b = false ∧ c = false ∧ d = false ∧ e = false ∧ f = false) := by
  intro a b c d e f g
  cases a <;> cases b <;> cases c <;> cases d <;> cases e <;> cases f <;> cases g <;> simp

/-! ## The façade of the environment, branch by branch -/

theorem NativeMethodEnvironment.get_handle_reference (hd : Headers) (obj : Object) (m : Machine)
    (href : hd.reference_p obj = true) (hframe : m.env.current_native_frame_ ≠ NULL) :
    NativeMethodEnvironment.get_handle hd obj m
      = NativeMethodFrame.get_handle hd m.env.current_native_frame_ obj m := by
  simp [NativeMethodEnvironment.get_handle, Exec.bind_eq, getMachine_bind, href, hframe]

theorem NativeMethodEnvironment.get_handle_null_frame (hd : Headers) (obj : Object)
    (m : Machine) (href : hd.reference_p obj = true)
    (hframe : m.env.current_native_frame_ = NULL) :
    NativeMethodEnvironment.get_handle hd obj m = ⟨.undefined, m, []⟩ := by
  simp [NativeMethodEnvironment.get_handle, Exec.bind_eq, getMachine_bind, href, hframe, stop]

theorem NativeMethodEnvironment.get_handle_bits (hd : Headers) (obj : Object) (m : Machine)
    (href : hd.reference_p obj = false) (h : (hd.fixnum_p obj || hd.symbol_p obj) = true) :
    NativeMethodEnvironment.get_handle hd obj m = ⟨.returned obj, m, []⟩ := by
  simp only [Bool.or_eq_true] at h
  simp [NativeMethodEnvironment.get_handle, Exec.bind_eq, getMachine_bind, href, h,
    Exec.pure_eq, Exec.pure]

theorem NativeMethodEnvironment.get_handle_nil (hd : Headers) (obj : Object) (m : Machine)
    (href : hd.reference_p obj = false) (hfix : hd.fixnum_p obj = false)
    (hsym : hd.symbol_p obj = false) (h : hd.nil_p obj = true) :
    NativeMethodEnvironment.get_handle hd obj m = ⟨.returned hd.cCApiHandleQnil, m, []⟩ := by
  simp [NativeMethodEnvironment.get_handle, Exec.bind_eq, getMachine_bind, href, hfix, hsym, h,
    Exec.pure_eq, Exec.pure]

theorem NativeMethodEnvironment.get_handle_false (hd : Headers) (obj : Object) (m : Machine)
    (href : hd.reference_p obj = false) (hfix : hd.fixnum_p obj = false)
    (hsym : hd.symbol_p obj = false) (hnil : hd.nil_p obj = false)
    (h : hd.false_p obj = true) :
    NativeMethodEnvironment.get_handle hd obj m = ⟨.returned hd.cCApiHandleQfalse, m, []⟩ := by
  simp [NativeMethodEnvironment.get_handle, Exec.bind_eq, getMachine_bind, href, hfix, hsym, hnil,
    h, Exec.pure_eq, Exec.pure]

theorem NativeMethodEnvironment.get_handle_true (hd : Headers) (obj : Object) (m : Machine)
    (href : hd.reference_p obj = false) (hfix : hd.fixnum_p obj = false)
    (hsym : hd.symbol_p obj = false) (hnil : hd.nil_p obj = false)
    (hfalse : hd.false_p obj = false) (h : hd.true_p obj = true) :
    NativeMethodEnvironment.get_handle hd obj m = ⟨.returned hd.cCApiHandleQtrue, m, []⟩ := by
  simp [NativeMethodEnvironment.get_handle, Exec.bind_eq, getMachine_bind, href, hfix, hsym, hnil,
    hfalse, h, Exec.pure_eq, Exec.pure]

theorem NativeMethodEnvironment.get_handle_undef (hd : Headers) (obj : Object) (m : Machine)
    (href : hd.reference_p obj = false) (hfix : hd.fixnum_p obj = false)
    (hsym : hd.symbol_p obj = false) (hnil : hd.nil_p obj = false)
    (hfalse : hd.false_p obj = false) (htrue : hd.true_p obj = false)
    (h : obj = hd.Qundef) :
    NativeMethodEnvironment.get_handle hd obj m = ⟨.returned hd.cCApiHandleQundef, m, []⟩ := by
  simp [NativeMethodEnvironment.get_handle, Exec.bind_eq, getMachine_bind, href, hfix, hsym, hnil,
    hfalse, htrue, Exec.pure_eq, Exec.pure, if_pos h]

theorem NativeMethodEnvironment.get_handle_unknown (hd : Headers) (obj : Object) (m : Machine)
    (h : hd.known_p obj = false) :
    NativeMethodEnvironment.get_handle hd obj m
      = ⟨.raised,
          { m with
            thread_state := some (.runtime_error .handle_requested_for_unknown_object_type) },
          [.raise_exception (.runtime_error .handle_requested_for_unknown_object_type)]⟩ := by
  simp [Headers.known_p, Headers.object_classes] at h
  obtain ⟨h1, h2, h3, h4, h5, h6, h7⟩ := h
  simp [NativeMethodEnvironment.get_handle, Exec.bind_eq, getMachine_bind, h1, h2, h3, h4, h5, h6,
    h7, capi.capi_raise_runtime_error]

theorem NativeMethodEnvironment.get_object_reference (hd : Headers) (val : VALUE) (m : Machine)
    (href : hd.CAPI_REFERENCE_P val = true)
    (hvalid : (m.shared.handle_mem val).valid_ = true) :
    NativeMethodEnvironment.get_object hd val m
      = ⟨.returned (m.shared.handle_mem val).object_, m, []⟩ := by
  simp [NativeMethodEnvironment.get_object, Exec.bind_eq, getMachine_bind, href, hvalid,
    capi.Handle.from_, capi.Handle.valid_p, capi.Handle.object, Exec.pure_eq, Exec.pure]

theorem NativeMethodEnvironment.get_object_invalid (hd : Headers) (val : VALUE) (m : Machine)
    (href : hd.CAPI_REFERENCE_P val = true)
    (hvalid : (m.shared.handle_mem val).valid_ = false) :
    NativeMethodEnvironment.get_object hd val m = ⟨.aborted, m, []⟩ := by
  simp [NativeMethodEnvironment.get_object, Exec.bind_eq, getMachine_bind, href, hvalid,
    capi.Handle.from_, capi.Handle.valid_p, stop]

theorem NativeMethodEnvironment.get_object_bits (hd : Headers) (val : VALUE) (m : Machine)
    (href : hd.CAPI_REFERENCE_P val = false) (h : (hd.FIXNUM_P val || hd.SYMBOL_P val) = true) :
    NativeMethodEnvironment.get_object hd val m = ⟨.returned val, m, []⟩ := by
  simp only [Bool.or_eq_true] at h
  simp [NativeMethodEnvironment.get_object, Exec.bind_eq, getMachine_bind, href, h,
    Exec.pure_eq, Exec.pure]

theorem NativeMethodEnvironment.get_object_false (hd : Headers) (val : VALUE) (m : Machine)
    (href : hd.CAPI_REFERENCE_P val = false) (hfix : hd.FIXNUM_P val = false)
    (hsym : hd.SYMBOL_P val = false) (h : hd.CAPI_FALSE_P val = true) :
    NativeMethodEnvironment.get_object hd val m = ⟨.returned hd.Qfalse, m, []⟩ := by
  simp [NativeMethodEnvironment.get_object, Exec.bind_eq, getMachine_bind, href, hfix, hsym, h,
    Exec.pure_eq, Exec.pure]

theorem NativeMethodEnvironment.get_object_true (hd : Headers) (val : VALUE) (m : Machine)
    (href : hd.CAPI_REFERENCE_P val = false) (hfix : hd.FIXNUM_P val = false)
    (hsym : hd.SYMBOL_P val = false) (hfalse : hd.CAPI_FALSE_P val = false)
    (h : hd.CAPI_TRUE_P val = true) :
    NativeMethodEnvironment.get_object hd val m = ⟨.returned hd.Qtrue, m, []⟩ := by
  simp [NativeMethodEnvironment.get_object, Exec.bind_eq, getMachine_bind, href, hfix, hsym,
    hfalse, h, Exec.pure_eq, Exec.pure]

theorem NativeMethodEnvironment.get_object_nil (hd : Headers) (val : VALUE) (m : Machine)
    (href : hd.CAPI_REFERENCE_P val = false) (hfix : hd.FIXNUM_P val = false)
    (hsym : hd.SYMBOL_P val = false) (hfalse : hd.CAPI_FALSE_P val = false)
    (htrue : hd.CAPI_TRUE_P val = false) (h : hd.CAPI_NIL_P val = true) :
    NativeMethodEnvironment.get_object hd val m = ⟨.returned hd.Qnil, m, []⟩ := by
  simp [NativeMethodEnvironment.get_object, Exec.bind_eq, getMachine_bind, href, hfix, hsym,
    hfalse, htrue, h, Exec.pure_eq, Exec.pure]

theorem NativeMethodEnvironment.get_object_undef (hd : Headers) (val : VALUE) (m : Machine)
    (href : hd.CAPI_REFERENCE_P val = false) (hfix : hd.FIXNUM_P val = false)
    (hsym : hd.SYMBOL_P val = false) (hfalse : hd.CAPI_FALSE_P val = false)
    (htrue : hd.CAPI_TRUE_P val = false) (hnil : hd.CAPI_NIL_P val = false)
    (h : hd.CAPI_UNDEF_P val = true) :
    NativeMethodEnvironment.get_object hd val m = ⟨.returned hd.Qundef, m, []⟩ := by
  simp [NativeMethodEnvironment.get_object, Exec.bind_eq, getMachine_bind, href, hfix, hsym,
    hfalse, htrue, hnil, h, Exec.pure_eq, Exec.pure]

theorem NativeMethodEnvironment.get_object_unknown (hd : Headers) (val : VALUE) (m : Machine)
    (h : hd.known_value_p val = false) :
    NativeMethodEnvironment.get_object hd val m
      = ⟨.raised,
          { m with
            thread_state := some (.runtime_error .requested_Object_for_unknown_handle_type) },
          [.raise_exception (.runtime_error .requested_Object_for_unknown_handle_type)]⟩ := by
  simp [Headers.known_value_p, Headers.value_classes] at h
  obtain ⟨h1, h2, h3, h4, h5, h6, h7⟩ := h
  simp [NativeMethodEnvironment.get_object, Exec.bind_eq, getMachine_bind, h1, h2, h3, h4, h5, h6,
    h7, capi.capi_raise_runtime_error]

/-! ## Soundness of the recorded Handles -/

theorem Machine.initial_sound (hd : Headers) : (Machine.initial hd).handles_sound hd where
  allocated := by intro o h hslot; simp [Machine.initial] at hslot
  valid := by intro o h hslot; simp [Machine.initial] at hslot
  object := by intro o h hslot; simp [Machine.initial] at hslot

theorem Machine.entered_sound (hd : Headers) (frame : Word) :
    (Machine.entered hd frame).handles_sound hd where
  allocated := by intro o h hslot; simp [Machine.entered, Machine.initial] at hslot
  valid := by intro o h hslot; simp [Machine.entered, Machine.initial] at hslot
  object := by intro o h hslot; simp [Machine.entered, Machine.initial] at hslot

theorem Machine.after_found_sound (hd : Headers) (m : Machine) (self h : Word)
    (hs : m.handles_sound hd) : (m.after_found self h).handles_sound hd where
  allocated := by
    intro o k hslot
    exact hs.allocated o k hslot
  valid := by
    intro o k hslot
    have hv := hs.valid o k hslot
    by_cases hk : k = h
    · subst hk
      simpa [Machine.after_found, store, capi.Handle.ref] using hv
    · simpa [Machine.after_found, store, hk] using hv
  object := by
    intro o k hslot
    have hv := hs.object o k hslot
    by_cases hk : k = h
    · subst hk
      simpa [Machine.after_found, store, capi.Handle.ref] using hv
    · simpa [Machine.after_found, store, hk] using hv

theorem Machine.after_created_sound (hd : Headers) (hc : hd.EncodingContract) (m : Machine)
    (self : Word) (obj : Object) (hs : m.handles_sound hd) :
    (m.after_created self (hd.handle_addr m.shared.handles_allocated) obj).handles_sound hd := by
  have key : ∀ o k, o ≠ obj → m.shared.capi_handle_ivar o = .wrapper k →
      k ≠ hd.handle_addr m.shared.handles_allocated := by
    intro o k _ hslot hk
    obtain ⟨j, hj, rfl⟩ := hs.allocated o k hslot
    have := hc.handle_addr_injective _ _ hk
    omega
  constructor
  · intro o k hslot
    by_cases ho : o = obj
    · subst ho
      simp [Machine.after_created, store] at hslot
      exact ⟨m.shared.handles_allocated, by simp [Machine.after_created], hslot.symm⟩
    · simp [Machine.after_created, store, ho] at hslot
      obtain ⟨j, hj, rfl⟩ := hs.allocated o k hslot
      exact ⟨j, by simp [Machine.after_created]; omega, rfl⟩
  · intro o k hslot
    by_cases ho : o = obj
    · subst ho
      simp [Machine.after_created, store] at hslot
      subst hslot
      simp [Machine.after_created, store]
    · simp [Machine.after_created, store, ho] at hslot
      have hk := key o k ho hslot
      simpa [Machine.after_created, store, hk] using hs.valid o k hslot
  · intro o k hslot
    by_cases ho : o = obj
    · subst ho
      simp [Machine.after_created, store] at hslot
      subst hslot
      simp [Machine.after_created, store]
    · simp [Machine.after_created, store, ho] at hslot
      have hk := key o k ho hslot
      simpa [Machine.after_created, store, hk] using hs.object o k hslot

/-- The function `NativeMethodFrame::get_handle` always returns, and what it leaves: the value is
the address of a valid Handle whose back-reference is the object, the environment is
untouched, and the recorded Handles stay sound. -/
theorem NativeMethodFrame.get_handle_sound (hd : Headers) (hc : hd.EncodingContract)
    (self : Word) (obj : Object) (m : Machine) (hs : m.handles_sound hd) :
    ∃ v m1 t1, NativeMethodFrame.get_handle hd self obj m = ⟨.returned v, m1, t1⟩ ∧
      hd.CAPI_REFERENCE_P v = true ∧ (m1.shared.handle_mem v).valid_ = true ∧
      (m1.shared.handle_mem v).object_ = obj ∧ m1.handles_sound hd ∧ m1.env = m.env ∧
      m1.shared.capi_handle_ivar obj = .wrapper v ∧
      (∀ e ∈ t1, e.is_foreign_call = false ∧ e.is_argument_error = false) := by
  cases hslot : m.shared.capi_handle_ivar obj with
  | wrapper h =>
    refine ⟨h, m.after_found self h, [.handle_ref h],
      NativeMethodFrame.get_handle_found hd self obj m h hslot, ?_, ?_, ?_,
      Machine.after_found_sound hd m self h hs, rfl, ?_, ?_⟩
    · obtain ⟨k, _, rfl⟩ := hs.allocated obj h hslot
      exact hc.handle_addr_reference k
    · simpa [Machine.after_found, store, capi.Handle.ref] using hs.valid obj h hslot
    · simpa [Machine.after_found, store, capi.Handle.ref] using hs.object obj h hslot
    · simpa [Machine.after_found] using hslot
    · intro e he
      simp at he
      subst he
      exact ⟨rfl, rfl⟩
  | other x =>
    have hnone : (m.shared.capi_handle_ivar obj).try_as_CApiHandle = none := by
      simp [hslot, TableIvar.try_as_CApiHandle]
    refine ⟨_, _, _, NativeMethodFrame.get_handle_created hd self obj m hnone,
      hc.handle_addr_reference _, ?_, ?_, Machine.after_created_sound hd hc m self obj hs,
      rfl, ?_, ?_⟩
    · simp [Machine.after_created, store]
    · simp [Machine.after_created, store]
    · simp [Machine.after_created, store]
    · intro e he
      simp at he
      rcases he with rfl | rfl <;> exact ⟨rfl, rfl⟩

/-- Soundness of the recorded Handles is kept along any sequence of mints: every
machine reached from the initial one by mints is sound. -/
theorem mints_sound (hd : Headers) (hc : hd.EncodingContract) (ops : List (Word × Object))
    (m : Machine) (hs : m.handles_sound hd) : (mints hd ops m).m.handles_sound hd := by
  induction ops generalizing m with
  | nil => exact hs
  | cons op rest ih =>
    obtain ⟨f, obj⟩ := op
    obtain ⟨v, m1, t1, hv, -, -, -, hs1, -⟩ :=
      NativeMethodFrame.get_handle_sound hd hc f obj m hs
    have h2 := ih m1 hs1
    rcases hrest : mints hd rest m1 with ⟨o2, m2, t2⟩
    rw [hrest] at h2
    have hrun : mints hd ((f, obj) :: rest) m
        = Exec.bind (NativeMethodFrame.get_handle hd f obj) (fun v =>
            Exec.bind (mints hd rest) fun vs => Exec.pure ((f, v) :: vs)) m := rfl
    rw [hrun, Exec.bind_returned _ _ m m1 v t1 hv]
    cases o2 <;> simpa [Exec.bind, hrest, Exec.pure] using h2

/-! ## What the functions can record -/

theorem Exec.emits_only_mono {α : Type} {P Q : Event → Prop} {x : Exec α}
    (h : Exec.emits_only P x) (hPQ : ∀ e, P e → Q e) : Exec.emits_only Q x :=
  fun m e he => hPQ e (h m e he)

theorem Exec.emits_only_bind {α β : Type} {P : Event → Prop} {x : Exec α} {f : α → Exec β}
    (hx : Exec.emits_only P x) (hf : ∀ a, Exec.emits_only P (f a)) :
    Exec.emits_only P (Exec.bind x f) := by
  intro m e he
  have hx1 := hx m
  simp only [Exec.bind] at he
  rcases hxm : x m with ⟨o, m1, t1⟩
  rw [hxm] at he hx1
  cases o with
  | returned a =>
    simp only [List.mem_append] at he
    rcases he with he | he
    · exact hx1 e he
    · exact hf a m1 e he
  | raised => exact hx1 e he
  | aborted => exact hx1 e he
  | undefined => exact hx1 e he

theorem Exec.emits_only_pure {α : Type} {P : Event → Prop} (a : α) :
    Exec.emits_only P (Exec.pure a) := by
  intro m e he
  simp [Exec.pure] at he

theorem emits_only_getMachine {P : Event → Prop} : Exec.emits_only P getMachine := by
  intro m e he
  simp [getMachine] at he

theorem emits_only_modifyMachine {P : Event → Prop} (g : Machine → Machine) :
    Exec.emits_only P (modifyMachine g) := by
  intro m e he
  simp [modifyMachine] at he

theorem emits_only_stop {α : Type} {P : Event → Prop} (o : Outcome Unit) :
    Exec.emits_only P (stop o : Exec α) := by
  intro m e he
  cases o <;> simp [stop] at he

theorem emits_only_emit {P : Event → Prop} (e : Event) (h : P e) :
    Exec.emits_only P (emit e) := by
  intro m x hx
  simp [emit] at hx
  subst hx
  exact h

theorem capi.emits_only_raise {α : Type} (msg : RuntimeErrorMessage) :
    Exec.emits_only Event.bookkeeping (capi.capi_raise_runtime_error msg : Exec α) := by
  intro m e he
  simp [capi.capi_raise_runtime_error] at he
  subst he
  exact ⟨rfl, rfl⟩

theorem NativeMethodFrame.emits_only_mint (hd : Headers) (self : Word) (obj : Object) :
    Exec.emits_only Event.bookkeeping (NativeMethodFrame.get_handle hd self obj) := by
  intro m e he
  cases hslot : m.shared.capi_handle_ivar obj with
  | wrapper h =>
    rw [NativeMethodFrame.get_handle_found hd self obj m h hslot] at he
    simp at he
    subst he
    exact ⟨rfl, rfl⟩
  | other x =>
    have hnone : (m.shared.capi_handle_ivar obj).try_as_CApiHandle = none := by
      simp [hslot, TableIvar.try_as_CApiHandle]
    rw [NativeMethodFrame.get_handle_created hd self obj m hnone] at he
    simp at he
    rcases he with rfl | rfl <;> exact ⟨rfl, rfl⟩

theorem NativeMethodEnvironment.emits_only_get_handle (hd : Headers) (obj : Object) :
    Exec.emits_only Event.bookkeeping (NativeMethodEnvironment.get_handle hd obj) := by
  unfold NativeMethodEnvironment.get_handle
  simp only [Exec.bind_eq, Exec.pure_eq]
  refine Exec.emits_only_bind emits_only_getMachine fun m => ?_
  repeat' split
  all_goals first
    | exact emits_only_stop _
    | exact NativeMethodFrame.emits_only_mint hd _ obj
    | exact Exec.emits_only_pure _
    | exact capi.emits_only_raise _

theorem NativeMethodEnvironment.emits_only_get_object (hd : Headers) (val : VALUE) :
    Exec.emits_only Event.bookkeeping (NativeMethodEnvironment.get_object hd val) := by
  unfold NativeMethodEnvironment.get_object
  simp only [Exec.bind_eq, Exec.pure_eq]
  refine Exec.emits_only_bind emits_only_getMachine fun m => ?_
  repeat' split
  all_goals first
    | exact emits_only_stop _
    | exact Exec.emits_only_pure _
    | exact capi.emits_only_raise _

theorem Arguments.emits_only_get_argument {P : Event → Prop} (args : Arguments) (i : Nat) :
    Exec.emits_only P (args.get_argument i) := by
  unfold Arguments.get_argument
  split
  · exact Exec.emits_only_pure _
  · exact emits_only_stop _

theorem Arguments.emits_only_as_array {P : Event → Prop} (hd : Headers) (args : Arguments) :
    Exec.emits_only P (args.as_array hd) := by
  intro m e he
  simp [Arguments.as_array] at he

theorem NativeMethod.emits_only_invoke (nm : NativeMethod) (a : ForeignArgs) :
    Exec.emits_only (fun e => e.is_argument_error = false) (nm.invoke a) := by
  intro m e he
  unfold NativeMethod.invoke at he
  split at he <;> simp at he <;> subst he <;> rfl

theorem NativeMethod.emits_only_call_fill_ary (hd : Headers) (args : Arguments)
    (remaining i : Nat) (ary : List VALUE) :
    Exec.emits_only Event.bookkeeping (NativeMethod.call_fill_ary hd args remaining i ary) := by
  induction remaining generalizing i ary with
  | zero => exact Exec.emits_only_pure _
  | succ n ih =>
    unfold NativeMethod.call_fill_ary
    simp only [Exec.bind_eq]
    refine Exec.emits_only_bind (Arguments.emits_only_get_argument args i) fun obj => ?_
    refine Exec.emits_only_bind (NativeMethodEnvironment.emits_only_get_handle hd obj) fun v => ?_
    exact ih _ _

theorem Event.bookkeeping_not_argument_error (e : Event) (h : e.bookkeeping) :
    e.is_argument_error = false := h.2

theorem Exec.emits_only_ite {α : Type} {P : Event → Prop} {c : Prop} [Decidable c]
    {x y : Exec α} (hx : Exec.emits_only P x) (hy : Exec.emits_only P y) :
    Exec.emits_only P (if c then x else y) := by
  split
  · exact hx
  · exact hy

theorem NativeMethod.emits_only_call (hd : Headers) (nm : NativeMethod) (args : Arguments) :
    Exec.emits_only (fun e => e.is_argument_error = false) (NativeMethod.call hd nm args) := by
  have hgh : ∀ obj, Exec.emits_only (fun e => e.is_argument_error = false)
      (NativeMethodEnvironment.get_handle hd obj) := fun obj =>
    Exec.emits_only_mono (NativeMethodEnvironment.emits_only_get_handle hd obj)
      Event.bookkeeping_not_argument_error
  have hgo : ∀ val, Exec.emits_only (fun e => e.is_argument_error = false)
      (NativeMethodEnvironment.get_object hd val) := fun val =>
    Exec.emits_only_mono (NativeMethodEnvironment.emits_only_get_object hd val)
      Event.bookkeeping_not_argument_error
  have hfill : ∀ r i ary, Exec.emits_only (fun e => e.is_argument_error = false)
      (NativeMethod.call_fill_ary hd args r i ary) := fun r i ary =>
    Exec.emits_only_mono (NativeMethod.emits_only_call_fill_ary hd args r i ary)
      Event.bookkeeping_not_argument_error
  have hraise : Exec.emits_only (fun e => e.is_argument_error = false)
      (capi.capi_raise_runtime_error .unrecognized_arity : Exec Object) :=
    Exec.emits_only_mono (capi.emits_only_raise _) Event.bookkeeping_not_argument_error
  have hnew : Exec.emits_only (fun e => e.is_argument_error = false)
      (emit (.new_array args.total)) := emits_only_emit _ rfl
  have hdel : Exec.emits_only (fun e => e.is_argument_error = false)
      (emit .delete_array) := emits_only_emit _ rfl
  unfold NativeMethod.call
  simp only [Exec.bind_eq, Exec.pure_eq]
  refine Exec.emits_only_bind (hgh _) fun receiver => ?_
  repeat' with_reducible first
      | exact hgh _
      | exact hgo _
      | exact hfill _ _ _
      | exact hraise
      | exact NativeMethod.emits_only_invoke nm _
      | exact Arguments.emits_only_get_argument args _
      | exact Arguments.emits_only_as_array hd args
      | exact Exec.emits_only_pure _
      | exact hnew
      | exact hdel
      | refine Exec.emits_only_bind ?_ fun _ => ?_
      | refine Exec.emits_only_ite ?_ ?_

theorem emits_only_exception_point {P : Event → Prop} {body : Exec Object}
    (h : Exec.emits_only P body) : Exec.emits_only P (exception_point body) := by
  intro m e he
  have hb := h m e
  unfold exception_point at he
  split at he
  · next heq => rw [heq] at hb; exact hb he
  · next heq => rw [heq] at hb; exact hb he

theorem emits_only_for_each {P : Event → Prop} {body : Word → Exec Unit}
    (h : ∀ i, Exec.emits_only P (body i)) (l : List Word) :
    Exec.emits_only P (for_each body l) := by
  induction l with
  | nil => exact Exec.emits_only_pure _
  | cons i rest ih =>
    unfold for_each
    exact Exec.emits_only_bind (h i) fun _ => ih

theorem capi.emits_only_call_conversion (hd : Headers) (c : Conversion) :
    Exec.emits_only Event.bookkeeping (capi.call_conversion hd c) := by
  intro m e he
  simp [capi.call_conversion] at he
  subst he
  exact ⟨rfl, rfl⟩

theorem capi.emits_only_Handle_deref (h : Word) :
    Exec.emits_only Event.bookkeeping (capi.Handle_deref h) := by
  intro m e he
  simp [capi.Handle_deref] at he
  subst he
  exact ⟨rfl, rfl⟩

theorem NativeMethodFrame.emits_only_flush_cached_data (hd : Headers) :
    Exec.emits_only Event.bookkeeping (NativeMethodFrame.flush_cached_data hd) := by
  unfold NativeMethodFrame.flush_cached_data
  simp only [Exec.bind_eq, Exec.pure_eq]
  refine Exec.emits_only_bind emits_only_getMachine fun m => ?_
  split
  · refine emits_only_for_each (fun i => ?_) _
    unfold NativeMethodFrame.flush_cached_data_body
    simp only [Exec.bind_eq, Exec.pure_eq]
    refine Exec.emits_only_bind emits_only_getMachine fun m => ?_
    split
    all_goals first
      | exact capi.emits_only_call_conversion hd _
      | exact Exec.emits_only_pure _
  · exact Exec.emits_only_pure _

theorem NativeMethodFrame.emits_only_destroy (hd : Headers) (self : Word) :
    Exec.emits_only Event.bookkeeping (NativeMethodFrame.destroy hd self) := by
  unfold NativeMethodFrame.destroy
  simp only [Exec.bind_eq]
  refine Exec.emits_only_bind (emits_only_emit _ ⟨rfl, rfl⟩) fun _ => ?_
  refine Exec.emits_only_bind (NativeMethodFrame.emits_only_flush_cached_data hd) fun _ => ?_
  refine Exec.emits_only_bind emits_only_getMachine fun m => ?_
  exact emits_only_for_each capi.emits_only_Handle_deref _

/-! ## The two ways through `executor_implementation` -/

theorem NativeMethod.executor_implementation_mismatch (hd : Headers) (nmf call_frame : Word)
    (msg : Dispatch) (args : Arguments) (m : Machine)
    (h : msg.method.arity ≥ 0 ∧ msg.method.arity.toNat ≠ args.total) :
    NativeMethod.executor_implementation hd nmf call_frame msg args m
      = ⟨.returned NULL,
          { m with
            thread_state :=
              some (.argument_error msg.method.arity args.total msg.name call_frame) },
          [.raise_exception
            (.argument_error msg.method.arity args.total msg.name call_frame)]⟩ := by
  simp [NativeMethod.executor_implementation, h, Exec.bind_eq, Exec.pure_eq, Exec.bind,
    raise_exception, Exec.pure]

theorem NativeMethodFrame.construct_bind {β : Type} (self prev : Word) (f : Unit → Exec β)
    (m : Machine) :
    Exec.bind (NativeMethodFrame.construct self prev) f m
      = ⟨(f () { m with
                frame_mem := store m.frame_mem self ⟨prev, [], false, false, false⟩ }).out,
         (f () { m with
                frame_mem := store m.frame_mem self ⟨prev, [], false, false, false⟩ }).m,
         .frame_constructed self ::
         (f () { m with
                frame_mem := store m.frame_mem self ⟨prev, [], false, false, false⟩ }).trace⟩ := by
  simp [Exec.bind, NativeMethodFrame.construct]

theorem NativeMethodEnvironment.block_bind {β : Type} (f : Object → Exec β) (m : Machine) :
    Exec.bind NativeMethodEnvironment.block f m = f m.env.current_block_ m := by
  simp [NativeMethodEnvironment.block, Exec.bind_eq, Exec.pure_eq, Exec.bind, getMachine, Exec.pure]

theorem NativeMethod.leave_eq (nmf saved_frame : Word) (saved_block : Object)
    (rest : Exec Object) :
    (Exec.bind (NativeMethodEnvironment.set_current_block saved_block) fun _ =>
      Exec.bind (NativeMethodEnvironment.set_current_call_frame saved_frame) fun _ =>
        Exec.bind getMachine fun m1 =>
          Exec.bind (NativeMethodEnvironment.set_current_native_frame
            (m1.frame_mem nmf).previous_) fun _ => rest)
      = Exec.bind (modifyMachine fun m1 => m1.leave nmf saved_frame saved_block)
          fun _ => rest := by
  funext m1
  simp [NativeMethodEnvironment.set_current_block, NativeMethodEnvironment.set_current_call_frame,
    NativeMethodEnvironment.set_current_native_frame, modifyMachine_bind, getMachine_bind,
    Machine.leave]

/-- When the argument count passes the check, `executor_implementation` constructs the
frame, enters the crossing and runs its body. -/
theorem NativeMethod.executor_implementation_passed (hd : Headers) (nmf call_frame : Word)
    (msg : Dispatch) (args : Arguments) (m : Machine)
    (h : ¬(msg.method.arity ≥ 0 ∧ msg.method.arity.toNat ≠ args.total)) :
    NativeMethod.executor_implementation hd nmf call_frame msg args m
      = ⟨(msg.method.crossing hd args nmf m.env.current_call_frame_ m.env.current_block_
            (m.enter nmf call_frame args.block)).out,
         (msg.method.crossing hd args nmf m.env.current_call_frame_ m.env.current_block_
            (m.enter nmf call_frame args.block)).m,
         .frame_constructed nmf ::
         (msg.method.crossing hd args nmf m.env.current_call_frame_ m.env.current_block_
            (m.enter nmf call_frame args.block)).trace⟩ := by
  unfold NativeMethod.executor_implementation
  simp only [h, if_false, Exec.bind_eq, Exec.pure_eq, getMachine_bind,
    NativeMethodFrame.construct_bind, NativeMethodEnvironment.block_bind,
    NativeMethodEnvironment.set_current_block, NativeMethodEnvironment.set_current_call_frame,
    NativeMethodEnvironment.set_current_native_frame, modifyMachine_bind]
  have hk := fun ret => NativeMethod.leave_eq nmf m.env.current_call_frame_ m.env.current_block_
    (Exec.bind (NativeMethodFrame.destroy hd nmf) fun _ => Exec.pure ret)
  simp only [NativeMethodEnvironment.set_current_block,
    NativeMethodEnvironment.set_current_call_frame,
    NativeMethodEnvironment.set_current_native_frame] at hk
  simp only [hk]
  rfl

theorem NativeMethod.emits_only_crossing (hd : Headers) (nm : NativeMethod) (args : Arguments)
    (nmf saved_frame : Word) (saved_block : Object) :
    Exec.emits_only (fun e => e.is_argument_error = false)
      (nm.crossing hd args nmf saved_frame saved_block) := by
  unfold NativeMethod.crossing
  refine Exec.emits_only_bind (emits_only_exception_point (NativeMethod.emits_only_call hd nm args))
    fun ret => ?_
  refine Exec.emits_only_bind (emits_only_modifyMachine _) fun _ => ?_
  refine Exec.emits_only_bind ?_ fun _ => Exec.emits_only_pure _
  exact Exec.emits_only_mono (NativeMethodFrame.emits_only_destroy hd nmf)
    Event.bookkeeping_not_argument_error

/-! ## The shapes of `NativeMethod::call` -/

theorem NativeMethod.call_positional (hd : Headers) (nm : NativeMethod) (args : Arguments)
    (h0 : 0 ≤ nm.arity) (h5 : nm.arity ≤ 5) (hlen : (args.total : Int) = nm.arity) :
    nm.call hd args
      = Exec.bind (get_handles hd (args.recv :: args.arguments)) fun vs =>
          Exec.bind (nm.invoke (positional_args vs)) fun ret =>
            NativeMethodEnvironment.get_object hd ret := by
  obtain ⟨recv, block, arguments⟩ := args
  simp only [Arguments.total] at hlen
  have hcases : nm.arity = 0 ∨ nm.arity = 1 ∨ nm.arity = 2 ∨ nm.arity = 3 ∨ nm.arity = 4 ∨
      nm.arity = 5 := by omega
  rcases hcases with ha | ha | ha | ha | ha | ha
  all_goals
    rw [ha] at hlen
    simp only [NativeMethod.call, ha, ARGS_IN_RUBY_ARRAY, RECEIVER_PLUS_ARGS_IN_RUBY_ARRAY,
      ARG_COUNT_ARGS_IN_C_ARRAY_PLUS_RECEIVER, Exec.bind_eq, Exec.pure_eq]
    norm_num
  all_goals
    rcases arguments with _ | ⟨a1, _ | ⟨a2, _ | ⟨a3, _ | ⟨a4, _ | ⟨a5, _ | ⟨a6, rest⟩⟩⟩⟩⟩⟩
    all_goals first
      | (exfalso; simp only [List.length_cons, List.length_nil] at hlen; omega)
      | simp [get_handles, Exec.bind_eq, Exec.pure_eq, Exec.bind_assoc, Exec.pure_bind,
          positional_args, Arguments.get_argument]

/-- In a crossing, `NativeMethodEnvironment::get_handle` returns for every object of a
known class, and leaves the environment as it was. -/
theorem NativeMethodEnvironment.get_handle_returns (hd : Headers) (obj : Object) (m : Machine)
    (hframe : m.env.current_native_frame_ ≠ NULL) (hknown : hd.known_p obj = true) :
    ∃ v m1 t1, NativeMethodEnvironment.get_handle hd obj m = ⟨.returned v, m1, t1⟩ ∧
      m1.env = m.env := by
  cases href : hd.reference_p obj with
  | true =>
    rw [NativeMethodEnvironment.get_handle_reference hd obj m href hframe]
    cases hslot : m.shared.capi_handle_ivar obj with
    | wrapper h =>
      exact ⟨_, _, _, NativeMethodFrame.get_handle_found hd _ obj m h hslot, rfl⟩
    | other x =>
      have hnone : (m.shared.capi_handle_ivar obj).try_as_CApiHandle = none := by
        simp [hslot, TableIvar.try_as_CApiHandle]
      exact ⟨_, _, _, NativeMethodFrame.get_handle_created hd _ obj m hnone, rfl⟩
  | false =>
    cases hbits : (hd.fixnum_p obj || hd.symbol_p obj) with
    | true => exact ⟨_, _, _, NativeMethodEnvironment.get_handle_bits hd obj m href hbits, rfl⟩
    | false =>
      obtain ⟨hfix, hsym⟩ := Bool.or_eq_false_iff.1 hbits
      cases hnil : hd.nil_p obj with
      | true =>
        exact ⟨_, _, _, NativeMethodEnvironment.get_handle_nil hd obj m href hfix hsym hnil, rfl⟩
      | false =>
        cases hfalse : hd.false_p obj with
        | true =>
          exact ⟨_, _, _,
            NativeMethodEnvironment.get_handle_false hd obj m href hfix hsym hnil hfalse, rfl⟩
        | false =>
          cases htrue : hd.true_p obj with
          | true =>
            exact ⟨_, _, _,
              NativeMethodEnvironment.get_handle_true hd obj m href hfix hsym hnil hfalse htrue,
              rfl⟩
          | false =>
            have hundef : obj = hd.Qundef := by
              simpa [Headers.known_p, Headers.object_classes, href, hfix, hsym, hnil, hfalse,
                htrue] using hknown
            exact ⟨_, _, _,
              NativeMethodEnvironment.get_handle_undef hd obj m href hfix hsym hnil hfalse htrue
                hundef, rfl⟩

theorem emits_only_get_handles (hd : Headers) (objs : List Object) :
    Exec.emits_only Event.bookkeeping (get_handles hd objs) := by
  induction objs with
  | nil => exact Exec.emits_only_pure _
  | cons obj rest ih =>
    unfold get_handles
    simp only [Exec.bind_eq, Exec.pure_eq]
    refine Exec.emits_only_bind (NativeMethodEnvironment.emits_only_get_handle hd obj) fun v => ?_
    exact Exec.emits_only_bind ih fun vs => Exec.emits_only_pure _

/-- In a crossing, the handles of a list of objects of known classes are all
obtained: one value per object, the environment as it was. -/
theorem get_handles_returns (hd : Headers) (objs : List Object) (m : Machine)
    (hframe : m.env.current_native_frame_ ≠ NULL)
    (hknown : ∀ obj ∈ objs, hd.known_p obj = true) :
    ∃ vs m1 t1, get_handles hd objs m = ⟨.returned vs, m1, t1⟩ ∧
      vs.length = objs.length ∧ m1.env = m.env := by
  induction objs generalizing m with
  | nil => exact ⟨[], m, [], rfl, rfl, rfl⟩
  | cons obj rest ih =>
    obtain ⟨v, m1, t1, hv, henv⟩ :=
      NativeMethodEnvironment.get_handle_returns hd obj m hframe
        (hknown obj (List.mem_cons_self _ _))
    obtain ⟨vs, m2, t2, hvs, hlen, henv2⟩ := ih m1 (by rw [henv]; exact hframe)
      (fun o ho => hknown o (List.mem_cons_of_mem _ ho))
    refine ⟨v :: vs, m2, t1 ++ t2, ?_, by simp [hlen], by rw [henv2, henv]⟩
    simp [get_handles, Exec.bind_eq, Exec.pure_eq, Exec.bind, hv, hvs, Exec.pure]

theorem foreign_calls_bookkeeping (t : List Event) (h : ∀ e ∈ t, e.bookkeeping) :
    foreign_calls t = [] := by
  simp only [foreign_calls, List.filter_eq_nil_iff]
  intro e he
  simp [(h e he).1]

theorem foreign_calls_append (s t : List Event) :
    foreign_calls (s ++ t) = foreign_calls s ++ foreign_calls t := by
  simp [foreign_calls]

/-- The call of the foreign function and the conversion of its result, run from `m1`:
one foreign call; when the function returns `ret`, the result is that of
`get_object(ret)` on the machine the function left. -/
theorem NativeMethod.invoke_get_object (hd : Headers) (nm : NativeMethod) (a : ForeignArgs)
    (m1 : Machine) :
    foreign_calls ((Exec.bind (nm.invoke a) fun ret =>
        NativeMethodEnvironment.get_object hd ret) m1).trace = [.foreign_call a] ∧
    (∀ ret m2, nm.functor a m1 = ⟨some ret, m2⟩ →
      (Exec.bind (nm.invoke a) fun ret => NativeMethodEnvironment.get_object hd ret) m1
        = ⟨(NativeMethodEnvironment.get_object hd ret m2).out,
           (NativeMethodEnvironment.get_object hd ret m2).m,
           .foreign_call a :: (NativeMethodEnvironment.get_object hd ret m2).trace⟩) ∧
    (∀ m2, nm.functor a m1 = ⟨none, m2⟩ →
      (Exec.bind (nm.invoke a) fun ret => NativeMethodEnvironment.get_object hd ret) m1
        = ⟨.raised, m2, [.foreign_call a]⟩) := by
  rcases hf : nm.functor a m1 with ⟨_ | ret, m2⟩
  · have hrun : nm.invoke a m1 = ⟨.raised, m2, [.foreign_call a]⟩ := by
      simp [NativeMethod.invoke, hf]
    have hb : (Exec.bind (nm.invoke a) fun ret => NativeMethodEnvironment.get_object hd ret) m1
        = ⟨.raised, m2, [.foreign_call a]⟩ := by
      simp [Exec.bind, hrun]
    refine ⟨?_, ?_, ?_⟩
    · rw [hb]; rfl
    · intro ret m3 h; cases h
    · intro m3 h
      cases h
      exact hb
  · have hrun : nm.invoke a m1 = ⟨.returned ret, m2, [.foreign_call a]⟩ := by
      simp [NativeMethod.invoke, hf]
    have hb := Exec.bind_returned (nm.invoke a)
      (fun ret => NativeMethodEnvironment.get_object hd ret) m1 m2 ret _ hrun
    refine ⟨?_, ?_, ?_⟩
    · rw [hb]
      have hgo := foreign_calls_bookkeeping _
        (NativeMethodEnvironment.emits_only_get_object hd ret m2)
      simp only [List.singleton_append]
      show foreign_calls ([Event.foreign_call a] ++ _) = _
      rw [foreign_calls_append, hgo]
      rfl
    · intro ret2 m3 h
      cases h
      simpa using hb
    · intro m3 h; cases h

theorem NativeMethod.call_argc (hd : Headers) (nm : NativeMethod) (args : Arguments)
    (harity : nm.arity = ARG_COUNT_ARGS_IN_C_ARRAY_PLUS_RECEIVER) :
    nm.call hd args
      = Exec.bind (NativeMethodEnvironment.get_handle hd args.recv) fun receiver =>
          Exec.bind (emit (.new_array args.total)) fun _ =>
            Exec.bind (NativeMethod.call_fill_ary hd args args.total 0 []) fun ary =>
              Exec.bind (nm.invoke (.ArgcFunctor args.total ary receiver)) fun ret =>
                Exec.bind (emit .delete_array) fun _ =>
                  NativeMethodEnvironment.get_object hd ret := by
  simp [NativeMethod.call, harity, ARGS_IN_RUBY_ARRAY, RECEIVER_PLUS_ARGS_IN_RUBY_ARRAY,
    ARG_COUNT_ARGS_IN_C_ARRAY_PLUS_RECEIVER, Exec.bind_eq]

/-- The loop that fills the transient array obtains the handles of the remaining
arguments in order and appends them. -/
theorem NativeMethod.call_fill_ary_eq (hd : Headers) (args : Arguments) (remaining i : Nat)
    (ary : List VALUE) (h : i + remaining = args.total) :
    NativeMethod.call_fill_ary hd args remaining i ary
      = Exec.bind (get_handles hd (args.arguments.drop i))
          fun (vs : List VALUE) => (Exec.pure (ary ++ vs) : Exec (List VALUE)) := by
  induction remaining generalizing i ary with
  | zero =>
    have hi : args.arguments.length ≤ i := by simp [Arguments.total] at h; omega
    simp [NativeMethod.call_fill_ary, List.drop_eq_nil_of_le hi, get_handles, Exec.pure_eq,
      Exec.pure_bind]
  | succ n ih =>
    have hi : i < args.arguments.length := by simp [Arguments.total] at h; omega
    have hdrop : args.arguments.drop i = args.arguments[i] :: args.arguments.drop (i + 1) :=
      List.drop_eq_getElem_cons hi
    have hget : args.get_argument i = Exec.pure args.arguments[i] := by
      simp [Arguments.get_argument, List.getElem?_eq_getElem hi, Exec.pure_eq]
    rw [NativeMethod.call_fill_ary, hdrop]
    simp only [Exec.bind_eq, hget, Exec.pure_bind, get_handles, Exec.pure_eq, Exec.bind_assoc]
    have hstep : ∀ v : VALUE,
        NativeMethod.call_fill_ary hd args n (i + 1) (ary ++ [v])
          = Exec.bind (get_handles hd (List.drop (i + 1) args.arguments))
              fun (vs : List VALUE) => (Exec.pure (ary ++ v :: vs) : Exec (List VALUE)) := by
      intro v
      rw [ih (i + 1) (ary ++ [v]) (by omega)]
      simp
    simp only [hstep]

theorem NativeMethod.call_fill_ary_returns (hd : Headers) (args : Arguments) (m0 m1 : Machine)
    (vs : List VALUE) (t1 : List Event)
    (h : get_handles hd args.arguments m0 = ⟨.returned vs, m1, t1⟩) :
    NativeMethod.call_fill_ary hd args args.total 0 [] m0 = ⟨.returned vs, m1, t1⟩ := by
  rw [NativeMethod.call_fill_ary_eq hd args args.total 0 [] (by simp)]
  simp [Exec.bind, h, Exec.pure]

/-- The call of the foreign function, the release of the transient array and the
conversion of the result, run from `m1`. -/
theorem NativeMethod.invoke_delete_get_object (hd : Headers) (nm : NativeMethod)
    (a : ForeignArgs) (m1 : Machine) :
    foreign_calls ((Exec.bind (nm.invoke a) fun ret =>
        Exec.bind (emit .delete_array) fun _ =>
          NativeMethodEnvironment.get_object hd ret) m1).trace = [.foreign_call a] ∧
    (∀ ret m2, nm.functor a m1 = ⟨some ret, m2⟩ →
      (Exec.bind (nm.invoke a) fun ret =>
        Exec.bind (emit .delete_array) fun _ =>
          NativeMethodEnvironment.get_object hd ret) m1
        = ⟨(NativeMethodEnvironment.get_object hd ret m2).out,
           (NativeMethodEnvironment.get_object hd ret m2).m,
           .foreign_call a :: .delete_array ::
             (NativeMethodEnvironment.get_object hd ret m2).trace⟩) ∧
    (∀ m2, nm.functor a m1 = ⟨none, m2⟩ →
      (Exec.bind (nm.invoke a) fun ret =>
        Exec.bind (emit .delete_array) fun _ =>
          NativeMethodEnvironment.get_object hd ret) m1
        = ⟨.raised, m2, [.foreign_call a]⟩) := by
  rcases hf : nm.functor a m1 with ⟨_ | ret, m2⟩
  · have hrun : nm.invoke a m1 = ⟨.raised, m2, [.foreign_call a]⟩ := by
      simp [NativeMethod.invoke, hf]
    have hb : (Exec.bind (nm.invoke a) fun ret =>
        Exec.bind (emit .delete_array) fun _ =>
          NativeMethodEnvironment.get_object hd ret) m1
        = ⟨.raised, m2, [.foreign_call a]⟩ := by
      simp [Exec.bind, hrun]
    refine ⟨?_, ?_, ?_⟩
    · rw [hb]; rfl
    · intro ret m3 h; cases h
    · intro m3 h
      cases h
      exact hb
  · have hrun : nm.invoke a m1 = ⟨.returned ret, m2, [.foreign_call a]⟩ := by
      simp [NativeMethod.invoke, hf]
    have hb := Exec.bind_returned (nm.invoke a)
      (fun ret => Exec.bind (emit .delete_array) fun _ =>
        NativeMethodEnvironment.get_object hd ret) m1 m2 ret _ hrun
    simp only [emit_bind] at hb
    refine ⟨?_, ?_, ?_⟩
    · rw [hb]
      have hgo := foreign_calls_bookkeeping _
        (NativeMethodEnvironment.emits_only_get_object hd ret m2)
      show foreign_calls ([Event.foreign_call a] ++ ([Event.delete_array] ++ _)) = _
      rw [foreign_calls_append, foreign_calls_append, hgo]
      rfl
    · intro ret2 m3 h
      cases h
      simpa using hb
    · intro m3 h; cases h

/-- An immediate goes to a foreign value that is the same on every machine, without
any effect, and that value comes back as the immediate, on every machine. -/
theorem NativeMethodEnvironment.immediate_round_trip (hd : Headers) (hc : hd.EncodingContract)
    (i : Object) (himm : hd.immediate_p i = true) :
    ∃ v : VALUE,
      (∀ m : Machine, NativeMethodEnvironment.get_handle hd i m = ⟨.returned v, m, []⟩) ∧
      (∀ m : Machine, NativeMethodEnvironment.get_object hd v m = ⟨.returned i, m, []⟩) ∧
      ((hd.fixnum_p i = true ∨ hd.symbol_p i = true) → v = i) ∧
      (i = hd.Qnil → v = hd.cCApiHandleQnil) ∧
      (i = hd.Qtrue → v = hd.cCApiHandleQtrue) ∧
      (i = hd.Qfalse → v = hd.cCApiHandleQfalse) ∧
      (i = hd.Qundef → v = hd.cCApiHandleQundef) := by
  have hobj := classes_exclusive _ _ _ _ _ _ _ (hc.object_classes_disjoint i)
  obtain ⟨-, ofix, osym, onil, ofalse, otrue, oundef⟩ := hobj
  simp only [Headers.immediate_p, Headers.known_p, Headers.object_classes, Bool.and_eq_true,
    Bool.not_eq_true', List.any_cons, List.any_nil, Bool.or_false, id, Bool.or_eq_true] at himm
  obtain ⟨href, hcls⟩ := himm
  have hQnil := (hc.nil_p_iff hd.Qnil).2 rfl
  have hQtrue := (hc.true_p_iff hd.Qtrue).2 rfl
  have hQfalse := (hc.false_p_iff hd.Qfalse).2 rfl
  have hQundef : (hd.Qundef == hd.Qundef) = true := by simp
  rcases hcls with hr | hfix | hsym | hnil | hfalse | htrue | hundef
  · -- not a heap reference
    rw [href] at hr
    cases hr
  · -- small integer
    obtain ⟨-, hs, hn, hf, ht, hu⟩ := ofix hfix
    have hv := classes_exclusive _ _ _ _ _ _ _ (hc.value_classes_disjoint i)
    have hF : hd.FIXNUM_P i = true := by rw [hc.FIXNUM_P_eq]; exact hfix
    obtain ⟨hr, -⟩ := hv.2.1 hF
    refine ⟨i, ?_, ?_, fun _ => rfl, ?_, ?_, ?_, ?_⟩
    · intro m2
      exact NativeMethodEnvironment.get_handle_bits hd i m2 href (by simp [hfix])
    · intro m
      exact NativeMethodEnvironment.get_object_bits hd i m hr (by simp [hF])
    · intro h; subst h; simp [hQnil] at hn
    · intro h; subst h; simp [hQtrue] at ht
    · intro h; subst h; simp [hQfalse] at hf
    · intro h; subst h; simp at hu
  · -- symbol
    obtain ⟨-, hs, hn, hf, ht, hu⟩ := osym hsym
    have hv := classes_exclusive _ _ _ _ _ _ _ (hc.value_classes_disjoint i)
    have hS : hd.SYMBOL_P i = true := by rw [hc.SYMBOL_P_eq]; exact hsym
    obtain ⟨hr, -⟩ := hv.2.2.1 hS
    refine ⟨i, ?_, ?_, fun _ => rfl, ?_, ?_, ?_, ?_⟩
    · intro m2
      exact NativeMethodEnvironment.get_handle_bits hd i m2 href (by simp [hsym])
    · intro m
      exact NativeMethodEnvironment.get_object_bits hd i m hr (by simp [hS])
    · intro h; subst h; simp [hQnil] at hn
    · intro h; subst h; simp [hQtrue] at ht
    · intro h; subst h; simp [hQfalse] at hf
    · intro h; subst h; simp at hu
  · -- nil
    obtain ⟨-, hx, hs, hf, ht, hu⟩ := onil hnil
    have hi : i = hd.Qnil := (hc.nil_p_iff i).1 hnil
    have hN := (hc.CAPI_NIL_P_iff hd.cCApiHandleQnil).2 rfl
    have hv := classes_exclusive _ _ _ _ _ _ _ (hc.value_classes_disjoint hd.cCApiHandleQnil)
    obtain ⟨vr, vx, vs, vf, vt, -⟩ := hv.2.2.2.2.2.1 hN
    refine ⟨hd.cCApiHandleQnil, ?_, ?_, ?_, fun _ => rfl, ?_, ?_, ?_⟩
    · intro m2
      exact NativeMethodEnvironment.get_handle_nil hd i m2 href hx hs hnil
    · intro m
      rw [NativeMethodEnvironment.get_object_nil hd _ m vr vx vs vf vt hN, hi]
    · rintro (h | h)
      · simp [h] at hx
      · simp [h] at hs
    · intro h; subst h; simp [hQtrue] at ht
    · intro h; subst h; simp [hQfalse] at hf
    · intro h; subst h; simp at hu
  · -- false
    obtain ⟨-, hx, hs, hn, ht, hu⟩ := ofalse hfalse
    have hi : i = hd.Qfalse := (hc.false_p_iff i).1 hfalse
    have hN := (hc.CAPI_FALSE_P_iff hd.cCApiHandleQfalse).2 rfl
    have hv := classes_exclusive _ _ _ _ _ _ _ (hc.value_classes_disjoint hd.cCApiHandleQfalse)
    obtain ⟨vr, vx, vs, -⟩ := hv.2.2.2.1 hN
    refine ⟨hd.cCApiHandleQfalse, ?_, ?_, ?_, ?_, ?_, fun _ => rfl, ?_⟩
    · intro m2
      exact NativeMethodEnvironment.get_handle_false hd i m2 href hx hs hn hfalse
    · intro m
      rw [NativeMethodEnvironment.get_object_false hd _ m vr vx vs hN, hi]
    · rintro (h | h)
      · simp [h] at hx
      · simp [h] at hs
    · intro h; subst h; simp [hQnil] at hn
    · intro h; subst h; simp [hQtrue] at ht
    · intro h; subst h; simp at hu
  · -- true
    obtain ⟨-, hx, hs, hn, hf, hu⟩ := otrue htrue
    have hi : i = hd.Qtrue := (hc.true_p_iff i).1 htrue
    have hN := (hc.CAPI_TRUE_P_iff hd.cCApiHandleQtrue).2 rfl
    have hv := classes_exclusive _ _ _ _ _ _ _ (hc.value_classes_disjoint hd.cCApiHandleQtrue)
    obtain ⟨vr, vx, vs, vf, -⟩ := hv.2.2.2.2.1 hN
    refine ⟨hd.cCApiHandleQtrue, ?_, ?_, ?_, ?_, fun _ => rfl, ?_, ?_⟩
    · intro m2
      exact NativeMethodEnvironment.get_handle_true hd i m2 href hx hs hn hf htrue
    · intro m
      rw [NativeMethodEnvironment.get_object_true hd _ m vr vx vs vf hN, hi]
    · rintro (h | h)
      · simp [h] at hx
      · simp [h] at hs
    · intro h; subst h; simp [hQnil] at hn
    · intro h; subst h; simp [hQfalse] at hf
    · intro h; subst h; simp at hu
  · -- undefined
    obtain ⟨-, hx, hs, hn, hf, ht⟩ := oundef hundef
    have hi : i = hd.Qundef := by simpa using hundef
    have hN := (hc.CAPI_UNDEF_P_iff hd.cCApiHandleQundef).2 rfl
    have hv := classes_exclusive _ _ _ _ _ _ _ (hc.value_classes_disjoint hd.cCApiHandleQundef)
    obtain ⟨vr, vx, vs, vf, vt, vn⟩ := hv.2.2.2.2.2.2 hN
    refine ⟨hd.cCApiHandleQundef, ?_, ?_, ?_, ?_, ?_, ?_, fun _ => rfl⟩
    · intro m2
      exact NativeMethodEnvironment.get_handle_undef hd i m2 href hx hs hn hf ht hi
    · intro m
      rw [NativeMethodEnvironment.get_object_undef hd _ m vr vx vs vf vt vn hN, hi]
    · rintro (h | h)
      · simp [h] at hx
      · simp [h] at hs
    · intro h; subst h; simp [hQnil] at hn
    · intro h; subst h; simp [hQtrue] at ht
    · intro h; subst h; simp [hQfalse] at hf

/-! ## The values passed denote the arguments -/

theorem Machine.keeps_slots_refl (m : Machine) : m.keeps_slots m := fun _ _ h => h

theorem Machine.keeps_slots_trans {m m1 m2 : Machine} (h1 : m.keeps_slots m1)
    (h2 : m1.keeps_slots m2) : m.keeps_slots m2 := fun o h hs => h2 o h (h1 o h hs)

theorem NativeMethodFrame.get_handle_keeps_slots (hd : Headers) (self : Word) (obj : Object)
    (m : Machine) : m.keeps_slots (NativeMethodFrame.get_handle hd self obj m).m := by
  intro o h hslot
  cases hobj : m.shared.capi_handle_ivar obj with
  | wrapper k =>
    rw [NativeMethodFrame.get_handle_found hd self obj m k hobj]
    simpa [Machine.after_found] using hslot
  | other x =>
    have hnone : (m.shared.capi_handle_ivar obj).try_as_CApiHandle = none := by
      simp [hobj, TableIvar.try_as_CApiHandle]
    rw [NativeMethodFrame.get_handle_created hd self obj m hnone]
    have hne : o ≠ obj := by
      rintro rfl
      rw [hobj] at hslot
      cases hslot
    simpa [Machine.after_created, store, hne] using hslot

/-- The handle obtained for an object of a known class denotes that object, now and
on every later machine that keeps the recorded Handles sound. -/
theorem NativeMethodEnvironment.get_handle_denotes (hd : Headers) (hc : hd.EncodingContract)
    (obj : Object) (m : Machine) (hs : m.handles_sound hd)
    (hframe : m.env.current_native_frame_ ≠ NULL) (hknown : hd.known_p obj = true) :
    ∃ v m1 t1, NativeMethodEnvironment.get_handle hd obj m = ⟨.returned v, m1, t1⟩ ∧
      m1.handles_sound hd ∧ m1.env = m.env ∧ m.keeps_slots m1 ∧
      ∀ m2 : Machine, m1.keeps_slots m2 → m2.handles_sound hd →
        NativeMethodEnvironment.get_object hd v m2 = ⟨.returned obj, m2, []⟩ := by
  cases href : hd.reference_p obj with
  | true =>
    obtain ⟨v, m1, t1, hrun, hrefv, -, -, hs1, henv, hslot, -⟩ :=
      NativeMethodFrame.get_handle_sound hd hc m.env.current_native_frame_ obj m hs
    refine ⟨v, m1, t1, ?_, hs1, henv, ?_, ?_⟩
    · rw [NativeMethodEnvironment.get_handle_reference hd obj m href hframe, hrun]
    · have hk := NativeMethodFrame.get_handle_keeps_slots hd m.env.current_native_frame_ obj m
      rw [hrun] at hk
      exact hk
    · intro m2 hkeep hs2
      have hslot2 := hkeep obj v hslot
      rw [NativeMethodEnvironment.get_object_reference hd v m2 hrefv (hs2.valid obj v hslot2),
        hs2.object obj v hslot2]
  | false =>
    have himm : hd.immediate_p obj = true := by simp [Headers.immediate_p, href, hknown]
    obtain ⟨v, hget, hobj, -⟩ := NativeMethodEnvironment.immediate_round_trip hd hc obj himm
    exact ⟨v, m, [], hget m, hs, rfl, Machine.keeps_slots_refl m, fun m2 _ _ => hobj m2⟩

theorem get_handles_denote_later (hd : Headers) (hc : hd.EncodingContract)
    (objs : List Object) (m : Machine) (hs : m.handles_sound hd)
    (hframe : m.env.current_native_frame_ ≠ NULL)
    (hknown : ∀ obj ∈ objs, hd.known_p obj = true) :
    ∃ vs m1 t1, get_handles hd objs m = ⟨.returned vs, m1, t1⟩ ∧
      m1.handles_sound hd ∧ m1.env = m.env ∧ m.keeps_slots m1 ∧
      List.Forall₂ (fun obj v => ∀ m2 : Machine, m1.keeps_slots m2 → m2.handles_sound hd →
        NativeMethodEnvironment.get_object hd v m2 = ⟨.returned obj, m2, []⟩) objs vs := by
  induction objs generalizing m with
  | nil => exact ⟨[], m, [], rfl, hs, rfl, Machine.keeps_slots_refl m, List.Forall₂.nil⟩
  | cons obj rest ih =>
    obtain ⟨v, m1, t1, hv, hs1, henv1, hk1, hden⟩ :=
      NativeMethodEnvironment.get_handle_denotes hd hc obj m hs hframe
        (hknown obj (List.mem_cons_self _ _))
    obtain ⟨vs, m2, t2, hvs, hs2, henv2, hk2, hall⟩ := ih m1 hs1 (by rw [henv1]; exact hframe)
      (fun o ho => hknown o (List.mem_cons_of_mem _ ho))
    refine ⟨v :: vs, m2, t1 ++ t2, ?_, hs2, by rw [henv2, henv1],
      Machine.keeps_slots_trans hk1 hk2, List.Forall₂.cons ?_ hall⟩
    · simp [get_handles, Exec.bind_eq, Exec.pure_eq, Exec.bind, hv, hvs, Exec.pure]
    · intro m3 hk3 hs3
      exact hden m3 (Machine.keeps_slots_trans hk2 hk3) hs3

/-- With the encoding contract and sound recorded Handles, the handles obtained for a
list of objects denote these objects, position by position: on the machine left by
the marshalling, `get_object` of the `i`-th value is the `i`-th object. -/
theorem get_handles_denote (hd : Headers) (hc : hd.EncodingContract)
    (objs : List Object) (m : Machine) (hs : m.handles_sound hd)
    (hframe : m.env.current_native_frame_ ≠ NULL)
    (hknown : ∀ obj ∈ objs, hd.known_p obj = true)
    (vs : List VALUE) (m1 : Machine) (t1 : List Event)
    (hrun : get_handles hd objs m = ⟨.returned vs, m1, t1⟩) :
    List.Forall₂ (fun obj v =>
        NativeMethodEnvironment.get_object hd v m1 = ⟨.returned obj, m1, []⟩) objs vs := by
  obtain ⟨vs2, m2, t2, hrun2, hs2, -, -, hall⟩ :=
    get_handles_denote_later hd hc objs m hs hframe hknown
  rw [hrun] at hrun2
  cases hrun2
  exact hall.imp fun _ _ h => h m1 (Machine.keeps_slots_refl m1) hs2

/-! ## The destructor of a frame -/

theorem Machine.only_heap_changed_refl (m : Machine) : m.only_heap_changed m :=
  ⟨rfl, rfl, rfl, rfl, rfl, rfl⟩

theorem Machine.only_heap_changed_trans {m m1 m2 : Machine} (h1 : m.only_heap_changed m1)
    (h2 : m1.only_heap_changed m2) : m.only_heap_changed m2 := by
  obtain ⟨a1, b1, c1, d1, e1, f1⟩ := h1
  obtain ⟨a2, b2, c2, d2, e2, f2⟩ := h2
  exact ⟨a2.trans a1, b2.trans b1, c2.trans c1, d2.trans d1, e2.trans e1, f2.trans f1⟩

/-- The loop of the destructor releases the handles of the list, each once, in order. -/
theorem for_each_Handle_deref (l : List Word) (m : Machine) :
    ∃ m1, for_each capi.Handle_deref l m = ⟨.returned (), m1, l.map Event.handle_deref⟩ ∧
      m.only_heap_changed m1 := by
  induction l generalizing m with
  | nil => exact ⟨m, rfl, Machine.only_heap_changed_refl m⟩
  | cons i rest ih =>
    obtain ⟨m2, h2, hc2⟩ := ih (capi.Handle_deref i m).m
    refine ⟨m2, ?_, Machine.only_heap_changed_trans ?_ hc2⟩
    · simp [for_each, Exec.bind_eq, Exec.bind, capi.Handle_deref] at h2 ⊢
      simp [h2]
    · exact ⟨rfl, rfl, rfl, rfl, rfl, rfl⟩

theorem NativeMethodFrame.flush_cached_data_body_returns (hd : Headers) (i : Word)
    (m : Machine) :
    ∃ m1 t1, NativeMethodFrame.flush_cached_data_body hd i m = ⟨.returned (), m1, t1⟩ ∧
      m.only_heap_changed m1 ∧ releases t1 = [] := by
  unfold NativeMethodFrame.flush_cached_data_body
  simp only [Exec.bind_eq, Exec.pure_eq, getMachine_bind]
  cases (m.shared.handle_mem i).type_
  all_goals exact ⟨_, _, rfl, ⟨rfl, rfl, rfl, rfl, rfl, rfl⟩, rfl⟩

theorem releases_append (s t : List Event) : releases (s ++ t) = releases s ++ releases t := by
  simp [releases]

theorem releases_map_handle_deref (l : List Word) : releases (l.map Event.handle_deref) = l := by
  induction l with
  | nil => rfl
  | cons i rest ih =>
    simp only [List.map_cons, releases, List.filterMap_cons, Event.deref_target]
    exact congrArg _ ih

theorem for_each_flush_returns (hd : Headers) (l : List Word) (m : Machine) :
    ∃ m1 t1, for_each (NativeMethodFrame.flush_cached_data_body hd) l m
        = ⟨.returned (), m1, t1⟩ ∧
      m.only_heap_changed m1 ∧ releases t1 = [] := by
  induction l generalizing m with
  | nil => exact ⟨m, [], rfl, Machine.only_heap_changed_refl m, rfl⟩
  | cons i rest ih =>
    obtain ⟨m1, t1, h1, hc1, hr1⟩ := NativeMethodFrame.flush_cached_data_body_returns hd i m
    obtain ⟨m2, t2, h2, hc2, hr2⟩ := ih m1
    refine ⟨m2, t1 ++ t2, ?_, Machine.only_heap_changed_trans hc1 hc2, ?_⟩
    · simp [for_each, Exec.bind_eq, Exec.bind, h1, h2]
    · rw [releases_append, hr1, hr2]
      rfl

theorem NativeMethodFrame.flush_cached_data_returns (hd : Headers) (m : Machine) :
    ∃ m1 t1, NativeMethodFrame.flush_cached_data hd m = ⟨.returned (), m1, t1⟩ ∧
      m.only_heap_changed m1 ∧ releases t1 = [] := by
  unfold NativeMethodFrame.flush_cached_data
  simp only [Exec.bind_eq, Exec.pure_eq, getMachine_bind]
  split
  · exact for_each_flush_returns hd _ m
  · exact ⟨m, [], rfl, Machine.only_heap_changed_refl m, rfl⟩

/-- The destructor of a frame returns; it changes only the heap; and the Handles it
releases are the members of the handle set of the frame, each once. -/
theorem NativeMethodFrame.destroy_returns (hd : Headers) (self : Word) (m : Machine) :
    ∃ m1 t1, NativeMethodFrame.destroy hd self m = ⟨.returned (), m1, t1⟩ ∧
      m.only_heap_changed m1 ∧ releases t1 = (m.frame_mem self).handles_ := by
  obtain ⟨m1, t1, h1, hc1, hr1⟩ := NativeMethodFrame.flush_cached_data_returns hd m
  obtain ⟨m2, h2, hc2⟩ := for_each_Handle_deref (m1.frame_mem self).handles_ m1
  refine ⟨m2, .frame_destroyed self :: (t1 ++ ((m1.frame_mem self).handles_.map
    Event.handle_deref)), ?_, Machine.only_heap_changed_trans hc1 hc2, ?_⟩
  · rw [NativeMethodFrame.destroy]
    simp only [Exec.bind_eq, emit_bind]
    rw [Exec.bind_returned _ _ m m1 () t1 h1]
    simp only [getMachine_bind, h2]
  · show releases ([Event.frame_destroyed self] ++ (t1 ++ _)) = _
    rw [releases_append, releases_append, hr1, releases_map_handle_deref, hc1.2.1]
    rfl

/-! ## An arity without a case -/

theorem NativeMethod.call_unrecognized (hd : Headers) (nm : NativeMethod) (args : Arguments)
    (h : ¬hd.supported_arity nm.arity) :
    nm.call hd args
      = Exec.bind (NativeMethodEnvironment.get_handle hd args.recv) fun _ =>
          capi.capi_raise_runtime_error .unrecognized_arity := by
  simp only [Headers.supported_arity, not_or, not_and, not_le] at h
  obtain ⟨h3, h2, h1, h05, hinit⟩ := h
  have e0 : nm.arity ≠ 0 := by intro h; have := h05 (by omega); omega
  have e1 : nm.arity ≠ 1 := by intro h; have := h05 (by omega); omega
  have e2 : nm.arity ≠ 2 := by intro h; have := h05 (by omega); omega
  have e3 : nm.arity ≠ 3 := by intro h; have := h05 (by omega); omega
  have e4 : nm.arity ≠ 4 := by intro h; have := h05 (by omega); omega
  have e5 : nm.arity ≠ 5 := by intro h; have := h05 (by omega); omega
  simp [NativeMethod.call, ARGS_IN_RUBY_ARRAY, RECEIVER_PLUS_ARGS_IN_RUBY_ARRAY,
    ARG_COUNT_ARGS_IN_C_ARRAY_PLUS_RECEIVER, h3, h2, h1, e0, e1, e2, e3, e4, e5, hinit,
    Exec.bind_eq]

theorem NativeMethod.emits_only_crossing_of {P : Event → Prop} (hd : Headers)
    (nm : NativeMethod) (args : Arguments) (nmf saved_frame : Word) (saved_block : Object)
    (hcall : Exec.emits_only P (nm.call hd args)) (hbook : ∀ e, e.bookkeeping → P e) :
    Exec.emits_only P (nm.crossing hd args nmf saved_frame saved_block) := by
  unfold NativeMethod.crossing
  refine Exec.emits_only_bind (emits_only_exception_point hcall) fun ret => ?_
  refine Exec.emits_only_bind (emits_only_modifyMachine _) fun _ => ?_
  refine Exec.emits_only_bind ?_ fun _ => Exec.emits_only_pure _
  exact Exec.emits_only_mono (NativeMethodFrame.emits_only_destroy hd nmf) hbook

/-- The crossing of a call that raises from `m1`, leaving `m2`: the exception point
turns the raise into the result `NULL`, the environment is restored, the frame is
destroyed, and the thread's exception is the one the call left. -/
theorem NativeMethod.crossing_raised (hd : Headers) (nm : NativeMethod) (args : Arguments)
    (nmf saved_frame : Word) (saved_block : Object) (m1 m2 : Machine) (t : List Event)
    (hcall : nm.call hd args m1 = ⟨.raised, m2, t⟩) :
    ∃ m3 t3, nm.crossing hd args nmf saved_frame saved_block m1
        = ⟨.returned NULL, m3, t ++ t3⟩ ∧
      (m2.leave nmf saved_frame saved_block).only_heap_changed m3 := by
  obtain ⟨m3, t3, hd3, hc3, -⟩ :=
    NativeMethodFrame.destroy_returns hd nmf (m2.leave nmf saved_frame saved_block)
  refine ⟨m3, t3, ?_, hc3⟩
  have hep : exception_point (nm.call hd args) m1 = ⟨.returned NULL, m2, t⟩ := by
    simp [exception_point, hcall]
  rw [NativeMethod.crossing, Exec.bind_returned _ _ m1 m2 NULL t hep]
  simp only [modifyMachine_bind]
  rw [Exec.bind_returned _ _ _ m3 () t3 hd3]
  simp [Exec.pure]

/-! ## Conversions that raise, and those that do not -/

theorem NativeMethodFrame.get_object_eq (val : VALUE) (m : Machine) :
    NativeMethodFrame.get_object val m = ⟨.returned (m.shared.handle_mem val).object_, m, []⟩ := by
  simp [NativeMethodFrame.get_object, Exec.bind_eq, Exec.pure_eq, getMachine_bind, Exec.pure,
    capi.Handle.from_, capi.Handle.object]

theorem NativeMethodEnvironment.get_handle_raised_iff (hd : Headers) (obj : Object)
    (m : Machine) :
    (NativeMethodEnvironment.get_handle hd obj m).out = .raised ↔ hd.known_p obj = false := by
  constructor
  · intro h
    by_contra hk
    have hknown : hd.known_p obj = true := by simpa using hk
    by_cases hframe : m.env.current_native_frame_ = NULL
    · cases href : hd.reference_p obj with
      | true =>
        rw [NativeMethodEnvironment.get_handle_null_frame hd obj m href hframe] at h
        cases h
      | false =>
        have hn : (hd.object_classes obj).any id = true := hknown
        simp only [Headers.object_classes, List.any_cons, List.any_nil, id, Bool.or_false,
          href, Bool.false_or] at hn
        cases hbits : (hd.fixnum_p obj || hd.symbol_p obj) with
        | true =>
          rw [NativeMethodEnvironment.get_handle_bits hd obj m href hbits] at h
          cases h
        | false =>
          obtain ⟨hfix, hsym⟩ := Bool.or_eq_false_iff.1 hbits
          cases hnil : hd.nil_p obj with
          | true =>
            rw [NativeMethodEnvironment.get_handle_nil hd obj m href hfix hsym hnil] at h
            cases h
          | false =>
            cases hfalse : hd.false_p obj with
            | true =>
              rw [NativeMethodEnvironment.get_handle_false hd obj m href hfix hsym hnil
                hfalse] at h
              cases h
            | false =>
              cases htrue : hd.true_p obj with
              | true =>
                rw [NativeMethodEnvironment.get_handle_true hd obj m href hfix hsym hnil hfalse
                  htrue] at h
                cases h
              | false =>
                have hundef : obj = hd.Qundef := by
                  simpa [hfix, hsym, hnil, hfalse, htrue] using hn
                rw [NativeMethodEnvironment.get_handle_undef hd obj m href hfix hsym hnil hfalse
                  htrue hundef] at h
                cases h
    · obtain ⟨v, m1, t1, hv, -⟩ :=
        NativeMethodEnvironment.get_handle_returns hd obj m hframe hknown
      rw [hv] at h
      cases h
  · intro h
    rw [NativeMethodEnvironment.get_handle_unknown hd obj m h]

theorem NativeMethodEnvironment.get_object_raised_iff (hd : Headers) (val : VALUE)
    (m : Machine) :
    (NativeMethodEnvironment.get_object hd val m).out = .raised ↔
      hd.known_value_p val = false := by
  constructor
  · intro h
    by_contra hk
    have hkv : hd.known_value_p val = true := by simpa using hk
    have hknown : (hd.value_classes val).any id = true := hkv
    simp only [Headers.value_classes, List.any_cons, List.any_nil, id, Bool.or_false] at hknown
    cases href : hd.CAPI_REFERENCE_P val with
    | true =>
      cases hvalid : (m.shared.handle_mem val).valid_ with
      | true =>
        rw [NativeMethodEnvironment.get_object_reference hd val m href hvalid] at h
        cases h
      | false =>
        rw [NativeMethodEnvironment.get_object_invalid hd val m href hvalid] at h
        cases h
    | false =>
      cases hbits : (hd.FIXNUM_P val || hd.SYMBOL_P val) with
      | true =>
        rw [NativeMethodEnvironment.get_object_bits hd val m href hbits] at h
        cases h
      | false =>
        obtain ⟨hfix, hsym⟩ := Bool.or_eq_false_iff.1 hbits
        cases hfalse : hd.CAPI_FALSE_P val with
        | true =>
          rw [NativeMethodEnvironment.get_object_false hd val m href hfix hsym hfalse] at h
          cases h
        | false =>
          cases htrue : hd.CAPI_TRUE_P val with
          | true =>
            rw [NativeMethodEnvironment.get_object_true hd val m href hfix hsym hfalse htrue] at h
            cases h
          | false =>
            cases hnil : hd.CAPI_NIL_P val with
            | true =>
              rw [NativeMethodEnvironment.get_object_nil hd val m href hfix hsym hfalse htrue
                hnil] at h
              cases h
            | false =>
              have hundef : hd.CAPI_UNDEF_P val = true := by
                simpa [href, hfix, hsym, hfalse, htrue, hnil] using hknown
              rw [NativeMethodEnvironment.get_object_undef hd val m href hfix hsym hfalse htrue
                hnil hundef] at h
              cases h
  · intro h
    rw [NativeMethodEnvironment.get_object_unknown hd val m h]

/-! ## The handle set of a frame -/

theorem capi.HandleSet.mem_insert (s : capi.HandleSet) (h x : Word) :
    x ∈ capi.HandleSet.insert s h ↔ x ∈ s ∨ x = h := by
  unfold capi.HandleSet.insert
  split
  · next hmem =>
    constructor
    · exact fun hx => Or.inl hx
    · rintro (hx | rfl)
      · exact hx
      · exact hmem
  · simp

theorem capi.HandleSet.nodup_insert (s : capi.HandleSet) (h : Word) (hs : List.Nodup s) :
    List.Nodup (capi.HandleSet.insert s h) := by
  unfold capi.HandleSet.insert
  split
  · exact hs
  · next hmem =>
    rw [List.nodup_append]
    refine ⟨hs, List.nodup_singleton h, ?_⟩
    intro a ha hb
    simp only [List.mem_singleton] at hb
    subst hb
    exact hmem ha

/-- One mint always returns; the value is recorded in the slot of the object, goes
into the handle set of the frame it is made through, and leaves the other frames
alone. -/
theorem NativeMethodFrame.get_handle_frame (hd : Headers) (self : Word) (obj : Object)
    (m : Machine) :
    ∃ v m1 t1, NativeMethodFrame.get_handle hd self obj m = ⟨.returned v, m1, t1⟩ ∧
      (m1.frame_mem self).handles_ = capi.HandleSet.insert (m.frame_mem self).handles_ v ∧
      (∀ g, g ≠ self → m1.frame_mem g = m.frame_mem g) ∧
      m1.shared.capi_handle_ivar obj = .wrapper v := by
  cases hslot : m.shared.capi_handle_ivar obj with
  | wrapper h =>
    refine ⟨h, _, _, NativeMethodFrame.get_handle_found hd self obj m h hslot, ?_, ?_, ?_⟩
    · simp [Machine.after_found, store]
    · intro g hg
      simp [Machine.after_found, store, hg]
    · simpa [Machine.after_found] using hslot
  | other x =>
    have hnone : (m.shared.capi_handle_ivar obj).try_as_CApiHandle = none := by
      simp [hslot, TableIvar.try_as_CApiHandle]
    refine ⟨_, _, _, NativeMethodFrame.get_handle_created hd self obj m hnone, ?_, ?_, ?_⟩
    · simp [Machine.after_created, store]
    · intro g hg
      simp [Machine.after_created, store, hg]
    · simp [Machine.after_created, store]

/-- A sequence of mints always returns, one value per mint; the handle set of a frame
stays free of repetitions and gains exactly the values minted through that frame. -/
theorem mints_handles (hd : Headers) (ops : List (Word × Object)) (m : Machine) (self : Word) :
    ∃ minted m1 t1, mints hd ops m = ⟨.returned minted, m1, t1⟩ ∧
      minted.map Prod.fst = ops.map Prod.fst ∧
      (List.Nodup (m.frame_mem self).handles_ → List.Nodup (m1.frame_mem self).handles_) ∧
      ∀ h, h ∈ (m1.frame_mem self).handles_ ↔
        h ∈ (m.frame_mem self).handles_ ∨ (self, h) ∈ minted := by
  induction ops generalizing m with
  | nil => exact ⟨[], m, [], rfl, rfl, fun h => h, fun h => by simp⟩
  | cons op rest ih =>
    obtain ⟨f, obj⟩ := op
    obtain ⟨v, m1, t1, hv, hins, hother, -⟩ := NativeMethodFrame.get_handle_frame hd f obj m
    obtain ⟨vs, m2, t2, hvs, hfst, hnodup, hmem⟩ := ih m1
    refine ⟨(f, v) :: vs, m2, t1 ++ t2, ?_, by simp [hfst], ?_, ?_⟩
    · simp [mints, Exec.bind_eq, Exec.pure_eq, Exec.bind, hv, hvs, Exec.pure]
    · intro hnd
      apply hnodup
      by_cases hf : self = f
      · subst hf
        rw [hins]
        exact capi.HandleSet.nodup_insert _ _ hnd
      · rw [hother self hf]
        exact hnd
    · intro h
      rw [hmem h]
      by_cases hf : self = f
      · subst hf
        rw [hins, capi.HandleSet.mem_insert]
        simp only [List.mem_cons, Prod.mk.injEq, true_and]
        tauto
      · rw [hother self hf]
        simp only [List.mem_cons, Prod.mk.injEq]
        tauto

/-! ## One Handle per object -/

theorem created_handles_append (s t : List Event) :
    created_handles (s ++ t) = created_handles s ++ created_handles t := by
  simp [created_handles]

/-- One mint on a machine where the Handle `v` of the object `o` is recorded: `v` stays
recorded; a mint of `o` returns `v`; no Handle is created for `o`; and the global
handle table grows by the Handles created, if any. -/
theorem NativeMethodFrame.get_handle_recorded (hd : Headers) (self : Word) (obj : Object)
    (m : Machine) (o : Object) (v : Word) (hslot : m.shared.capi_handle_ivar o = .wrapper v) :
    ∃ r m1 t1, NativeMethodFrame.get_handle hd self obj m = ⟨.returned r, m1, t1⟩ ∧
      m1.shared.capi_handle_ivar o = .wrapper v ∧
      (obj = o → r = v) ∧
      (∀ e ∈ t1, ∀ h, e ≠ .handle_created h o) ∧
      m1.shared.global_handles = m.shared.global_handles ++ created_handles t1 := by
  cases hobj : m.shared.capi_handle_ivar obj with
  | wrapper h =>
    refine ⟨h, _, _, NativeMethodFrame.get_handle_found hd self obj m h hobj, ?_, ?_, ?_, ?_⟩
    · simpa [Machine.after_found] using hslot
    · rintro rfl
      rw [hslot] at hobj
      cases hobj
      rfl
    · intro e he k
      simp only [List.mem_singleton] at he
      subst he
      simp
    · simp [Machine.after_found, created_handles, Event.created_handle]
  | other x =>
    have hnone : (m.shared.capi_handle_ivar obj).try_as_CApiHandle = none := by
      simp [hobj, TableIvar.try_as_CApiHandle]
    have hne : obj ≠ o := by
      rintro rfl
      rw [hslot] at hobj
      cases hobj
    refine ⟨_, _, _, NativeMethodFrame.get_handle_created hd self obj m hnone, ?_,
      fun h => absurd h hne, ?_, ?_⟩
    · simpa [Machine.after_created, store, Ne.symm hne] using hslot
    · intro e he k
      simp only [List.mem_cons, List.mem_singleton, List.not_mem_nil, or_false] at he
      rcases he with rfl | rfl
      · intro heq
        injection heq with _ h2
        exact hne h2
      · simp
    · simp [Machine.after_created, created_handles, Event.created_handle]

/-- A sequence of mints on a machine where the Handle `v` of the object `o` is
recorded: every mint of `o` returns `v`, no Handle is created for `o`, `v` stays
recorded, and the global handle table grows by the Handles created for other
objects. -/
theorem mints_recorded (hd : Headers) (ops : List (Word × Object)) (m : Machine) (o : Object)
    (v : Word) (hslot : m.shared.capi_handle_ivar o = .wrapper v) :
    ∃ minted m1 t1, mints hd ops m = ⟨.returned minted, m1, t1⟩ ∧
      m1.shared.capi_handle_ivar o = .wrapper v ∧
      List.Forall₂ (fun op r => r.1 = op.1 ∧ (op.2 = o → r.2 = v)) ops minted ∧
      (∀ e ∈ t1, ∀ h, e ≠ .handle_created h o) ∧
      m1.shared.global_handles = m.shared.global_handles ++ created_handles t1 := by
  induction ops generalizing m with
  | nil => exact ⟨[], m, [], rfl, hslot, List.Forall₂.nil, by simp, by simp [created_handles]⟩
  | cons op rest ih =>
    obtain ⟨f, obj⟩ := op
    obtain ⟨r, m1, t1, hr, hslot1, hsame, hno1, hglob1⟩ :=
      NativeMethodFrame.get_handle_recorded hd f obj m o v hslot
    obtain ⟨rs, m2, t2, hrs, hslot2, hall, hno2, hglob2⟩ := ih m1 hslot1
    refine ⟨(f, r) :: rs, m2, t1 ++ t2, ?_, hslot2, List.Forall₂.cons ⟨rfl, hsame⟩ hall, ?_, ?_⟩
    · simp [mints, Exec.bind_eq, Exec.pure_eq, Exec.bind, hr, hrs, Exec.pure]
    · intro e he
      rcases List.mem_append.1 he with h | h
      · exact hno1 e h
      · exact hno2 e h
    · rw [hglob2, hglob1, created_handles_append, List.append_assoc]

/-! ## Concrete runs

Whole crossings evaluated on the instance `tagged`, from the initial machine, with a
foreign function that returns its last parameter. The receiver is the object at `1000`;
`5` is a small integer, `2000` a heap reference, `26` is nil. Handles are allocated at
`8`, `16`, ... -/

/-- A crossing of arity 2: the receiver and the second argument get Handles, the first
argument keeps its bits, and both Handles are released when the frame is destroyed. -/
theorem run_fixed_arity_trace :
    (NativeMethod.executor_implementation tagged 64 7 ⟨3, ⟨2, echo_functor⟩⟩
        ⟨1000, 26, [5, 2000]⟩ (Machine.initial tagged)).trace
      = [.frame_constructed 64, .handle_created 8 1000, .handle_ref 8,
         .handle_created 16 2000, .handle_ref 16,
         .foreign_call (.ThreeArgFunctor 8 5 16),
         .frame_destroyed 64, .handle_deref 8, .handle_deref 16] := by
  decide!

/-- The crossing of arity 2 returns the object of the value the function returned. -/
theorem run_fixed_arity_out :
    (NativeMethod.executor_implementation tagged 64 7 ⟨3, ⟨2, echo_functor⟩⟩
        ⟨1000, 26, [5, 2000]⟩ (Machine.initial tagged)).out = .returned 2000 := by
  decide!

/-- A crossing of arity -1 with four arguments, the last one the receiver again. -/
theorem run_argc_trace :
    (NativeMethod.executor_implementation tagged 64 7 ⟨3, ⟨-1, echo_functor⟩⟩
        ⟨1000, 26, [5, 2000, 26, 1000]⟩ (Machine.initial tagged)).trace
      = [.frame_constructed 64, .handle_created 8 1000, .handle_ref 8, .new_array 4,
         .handle_created 16 2000, .handle_ref 16, .handle_ref 8,
         .foreign_call (.ArgcFunctor 4 [5, 16, 66, 8] 8), .delete_array,
         .frame_destroyed 64, .handle_deref 8, .handle_deref 16] := by
  decide!

/-- After the crossing of arity -1 the environment is what it was before. -/
theorem run_argc_env :
    (NativeMethod.executor_implementation tagged 64 7 ⟨3, ⟨-1, echo_functor⟩⟩
        ⟨1000, 26, [5, 2000, 26, 1000]⟩ (Machine.initial tagged)).m.env
      = (Machine.initial tagged).env := by
  decide!

/-! ## Flushing and updating the cached conversions -/

theorem Machine.only_memory_changed_refl (m : Machine) : m.only_memory_changed m := rfl

theorem Machine.only_memory_changed_trans {m m1 m2 : Machine} (h1 : m.only_memory_changed m1)
    (h2 : m1.only_memory_changed m2) : m.only_memory_changed m2 := by
  unfold Machine.only_memory_changed at *
  rw [h2, h1]

theorem Machine.only_memory_changed_handle_mem {m m1 : Machine}
    (h : m.only_memory_changed m1) : m1.shared.handle_mem = m.shared.handle_mem := by
  unfold Machine.only_memory_changed at h
  rw [h]

theorem Machine.only_memory_changed_frame_mem {m m1 : Machine}
    (h : m.only_memory_changed m1) : m1.frame_mem = m.frame_mem := by
  unfold Machine.only_memory_changed at h
  rw [h]

theorem Machine.only_memory_changed_env {m m1 : Machine}
    (h : m.only_memory_changed m1) : m1.env = m.env := by
  unfold Machine.only_memory_changed at h
  rw [h]

/-- One round of the loop of `flush_cached_data`: the conversion of the kind of the
Handle, if any, is called, and nothing but managed objects and mirrors changes. -/
theorem NativeMethodFrame.flush_cached_data_body_eq (hd : Headers) (i : Word) (m : Machine) :
    ∃ m1, NativeMethodFrame.flush_cached_data_body hd i m
        = ⟨.returned (), m1,
            ((flush_conversion (m.shared.handle_mem i).type_ i).map Event.conversion).toList⟩ ∧
      m.only_memory_changed m1 := by
  unfold NativeMethodFrame.flush_cached_data_body
  simp only [Exec.bind_eq, Exec.pure_eq, getMachine_bind]
  cases (m.shared.handle_mem i).type_
  all_goals exact ⟨_, rfl, rfl⟩

/-- One round of the loop of `update_cached_data`. -/
theorem NativeMethodFrame.update_cached_data_body_eq (hd : Headers) (i : Word) (m : Machine) :
    ∃ m1, NativeMethodFrame.update_cached_data_body hd i m
        = ⟨.returned (), m1,
            ((update_conversion (m.shared.handle_mem i).type_ i).map Event.conversion).toList⟩ ∧
      m.only_memory_changed m1 := by
  unfold NativeMethodFrame.update_cached_data_body
  simp only [Exec.bind_eq, Exec.pure_eq, getMachine_bind]
  cases (m.shared.handle_mem i).type_
  all_goals exact ⟨_, rfl, rfl⟩

theorem filterMap_eq_toList_append {α β : Type} (f : α → Option β) (a : α) (l : List α) :
    (a :: l).filterMap f = (f a).toList ++ l.filterMap f := by
  cases h : f a <;> simp [List.filterMap_cons, h]

theorem for_each_flush_eq (hd : Headers) (l : List Word) (m : Machine) :
    ∃ m1, for_each (NativeMethodFrame.flush_cached_data_body hd) l m
        = ⟨.returned (), m1,
            l.filterMap fun i =>
              (flush_conversion (m.shared.handle_mem i).type_ i).map Event.conversion⟩ ∧
      m.only_memory_changed m1 := by
  induction l generalizing m with
  | nil => exact ⟨m, rfl, rfl⟩
  | cons i rest ih =>
    obtain ⟨m1, h1, hc1⟩ := NativeMethodFrame.flush_cached_data_body_eq hd i m
    obtain ⟨m2, h2, hc2⟩ := ih m1
    refine ⟨m2, ?_, Machine.only_memory_changed_trans hc1 hc2⟩
    rw [Machine.only_memory_changed_handle_mem hc1] at h2
    rw [filterMap_eq_toList_append]
    simp [for_each, Exec.bind_eq, Exec.bind, h1, h2]

theorem for_each_update_eq (hd : Headers) (l : List Word) (m : Machine) :
    ∃ m1, for_each (NativeMethodFrame.update_cached_data_body hd) l m
        = ⟨.returned (), m1,
            l.filterMap fun i =>
              (update_conversion (m.shared.handle_mem i).type_ i).map Event.conversion⟩ ∧
      m.only_memory_changed m1 := by
  induction l generalizing m with
  | nil => exact ⟨m, rfl, rfl⟩
  | cons i rest ih =>
    obtain ⟨m1, h1, hc1⟩ := NativeMethodFrame.update_cached_data_body_eq hd i m
    obtain ⟨m2, h2, hc2⟩ := ih m1
    refine ⟨m2, ?_, Machine.only_memory_changed_trans hc1 hc2⟩
    rw [Machine.only_memory_changed_handle_mem hc1] at h2
    rw [filterMap_eq_toList_append]
    simp [for_each, Exec.bind_eq, Exec.bind, h1, h2]

/-- The function `flush_cached_data` returns, records the flush events of the machine,
and changes nothing but managed objects and mirrors. -/
theorem NativeMethodFrame.flush_cached_data_eq (hd : Headers) (m : Machine) :
    ∃ m1, NativeMethodFrame.flush_cached_data hd m = ⟨.returned (), m1, m.flush_events⟩ ∧
      m.only_memory_changed m1 := by
  unfold NativeMethodFrame.flush_cached_data
  simp only [Exec.bind_eq, Exec.pure_eq, getMachine_bind]
  split
  · exact for_each_flush_eq hd _ m
  · next hlen =>
    have hnil : m.shared.cached_handles = [] := by
      cases hl : m.shared.cached_handles with
      | nil => rfl
      | cons a l => simp [hl] at hlen
    exact ⟨m, by simp [Machine.flush_events, hnil, Exec.pure], rfl⟩

/-- The function `update_cached_data` returns, records the update events of the
machine, and changes nothing but managed objects and mirrors. -/
theorem NativeMethodFrame.update_cached_data_eq (hd : Headers) (m : Machine) :
    ∃ m1, NativeMethodFrame.update_cached_data hd m = ⟨.returned (), m1, m.update_events⟩ ∧
      m.only_memory_changed m1 := by
  unfold NativeMethodFrame.update_cached_data
  simp only [Exec.bind_eq, Exec.pure_eq, getMachine_bind]
  split
  · exact for_each_update_eq hd _ m
  · next hlen =>
    have hnil : m.shared.cached_handles = [] := by
      cases hl : m.shared.cached_handles with
      | nil => rfl
      | cons a l => simp [hl] at hlen
    exact ⟨m, by simp [Machine.update_events, hnil, Exec.pure], rfl⟩

theorem NativeMethodFrame.flush_cached_data_empty (hd : Headers) (m : Machine)
    (h : m.shared.cached_handles = []) :
    NativeMethodFrame.flush_cached_data hd m = ⟨.returned (), m, []⟩ := by
  simp [NativeMethodFrame.flush_cached_data, Exec.bind_eq, Exec.pure_eq, getMachine_bind, h,
    Exec.pure]

theorem NativeMethodFrame.update_cached_data_empty (hd : Headers) (m : Machine)
    (h : m.shared.cached_handles = []) :
    NativeMethodFrame.update_cached_data hd m = ⟨.returned (), m, []⟩ := by
  simp [NativeMethodFrame.update_cached_data, Exec.bind_eq, Exec.pure_eq, getMachine_bind, h,
    Exec.pure]

/-! ## The destructor, event by event -/

/-- The loop of the destructor decrements the count of the Handles of the list (a set:
no repetition), and of no other Handle; nothing else changes. -/
theorem for_each_Handle_deref_mem (l : List Word) (hl : l.Nodup) (m : Machine) :
    ∃ m1, for_each capi.Handle_deref l m = ⟨.returned (), m1, l.map Event.handle_deref⟩ ∧
      m1.env = m.env ∧ m1.frame_mem = m.frame_mem ∧ m1.thread_state = m.thread_state ∧
      ∀ h, m1.shared.handle_mem h
        = if h ∈ l then (m.shared.handle_mem h).deref else m.shared.handle_mem h := by
  induction l generalizing m with
  | nil => exact ⟨m, rfl, rfl, rfl, rfl, fun h => by simp⟩
  | cons i rest ih =>
    obtain ⟨hi, hrest⟩ := List.nodup_cons.1 hl
    obtain ⟨m2, h2, e2, f2, t2, hmem⟩ := ih hrest (capi.Handle_deref i m).m
    refine ⟨m2, ?_, ?_, ?_, ?_, ?_⟩
    · simp [for_each, Exec.bind_eq, Exec.bind, capi.Handle_deref] at h2 ⊢
      simp [h2]
    · rw [e2]; rfl
    · rw [f2]; rfl
    · rw [t2]; rfl
    · intro h
      rw [hmem h]
      by_cases hh : h = i
      · subst hh
        simp [hi, capi.Handle_deref, store]
      · by_cases hr : h ∈ rest
        · simp [hr, hh, capi.Handle_deref, store]
        · simp [hr, hh, capi.Handle_deref, store]

/-- The destructor of a frame, event by event: it announces itself, flushes the cached
conversions, then releases the Handles of the handle set, each once, in order. -/
theorem NativeMethodFrame.destroy_eq (hd : Headers) (self : Word) (m : Machine) :
    ∃ m1 m2, NativeMethodFrame.flush_cached_data hd m = ⟨.returned (), m1, m.flush_events⟩ ∧
      m.only_memory_changed m1 ∧
      for_each capi.Handle_deref (m.frame_mem self).handles_ m1
        = ⟨.returned (), m2, (m.frame_mem self).handles_.map Event.handle_deref⟩ ∧
      NativeMethodFrame.destroy hd self m
        = ⟨.returned (), m2,
            .frame_destroyed self ::
              (m.flush_events ++ (m.frame_mem self).handles_.map Event.handle_deref)⟩ := by
  obtain ⟨m1, h1, hc1⟩ := NativeMethodFrame.flush_cached_data_eq hd m
  obtain ⟨m2, h2, -⟩ := for_each_Handle_deref (m1.frame_mem self).handles_ m1
  rw [Machine.only_memory_changed_frame_mem hc1] at h2
  refine ⟨m1, m2, h1, hc1, h2, ?_⟩
  rw [NativeMethodFrame.destroy]
  simp only [Exec.bind_eq, emit_bind]
  rw [Exec.bind_returned _ _ m m1 () _ h1]
  simp only [getMachine_bind, Machine.only_memory_changed_frame_mem hc1, h2]

theorem Machine.mem_flush_events (m : Machine) (i : Word) (c : Conversion)
    (hi : i ∈ m.shared.cached_handles)
    (hc : flush_conversion (m.shared.handle_mem i).type_ i = some c) :
    Event.conversion c ∈ m.flush_events := by
  simp only [Machine.flush_events, List.mem_filterMap, Option.map_eq_some']
  exact ⟨i, hi, c, hc, rfl⟩

theorem exception_point_trace (body : Exec Object) (m : Machine) :
    (exception_point body m).trace = (body m).trace ∧
    (exception_point body m).m = (body m).m ∧
    (∀ ret, (body m).out = .returned ret → (exception_point body m).out = .returned ret) ∧
    ((body m).out = .raised → (exception_point body m).out = .returned NULL) ∧
    (exception_point body m).out ≠ .raised := by
  unfold exception_point
  rcases body m with ⟨o, m1, t1⟩
  cases o <;> simp

/-- The body of a crossing, by the way the call under the exception point ends: when
it yields `ret`, the environment is restored and the frame destroyed; otherwise the
process has ended there. -/
theorem NativeMethod.crossing_eq (hd : Headers) (nm : NativeMethod) (args : Arguments)
    (nmf saved_frame : Word) (saved_block : Object) (m0 : Machine) :
    (∀ ret, (exception_point (nm.call hd args) m0).out = .returned ret →
      nm.crossing hd args nmf saved_frame saved_block m0
        = ⟨.returned ret,
            (NativeMethodFrame.destroy hd nmf
              ((exception_point (nm.call hd args) m0).m.leave nmf saved_frame saved_block)).m,
            (exception_point (nm.call hd args) m0).trace ++
              (NativeMethodFrame.destroy hd nmf
                ((exception_point (nm.call hd args) m0).m.leave nmf saved_frame
                  saved_block)).trace⟩) ∧
    ((∀ ret, (exception_point (nm.call hd args) m0).out ≠ .returned ret) →
      (nm.crossing hd args nmf saved_frame saved_block m0).trace
        = (exception_point (nm.call hd args) m0).trace ∧
      ∀ ret, (nm.crossing hd args nmf saved_frame saved_block m0).out ≠ .returned ret) := by
  rcases hep : exception_point (nm.call hd args) m0 with ⟨o, m1, t1⟩
  constructor
  · intro ret hret
    simp only at hret
    subst hret
    obtain ⟨m3, t3, hd3, -, -⟩ :=
      NativeMethodFrame.destroy_returns hd nmf (m1.leave nmf saved_frame saved_block)
    rw [NativeMethod.crossing, Exec.bind_returned _ _ m0 m1 ret t1 hep]
    simp only [modifyMachine_bind]
    rw [Exec.bind_returned _ _ _ m3 () t3 hd3, hd3]
    simp [Exec.pure]
  · intro hno
    simp only at hno
    cases o with
    | returned ret => exact absurd rfl (hno ret)
    | raised => simp [NativeMethod.crossing, Exec.bind, hep]
    | aborted => simp [NativeMethod.crossing, Exec.bind, hep]
    | undefined => simp [NativeMethod.crossing, Exec.bind, hep]

/-! ## The reference count along the life of a frame -/

theorem capi.HandleSet.insert_of_mem (s : capi.HandleSet) (h : Word) (hm : h ∈ s) :
    capi.HandleSet.insert s h = s := by
  simp [capi.HandleSet.insert, hm]

theorem capi.HandleSet.insert_nil (h : Word) : capi.HandleSet.insert [] h = [h] := by
  simp [capi.HandleSet.insert]

/-- Some `k` mints of the same object through the same frame, on a machine where the
Handle `h` of the object is recorded: each returns `h` and calls `ref` once; the count
of `h` grows by `k`; `h` joins the handle set of the frame. -/
theorem mints_replicate_found (hd : Headers) (self : Word) (o : Object) (h : Word) (k : Nat)
    (m : Machine) (hslot : m.shared.capi_handle_ivar o = .wrapper h) :
    ∃ mk, mints hd (List.replicate k (self, o)) m
        = ⟨.returned (List.replicate k (self, h)), mk, List.replicate k (.handle_ref h)⟩ ∧
      (mk.shared.handle_mem h).references_ = (m.shared.handle_mem h).references_ + k ∧
      (∀ s, (m.frame_mem self).handles_ = s → h ∈ s → (mk.frame_mem self).handles_ = s) ∧
      (1 ≤ k → (m.frame_mem self).handles_ = [] → (mk.frame_mem self).handles_ = [h]) := by
  induction k generalizing m with
  | zero =>
    refine ⟨m, rfl, by simp, fun s hs _ => hs, fun hk => by omega⟩
  | succ n ih =>
    have hstep := NativeMethodFrame.get_handle_found hd self o m h hslot
    have hslot1 : (m.after_found self h).shared.capi_handle_ivar o = .wrapper h := by
      simpa [Machine.after_found] using hslot
    obtain ⟨mk, hrun, hcount, hkeep, -⟩ := ih (m.after_found self h) hslot1
    have hmem1 : ((m.after_found self h).shared.handle_mem h).references_
        = (m.shared.handle_mem h).references_ + 1 := by
      simp [Machine.after_found, store, capi.Handle.ref]
    have hset1 : ((m.after_found self h).frame_mem self).handles_
        = capi.HandleSet.insert (m.frame_mem self).handles_ h := by
      simp [Machine.after_found, store]
    refine ⟨mk, ?_, ?_, ?_, ?_⟩
    · simp only [List.replicate_succ, mints, Exec.bind_eq, Exec.pure_eq]
      rw [Exec.bind_returned _ _ m _ h _ hstep, Exec.bind_returned _ _ _ mk _ _ hrun]
      simp [Exec.pure]
    · rw [hcount, hmem1]
      push_cast
      ring
    · intro s hs hin
      apply hkeep s _ hin
      rw [hset1, hs, capi.HandleSet.insert_of_mem s h hin]
    · intro _ hnil
      apply hkeep [h] _ (List.mem_singleton.2 rfl)
      rw [hset1, hnil, capi.HandleSet.insert_nil]

/-- The same for an object with no Handle recorded: the first mint creates the Handle,
with count 0, and every mint calls `ref` once. -/
theorem mints_replicate_created (hd : Headers) (self : Word) (o : Object) (k : Nat)
    (m : Machine) (hslot : (m.shared.capi_handle_ivar o).try_as_CApiHandle = none)
    (hnil : (m.frame_mem self).handles_ = []) :
    ∃ mk tk, mints hd (List.replicate (k + 1) (self, o)) m
        = ⟨.returned (List.replicate (k + 1)
            (self, hd.handle_addr m.shared.handles_allocated)), mk, tk⟩ ∧
      tk = .handle_created (hd.handle_addr m.shared.handles_allocated) o ::
        List.replicate (k + 1) (.handle_ref (hd.handle_addr m.shared.handles_allocated)) ∧
      (mk.shared.handle_mem (hd.handle_addr m.shared.handles_allocated)).references_
        = 0 + ((k + 1 : Nat) : Int) ∧
      (mk.frame_mem self).handles_ = [hd.handle_addr m.shared.handles_allocated] := by
  have hstep := NativeMethodFrame.get_handle_created hd self o m hslot
  have hslot1 : (m.after_created self (hd.handle_addr m.shared.handles_allocated)
      o).shared.capi_handle_ivar o = .wrapper (hd.handle_addr m.shared.handles_allocated) := by
    simp [Machine.after_created, store]
  obtain ⟨mk, hrun, hcount, hkeep, -⟩ := mints_replicate_found hd self o _ k _ hslot1
  refine ⟨mk, _, ?_, rfl, ?_, ?_⟩
  · simp only [List.replicate_succ, mints, Exec.bind_eq, Exec.pure_eq]
    rw [Exec.bind_returned _ _ m _ _ _ hstep, Exec.bind_returned _ _ _ mk _ _ hrun]
    simp [Exec.pure]
  · rw [hcount]
    simp [Machine.after_created, store]
    ring
  · apply hkeep _ _ (List.mem_singleton.2 rfl)
    simp [Machine.after_created, store, hnil, capi.HandleSet.insert_nil]

/-- The destructor of a frame whose handle set is `[h]`: the count of `h` goes down by
one, and `h` is the one Handle released. -/
theorem NativeMethodFrame.destroy_single (hd : Headers) (self h : Word) (m : Machine)
    (hset : (m.frame_mem self).handles_ = [h]) :
    ((NativeMethodFrame.destroy hd self m).m.shared.handle_mem h).references_
        = (m.shared.handle_mem h).references_ - 1 ∧
      releases (NativeMethodFrame.destroy hd self m).trace = [h] := by
  obtain ⟨m1, m2, -, hc1, hloop, hdes⟩ := NativeMethodFrame.destroy_eq hd self m
  obtain ⟨n1, t1, hd1, -, hrel⟩ := NativeMethodFrame.destroy_returns hd self m
  obtain ⟨m3, h3, -, -, -, hmem⟩ :=
    for_each_Handle_deref_mem (m.frame_mem self).handles_ (by rw [hset]; simp) m1
  rw [hloop] at h3
  cases h3
  constructor
  · rw [hdes]
    simp only
    rw [hmem h, hset, Machine.only_memory_changed_handle_mem hc1]
    simp [capi.Handle.deref]
  · rw [hd1]
    simp only
    rw [hrel, hset]

/-! ## What the call leaves of the environment and of the frames -/

theorem Machine.same_control_refl (m : Machine) : m.same_control m := ⟨rfl, fun _ => rfl⟩

theorem Machine.same_control_trans {m m1 m2 : Machine} (h1 : m.same_control m1)
    (h2 : m1.same_control m2) : m.same_control m2 :=
  ⟨h2.1.trans h1.1, fun f => (h2.2 f).trans (h1.2 f)⟩

theorem Machine.same_previous_refl (nmf : Word) (m : Machine) : m.same_previous nmf m := rfl

theorem Machine.same_previous_trans {nmf : Word} {m m1 m2 : Machine}
    (h1 : m.same_previous nmf m1) (h2 : m1.same_previous nmf m2) : m.same_previous nmf m2 :=
  Eq.trans h2 h1

theorem Exec.preserves_mono {α : Type} {R S : Machine → Machine → Prop} {x : Exec α}
    (h : Exec.preserves R x) (hRS : ∀ m m1, R m m1 → S m m1) : Exec.preserves S x :=
  fun m => hRS _ _ (h m)

theorem Exec.preserves_bind {α β : Type} {R : Machine → Machine → Prop} {x : Exec α}
    {f : α → Exec β} (ht : ∀ a b c, R a b → R b c → R a c)
    (hx : Exec.preserves R x) (hf : ∀ a, Exec.preserves R (f a)) :
    Exec.preserves R (Exec.bind x f) := by
  intro m
  have hx1 := hx m
  simp only [Exec.bind]
  rcases hxm : x m with ⟨o, m1, t1⟩
  rw [hxm] at hx1
  cases o with
  | returned a => exact ht _ _ _ hx1 (hf a m1)
  | raised => exact hx1
  | aborted => exact hx1
  | undefined => exact hx1

theorem Exec.preserves_pure {α : Type} {R : Machine → Machine → Prop} (hr : ∀ m, R m m)
    (a : α) : Exec.preserves R (Exec.pure a) := fun m => hr m

theorem Exec.preserves_ite {α : Type} {R : Machine → Machine → Prop} {c : Prop} [Decidable c]
    {x y : Exec α} (hx : Exec.preserves R x) (hy : Exec.preserves R y) :
    Exec.preserves R (if c then x else y) := by
  split
  · exact hx
  · exact hy

theorem preserves_emit {R : Machine → Machine → Prop} (hr : ∀ m, R m m) (e : Event) :
    Exec.preserves R (emit e) := fun m => hr m

theorem preserves_stop {α : Type} {R : Machine → Machine → Prop} (hr : ∀ m, R m m)
    (o : Outcome Unit) : Exec.preserves R (stop o : Exec α) := by
  intro m
  cases o <;> exact hr m

theorem NativeMethodFrame.mint_same_control (hd : Headers) (self : Word) (obj : Object) :
    Exec.preserves Machine.same_control (NativeMethodFrame.get_handle hd self obj) := by
  intro m
  cases hslot : m.shared.capi_handle_ivar obj with
  | wrapper h =>
    rw [NativeMethodFrame.get_handle_found hd self obj m h hslot]
    refine ⟨rfl, fun f => ?_⟩
    by_cases hf : f = self
    · subst hf
      simp [Machine.after_found, store]
    · simp [Machine.after_found, store, hf]
  | other x =>
    have hnone : (m.shared.capi_handle_ivar obj).try_as_CApiHandle = none := by
      simp [hslot, TableIvar.try_as_CApiHandle]
    rw [NativeMethodFrame.get_handle_created hd self obj m hnone]
    refine ⟨rfl, fun f => ?_⟩
    by_cases hf : f = self
    · subst hf
      simp [Machine.after_created, store]
    · simp [Machine.after_created, store, hf]

theorem capi.raise_same_control {α : Type} (msg : RuntimeErrorMessage) :
    Exec.preserves Machine.same_control (capi.capi_raise_runtime_error msg : Exec α) :=
  fun _ => ⟨rfl, fun _ => rfl⟩

theorem NativeMethodEnvironment.get_handle_same_control (hd : Headers) (obj : Object) :
    Exec.preserves Machine.same_control (NativeMethodEnvironment.get_handle hd obj) := by
  unfold NativeMethodEnvironment.get_handle
  simp only [Exec.bind_eq, Exec.pure_eq]
  refine Exec.preserves_bind (fun _ _ _ => Machine.same_control_trans)
    (fun m => Machine.same_control_refl m) fun m => ?_
  repeat' split
  all_goals first
    | exact preserves_stop Machine.same_control_refl _
    | exact NativeMethodFrame.mint_same_control hd _ obj
    | exact Exec.preserves_pure Machine.same_control_refl _
    | exact capi.raise_same_control _

theorem NativeMethodEnvironment.get_object_same_control (hd : Headers) (val : VALUE) :
    Exec.preserves Machine.same_control (NativeMethodEnvironment.get_object hd val) := by
  unfold NativeMethodEnvironment.get_object
  simp only [Exec.bind_eq, Exec.pure_eq]
  refine Exec.preserves_bind (fun _ _ _ => Machine.same_control_trans)
    (fun m => Machine.same_control_refl m) fun m => ?_
  repeat' split
  all_goals first
    | exact preserves_stop Machine.same_control_refl _
    | exact Exec.preserves_pure Machine.same_control_refl _
    | exact capi.raise_same_control _

theorem Arguments.get_argument_same_control (args : Arguments) (i : Nat) :
    Exec.preserves Machine.same_control (args.get_argument i) := by
  unfold Arguments.get_argument
  split
  · exact Exec.preserves_pure Machine.same_control_refl _
  · exact preserves_stop Machine.same_control_refl _

theorem Arguments.as_array_same_control (hd : Headers) (args : Arguments) :
    Exec.preserves Machine.same_control (args.as_array hd) :=
  fun _ => ⟨rfl, fun _ => rfl⟩

theorem NativeMethod.call_fill_ary_same_control (hd : Headers) (args : Arguments)
    (remaining i : Nat) (ary : List VALUE) :
    Exec.preserves Machine.same_control (NativeMethod.call_fill_ary hd args remaining i ary) := by
  induction remaining generalizing i ary with
  | zero => exact Exec.preserves_pure Machine.same_control_refl _
  | succ n ih =>
    unfold NativeMethod.call_fill_ary
    simp only [Exec.bind_eq]
    refine Exec.preserves_bind (fun _ _ _ => Machine.same_control_trans)
      (Arguments.get_argument_same_control args i) fun obj => ?_
    refine Exec.preserves_bind (fun _ _ _ => Machine.same_control_trans)
      (NativeMethodEnvironment.get_handle_same_control hd obj) fun v => ?_
    exact ih _ _

theorem Machine.same_control_same_previous (nmf : Word) (m m1 : Machine)
    (h : m.same_control m1) : m.same_previous nmf m1 := h.2 nmf

theorem NativeMethod.invoke_same_previous (nm : NativeMethod) (nmf : Word) (a : ForeignArgs)
    (hf : ∀ (a : ForeignArgs) (m0 : Machine), m0.same_previous nmf (nm.functor a m0).m) :
    Exec.preserves (Machine.same_previous nmf) (nm.invoke a) := by
  intro m
  have h := hf a m
  unfold NativeMethod.invoke
  rcases hfm : nm.functor a m with ⟨_ | ret, m1⟩
  · rw [hfm] at h
    exact h
  · rw [hfm] at h
    exact h

/-- When the foreign function leaves the link of the frame at `nmf` to its previous
frame alone, so does `NativeMethod::call`. -/
theorem NativeMethod.call_same_previous (hd : Headers) (nm : NativeMethod) (args : Arguments)
    (nmf : Word) (hf : ∀ (a : ForeignArgs) (m0 : Machine), m0.same_previous nmf (nm.functor a m0).m) :
    Exec.preserves (Machine.same_previous nmf) (NativeMethod.call hd nm args) := by
  have hr : ∀ m : Machine, m.same_previous nmf m := Machine.same_previous_refl nmf
  have ht : ∀ a b c : Machine, a.same_previous nmf b → b.same_previous nmf c →
      a.same_previous nmf c := fun _ _ _ => Machine.same_previous_trans
  have hgh := fun obj => Exec.preserves_mono
    (NativeMethodEnvironment.get_handle_same_control hd obj)
    (Machine.same_control_same_previous nmf)
  have hgo := fun val => Exec.preserves_mono
    (NativeMethodEnvironment.get_object_same_control hd val)
    (Machine.same_control_same_previous nmf)
  have hfill := fun r i ary => Exec.preserves_mono
    (NativeMethod.call_fill_ary_same_control hd args r i ary)
    (Machine.same_control_same_previous nmf)
  have harg := fun i => Exec.preserves_mono (Arguments.get_argument_same_control args i)
    (Machine.same_control_same_previous nmf)
  have harr := Exec.preserves_mono (Arguments.as_array_same_control hd args)
    (Machine.same_control_same_previous nmf)
  have hraise : Exec.preserves (Machine.same_previous nmf)
      (capi.capi_raise_runtime_error .unrecognized_arity : Exec Object) :=
    Exec.preserves_mono (capi.raise_same_control _) (Machine.same_control_same_previous nmf)
  have hnew : Exec.preserves (Machine.same_previous nmf) (emit (.new_array args.total)) :=
    preserves_emit hr _
  have hdel : Exec.preserves (Machine.same_previous nmf) (emit .delete_array) :=
    preserves_emit hr _
  have hinv := fun a => NativeMethod.invoke_same_previous nm nmf a hf
  unfold NativeMethod.call
  simp only [Exec.bind_eq, Exec.pure_eq]
  refine Exec.preserves_bind ht (hgh _) fun receiver => ?_
  repeat' with_reducible first
      | exact hgh _
      | exact hgo _
      | exact hfill _ _ _
      | exact hraise
      | exact hnew
      | exact hdel
      | exact hinv _
      | exact harg _
      | exact harr
      | exact Exec.preserves_pure hr _
      | refine Exec.preserves_bind ht ?_ fun _ => ?_
      | refine Exec.preserves_ite ?_ ?_

/-! ## The environment at the moment the foreign function is invoked -/

theorem Exec.agree_on_refl {α : Type} (I : Machine → Prop) (x : Exec α) :
    Exec.agree_on I x x := fun _ _ => rfl

theorem Exec.agree_on_bind {α β : Type} {I : Machine → Prop} {x : Exec α}
    {f g : α → Exec β} (hx : Exec.keeps I x) (hfg : ∀ a, Exec.agree_on I (f a) (g a)) :
    Exec.agree_on I (Exec.bind x f) (Exec.bind x g) := by
  intro m hm
  have hx1 := hx m hm
  simp only [Exec.bind]
  rcases hxm : x m with ⟨o, m1, t1⟩
  rw [hxm] at hx1
  cases o with
  | returned a => simp only [hfg a m1 hx1]
  | raised => rfl
  | aborted => rfl
  | undefined => rfl

theorem Exec.agree_on_bind_first {α β : Type} {I : Machine → Prop} {x y : Exec α}
    (hxy : Exec.agree_on I x y) (f : α → Exec β) :
    Exec.agree_on I (Exec.bind x f) (Exec.bind y f) := by
  intro m hm
  simp only [Exec.bind, hxy m hm]

theorem Exec.agree_on_ite {α : Type} {I : Machine → Prop} {c : Prop} [Decidable c]
    {x y x1 y1 : Exec α} (hx : Exec.agree_on I x x1) (hy : Exec.agree_on I y y1) :
    Exec.agree_on I (if c then x else y) (if c then x1 else y1) := by
  split
  · exact hx
  · exact hy

theorem Exec.keeps_env_of_same_control {α : Type} {x : Exec α} (E : NativeMethodEnvironment)
    (h : Exec.preserves Machine.same_control x) : Exec.keeps (fun m => m.env = E) x :=
  fun m hm => (h m).1.trans hm

theorem NativeMethod.guarded_arity (nm : NativeMethod) (E : NativeMethodEnvironment) :
    (nm.guarded E).arity = nm.arity := rfl

theorem NativeMethod.guarded_invoke (nm : NativeMethod) (E : NativeMethodEnvironment)
    (a : ForeignArgs) :
    Exec.agree_on (fun m => m.env = E) ((nm.guarded E).invoke a) (nm.invoke a) := by
  intro m hm
  have hm1 : m.env = E := hm
  simp [NativeMethod.invoke, NativeMethod.guarded, hm1]

/-- The foreign function is invoked only with the environment `NativeMethod::call` was
entered with: `call` does the same when the foreign function is guarded by that
environment. -/
theorem NativeMethod.guarded_call (hd : Headers) (nm : NativeMethod) (args : Arguments)
    (E : NativeMethodEnvironment) :
    Exec.agree_on (fun m => m.env = E) (NativeMethod.call hd (nm.guarded E) args)
      (NativeMethod.call hd nm args) := by
  have hgh := fun obj => Exec.keeps_env_of_same_control E
    (NativeMethodEnvironment.get_handle_same_control hd obj)
  have hfill := fun r i ary => Exec.keeps_env_of_same_control E
    (NativeMethod.call_fill_ary_same_control hd args r i ary)
  have harg := fun i => Exec.keeps_env_of_same_control E
    (Arguments.get_argument_same_control args i)
  have harr := Exec.keeps_env_of_same_control E (Arguments.as_array_same_control hd args)
  have hnew : Exec.keeps (fun m => m.env = E) (emit (.new_array args.total)) :=
    fun _ hm => hm
  have hinv := fun a => NativeMethod.guarded_invoke nm E a
  unfold NativeMethod.call
  simp only [Exec.bind_eq, Exec.pure_eq, NativeMethod.guarded_arity]
  refine Exec.agree_on_bind (hgh _) fun receiver => ?_
  repeat' with_reducible first
      | exact Exec.agree_on_refl _ _
      | exact hgh _
      | exact hfill _ _ _
      | exact hnew
      | exact harg _
      | exact harr
      | refine Exec.agree_on_bind_first (hinv _) _
      | refine Exec.agree_on_ite ?_ ?_
      | refine Exec.agree_on_bind ?_ fun _ => ?_

/-- The destructor of a frame leaves the environment as it found it. -/
theorem NativeMethodFrame.destroy_env (hd : Headers) (self : Word) (m : Machine) :
    (NativeMethodFrame.destroy hd self m).m.env = m.env := by
  obtain ⟨m1, t1, h1, hc, -⟩ := NativeMethodFrame.destroy_returns hd self m
  rw [h1]
  exact hc.1

/-- A crossing whose call yields a result under the exception point returns that result
with the environment it was entered with, when the foreign function leaves the link of
the new frame to its previous frame alone. -/
theorem NativeMethod.crossing_restores (hd : Headers) (nm : NativeMethod) (args : Arguments)
    (nmf call_frame : Word) (m : Machine)
    (hfun : ∀ (a : ForeignArgs) (m0 : Machine), m0.same_previous nmf (nm.functor a m0).m)
    (ret : Object)
    (h : (exception_point (nm.call hd args) (m.enter nmf call_frame args.block)).out
      = .returned ret) :
    (nm.crossing hd args nmf m.env.current_call_frame_ m.env.current_block_
        (m.enter nmf call_frame args.block)).out = .returned ret ∧
    (nm.crossing hd args nmf m.env.current_call_frame_ m.env.current_block_
        (m.enter nmf call_frame args.block)).m.env = m.env := by
  obtain ⟨-, hepm, -, -, -⟩ :=
    exception_point_trace (nm.call hd args) (m.enter nmf call_frame args.block)
  obtain ⟨hret, -⟩ := NativeMethod.crossing_eq hd nm args nmf
    m.env.current_call_frame_ m.env.current_block_ (m.enter nmf call_frame args.block)
  have hprev := NativeMethod.call_same_previous hd nm args nmf hfun
    (m.enter nmf call_frame args.block)
  have hprev0 : ((m.enter nmf call_frame args.block).frame_mem nmf).previous_
      = m.env.current_native_frame_ := by
    simp [Machine.enter, store]
  rw [hret ret h]
  refine ⟨rfl, ?_⟩
  show (NativeMethodFrame.destroy hd nmf _).m.env = m.env
  rw [NativeMethodFrame.destroy_env, hepm]
  simp only [Machine.leave]
  rw [hprev, hprev0]

/-! ## The arity -1 case when the foreign function returns -/

/-- The marshalling of arity -1 (`ARG_COUNT_ARGS_IN_C_ARRAY_PLUS_RECEIVER`): for `n`
arguments, in a crossing and with receiver and arguments of known classes, `NativeMethod::call`
obtains the receiver's handle, allocates the transient array, fills it with the
handles of the arguments in argument order, and invokes the foreign function exactly
once with `count = n`, that `n`-element array and the receiver's handle. When the
function returns `ret`, the array is deleted right after the call and the call ends as
`get_object(ret)` does on the machine the function left. With the encoding contract and
sound recorded Handles, the `i`-th element of the array denotes the `i`-th argument and
the third parameter denotes the receiver. -/
theorem call_argc_argv_receiver (hd : Headers) (nm : NativeMethod) (args : Arguments)
    (m : Machine) (harity : nm.arity = ARG_COUNT_ARGS_IN_C_ARRAY_PLUS_RECEIVER)
    (hframe : m.env.current_native_frame_ ≠ NULL)
    (hknown : ∀ obj ∈ args.recv :: args.arguments, hd.known_p obj = true) :
    ∃ receiver ary m0 m1 t0 t1,
      NativeMethodEnvironment.get_handle hd args.recv m = ⟨.returned receiver, m0, t0⟩ ∧
      get_handles hd args.arguments m0 = ⟨.returned ary, m1, t1⟩ ∧
      ary.length = args.total ∧
      foreign_calls (nm.call hd args m).trace
        = [.foreign_call (.ArgcFunctor args.total ary receiver)] ∧
      (∀ ret m2, nm.functor (.ArgcFunctor args.total ary receiver) m1 = ⟨some ret, m2⟩ →
        nm.call hd args m
          = ⟨(NativeMethodEnvironment.get_object hd ret m2).out,
             (NativeMethodEnvironment.get_object hd ret m2).m,
             t0 ++ .new_array args.total :: (t1 ++
               .foreign_call (.ArgcFunctor args.total ary receiver) :: .delete_array ::
                 (NativeMethodEnvironment.get_object hd ret m2).trace)⟩) ∧
      (hd.EncodingContract → m.handles_sound hd →
        NativeMethodEnvironment.get_object hd receiver m1 = ⟨.returned args.recv, m1, []⟩ ∧
        List.Forall₂ (fun obj v =>
            NativeMethodEnvironment.get_object hd v m1 = ⟨.returned obj, m1, []⟩)
          args.arguments ary) := by
  obtain ⟨receiver, m0, t0, hrecv, henv⟩ :=
    NativeMethodEnvironment.get_handle_returns hd args.recv m hframe
      (hknown _ (List.mem_cons_self _ _))
  obtain ⟨ary, m1, t1, hary, hlen, -⟩ :=
    get_handles_returns hd args.arguments m0 (by rw [henv]; exact hframe)
      (fun o ho => hknown o (List.mem_cons_of_mem _ ho))
  have hfill := NativeMethod.call_fill_ary_returns hd args m0 m1 ary t1 hary
  have ht0 : ∀ e ∈ t0, e.bookkeeping := by
    rw [← show (NativeMethodEnvironment.get_handle hd args.recv m).trace = t0 from by rw [hrecv]]
    exact NativeMethodEnvironment.emits_only_get_handle hd _ m
  have ht1 : ∀ e ∈ t1, e.bookkeeping := by
    rw [← show (get_handles hd args.arguments m0).trace = t1 from by rw [hary]]
    exact emits_only_get_handles hd _ m0
  obtain ⟨hone, hret, -⟩ :=
    NativeMethod.invoke_delete_get_object hd nm (.ArgcFunctor args.total ary receiver) m1
  have hcall : nm.call hd args m
      = ⟨((Exec.bind (nm.invoke (.ArgcFunctor args.total ary receiver)) fun ret =>
            Exec.bind (emit .delete_array) fun _ =>
              NativeMethodEnvironment.get_object hd ret) m1).out,
         ((Exec.bind (nm.invoke (.ArgcFunctor args.total ary receiver)) fun ret =>
            Exec.bind (emit .delete_array) fun _ =>
              NativeMethodEnvironment.get_object hd ret) m1).m,
         t0 ++ .new_array args.total :: (t1 ++
           ((Exec.bind (nm.invoke (.ArgcFunctor args.total ary receiver)) fun ret =>
              Exec.bind (emit .delete_array) fun _ =>
                NativeMethodEnvironment.get_object hd ret) m1).trace)⟩ := by
    rw [NativeMethod.call_argc hd nm args harity,
      Exec.bind_returned _ _ m m0 receiver t0 hrecv]
    simp only [emit_bind]
    rw [Exec.bind_returned _ _ m0 m1 ary t1 hfill]
  refine ⟨receiver, ary, m0, m1, t0, t1, hrecv, hary, hlen, ?_, ?_, ?_⟩
  · rw [hcall]
    show foreign_calls (t0 ++ ([Event.new_array args.total] ++ (t1 ++ _))) = _
    rw [foreign_calls_append, foreign_calls_append, foreign_calls_append,
      foreign_calls_bookkeeping t0 ht0, foreign_calls_bookkeeping t1 ht1, hone]
    rfl
  · intro ret m2 hf
    rw [hcall, hret ret m2 hf]
  · intro hc hs
    obtain ⟨v, n0, s0, hv, hs0, henv0, -, hden⟩ :=
      NativeMethodEnvironment.get_handle_denotes hd hc args.recv m hs hframe
        (hknown _ (List.mem_cons_self _ _))
    rw [hrecv] at hv
    cases hv
    obtain ⟨vs, n1, s1, hvs, hs1, -, hk1, hall⟩ :=
      get_handles_denote_later hd hc args.arguments m0 hs0 (by rw [henv0]; exact hframe)
        (fun o ho => hknown o (List.mem_cons_of_mem _ ho))
    rw [hary] at hvs
    cases hvs
    exact ⟨hden m1 hk1 hs1, hall.imp fun _ _ h => h m1 (Machine.keeps_slots_refl m1) hs1⟩

/-- The marshalling of arity -1 on an instance: four arguments (a small integer, a heap reference, nil, and the
receiver again). -/
theorem call_argc_argv_receiver_witness :
    ∃ receiver ary m0 m1 t0 t1,
      NativeMethodEnvironment.get_handle tagged 1000 (Machine.entered tagged 64)
        = ⟨.returned receiver, m0, t0⟩ ∧
      get_handles tagged [5, 2000, 26, 1000] m0 = ⟨.returned ary, m1, t1⟩ ∧
      ary.length = 4 ∧
      foreign_calls ((NativeMethod.mk (-1) echo_functor).call tagged
          ⟨1000, 26, [5, 2000, 26, 1000]⟩ (Machine.entered tagged 64)).trace
        = [.foreign_call (.ArgcFunctor 4 ary receiver)] ∧
      (∀ ret m2, echo_functor (.ArgcFunctor 4 ary receiver) m1 = ⟨some ret, m2⟩ →
        (NativeMethod.mk (-1) echo_functor).call tagged ⟨1000, 26, [5, 2000, 26, 1000]⟩
            (Machine.entered tagged 64)
          = ⟨(NativeMethodEnvironment.get_object tagged ret m2).out,
             (NativeMethodEnvironment.get_object tagged ret m2).m,
             t0 ++ .new_array 4 :: (t1 ++
               .foreign_call (.ArgcFunctor 4 ary receiver) :: .delete_array ::
                 (NativeMethodEnvironment.get_object tagged ret m2).trace)⟩) ∧
      NativeMethodEnvironment.get_object tagged receiver m1 = ⟨.returned 1000, m1, []⟩ ∧
      List.Forall₂ (fun obj v =>
          NativeMethodEnvironment.get_object tagged v m1 = ⟨.returned obj, m1, []⟩)
        [5, 2000, 26, 1000] ary := by
  obtain ⟨receiver, ary, m0, m1, t0, t1, h1, h2, h3, h4, h5, h6⟩ :=
    call_argc_argv_receiver tagged ⟨-1, echo_functor⟩ ⟨1000, 26, [5, 2000, 26, 1000]⟩
      (Machine.entered tagged 64) rfl (by decide) (by decide)
  exact ⟨receiver, ary, m0, m1, t0, t1, h1, h2, h3, h4, h5,
    h6 tagged_contract (Machine.entered_sound tagged 64)⟩

/-! # Properties of the bridge -/

/-- C1: `NativeMethod::executor_implementation` raises an ArgumentError and returns
`NULL` if and only if the declared arity is non-negative and differs from the argument
count. In that case the raise is all it does: no foreign call, no frame constructed,
and the machine is unchanged but for the thread's exception (so the environment's call
frame, native frame and block are what they were). For a negative arity the check
passes whatever the argument count: the frame is constructed and no ArgumentError is
raised. -/
theorem executor_implementation_arity_check (hd : Headers) (nmf call_frame : Word)
    (msg : Dispatch) (args : Arguments) (m : Machine) :
    (((∃ e ∈ (NativeMethod.executor_implementation hd nmf call_frame msg args m).trace,
          e.is_argument_error = true) ∧
        (NativeMethod.executor_implementation hd nmf call_frame msg args m).out
          = .returned NULL) ↔
      (0 ≤ msg.method.arity ∧ msg.method.arity ≠ (args.total : Int))) ∧
    ((0 ≤ msg.method.arity ∧ msg.method.arity ≠ (args.total : Int)) →
      (NativeMethod.executor_implementation hd nmf call_frame msg args m).trace
        = [.raise_exception
            (.argument_error msg.method.arity args.total msg.name call_frame)] ∧
      foreign_calls (NativeMethod.executor_implementation hd nmf call_frame msg args m).trace
        = [] ∧
      (∀ frame, Event.frame_constructed frame ∉
        (NativeMethod.executor_implementation hd nmf call_frame msg args m).trace) ∧
      (NativeMethod.executor_implementation hd nmf call_frame msg args m).m
        = { m with
            thread_state :=
              some (.argument_error msg.method.arity args.total msg.name call_frame) } ∧
      (NativeMethod.executor_implementation hd nmf call_frame msg args m).m.env = m.env) ∧
    (msg.method.arity < 0 →
      (NativeMethod.executor_implementation hd nmf call_frame msg args m).trace.head?
        = some (.frame_constructed nmf) ∧
      ∀ e ∈ (NativeMethod.executor_implementation hd nmf call_frame msg args m).trace,
        e.is_argument_error = false) := by
  have hiff : (msg.method.arity ≥ 0 ∧ msg.method.arity.toNat ≠ args.total) ↔
      (0 ≤ msg.method.arity ∧ msg.method.arity ≠ (args.total : Int)) := by
    constructor
    · rintro ⟨h1, h2⟩
      exact ⟨h1, by omega⟩
    · rintro ⟨h1, h2⟩
      exact ⟨h1, by omega⟩
  have hpass : ¬(msg.method.arity ≥ 0 ∧ msg.method.arity.toNat ≠ args.total) →
      (NativeMethod.executor_implementation hd nmf call_frame msg args m).trace.head?
        = some (.frame_constructed nmf) ∧
      ∀ e ∈ (NativeMethod.executor_implementation hd nmf call_frame msg args m).trace,
        e.is_argument_error = false := by
    intro h
    rw [NativeMethod.executor_implementation_passed hd nmf call_frame msg args m h]
    refine ⟨rfl, ?_⟩
    intro e he
    simp only [List.mem_cons] at he
    rcases he with rfl | he
    · rfl
    · exact NativeMethod.emits_only_crossing hd msg.method args nmf _ _ _ e he
  refine ⟨⟨?_, ?_⟩, ?_, ?_⟩
  · rintro ⟨⟨e, he, herr⟩, -⟩
    by_contra hno
    have h2 := (hpass (fun h => hno (hiff.1 h))).2 e he
    rw [herr] at h2
    cases h2
  · intro h
    rw [NativeMethod.executor_implementation_mismatch hd nmf call_frame msg args m (hiff.2 h)]
    exact ⟨⟨_, List.mem_singleton.2 rfl, rfl⟩, rfl⟩
  · intro h
    rw [NativeMethod.executor_implementation_mismatch hd nmf call_frame msg args m (hiff.2 h)]
    refine ⟨rfl, rfl, ?_, rfl, rfl⟩
    intro frame hmem
    simp at hmem
  · intro h
    exact hpass (fun h2 => by omega)

/-- C1 on an instance: a 2-argument native method invoked with 3 arguments. -/
theorem executor_implementation_arity_check_witness :
    (NativeMethod.executor_implementation tagged 64 7 ⟨3, ⟨2, echo_functor⟩⟩
        ⟨1000, 26, [5, 2000, 9]⟩ (Machine.entered tagged 32)).trace
      = [.raise_exception (.argument_error 2 3 3 7)] ∧
    foreign_calls (NativeMethod.executor_implementation tagged 64 7 ⟨3, ⟨2, echo_functor⟩⟩
        ⟨1000, 26, [5, 2000, 9]⟩ (Machine.entered tagged 32)).trace = [] ∧
    (∀ frame, Event.frame_constructed frame ∉
      (NativeMethod.executor_implementation tagged 64 7 ⟨3, ⟨2, echo_functor⟩⟩
        ⟨1000, 26, [5, 2000, 9]⟩ (Machine.entered tagged 32)).trace) ∧
    (NativeMethod.executor_implementation tagged 64 7 ⟨3, ⟨2, echo_functor⟩⟩
        ⟨1000, 26, [5, 2000, 9]⟩ (Machine.entered tagged 32)).m
      = { Machine.entered tagged 32 with
          thread_state := some (.argument_error 2 3 3 7) } ∧
    (NativeMethod.executor_implementation tagged 64 7 ⟨3, ⟨2, echo_functor⟩⟩
        ⟨1000, 26, [5, 2000, 9]⟩ (Machine.entered tagged 32)).m.env
      = (Machine.entered tagged 32).env :=
  (executor_implementation_arity_check tagged 64 7 ⟨3, ⟨2, echo_functor⟩⟩
    ⟨1000, 26, [5, 2000, 9]⟩ (Machine.entered tagged 32)).2.1 ⟨by decide, by decide⟩

/-- C2: for a heap-reference object `o`, in a crossing (the current native frame is not
null) and with the recorded Handles sound, `NativeMethodEnvironment::get_handle(o)`
returns a value `v`, and `NativeMethodEnvironment::get_object(v)` right after returns
`o` itself: the Handle minted or found for `o` is valid and its back-reference is `o`.
The recorded Handles are sound again afterwards. -/
theorem get_object_get_handle_reference (hd : Headers) (hc : hd.EncodingContract)
    (m : Machine) (hs : m.handles_sound hd) (o : Object) (href : hd.reference_p o = true)
    (hframe : m.env.current_native_frame_ ≠ NULL) :
    ∃ v m1 t1, NativeMethodEnvironment.get_handle hd o m = ⟨.returned v, m1, t1⟩ ∧
      NativeMethodEnvironment.get_object hd v m1 = ⟨.returned o, m1, []⟩ ∧
      (m1.shared.handle_mem (capi.Handle.from_ v)).valid_p = true ∧
      (m1.shared.handle_mem (capi.Handle.from_ v)).object = o ∧
      m1.handles_sound hd := by
  obtain ⟨v, m1, t1, hrun, hrefv, hvalid, hobj, hs1, _, _, _⟩ :=
    NativeMethodFrame.get_handle_sound hd hc m.env.current_native_frame_ o m hs
  refine ⟨v, m1, t1, ?_, ?_, hvalid, hobj, hs1⟩
  · rw [NativeMethodEnvironment.get_handle_reference hd o m href hframe, hrun]
  · rw [NativeMethodEnvironment.get_object_reference hd v m1 hrefv hvalid, hobj]

/-- C2 on an instance: the object at `1000`, first minted in the crossing whose frame
is at `64`. -/
theorem get_object_get_handle_reference_witness :
    ∃ v m1 t1,
      NativeMethodEnvironment.get_handle tagged 1000 (Machine.entered tagged 64)
        = ⟨.returned v, m1, t1⟩ ∧
      NativeMethodEnvironment.get_object tagged v m1 = ⟨.returned 1000, m1, []⟩ ∧
      (m1.shared.handle_mem (capi.Handle.from_ v)).valid_p = true ∧
      (m1.shared.handle_mem (capi.Handle.from_ v)).object = 1000 ∧
      m1.handles_sound tagged :=
  get_object_get_handle_reference tagged tagged_contract (Machine.entered tagged 64)
    (Machine.entered_sound tagged 64) 1000 (by decide) (by decide)

/-- C3: for an immediate `i` (small integer, symbol, nil, true, false, undefined),
`NativeMethodEnvironment::get_handle(i)` returns a value `v` that is the same on every
machine (the current frame is not consulted), creates no Handle and leaves the machine
unchanged (global handle table and handle sets included), and
`NativeMethodEnvironment::get_object(v)` returns `i`. Small integers and symbols keep
their bit pattern; nil, true, false and undefined go to their sentinel constants. -/
theorem get_object_get_handle_immediate (hd : Headers) (hc : hd.EncodingContract)
    (i : Object) (himm : hd.immediate_p i = true) (m : Machine) :
    ∃ v : VALUE,
      NativeMethodEnvironment.get_handle hd i m = ⟨.returned v, m, []⟩ ∧
      (∀ m2 : Machine, NativeMethodEnvironment.get_handle hd i m2 = ⟨.returned v, m2, []⟩) ∧
      NativeMethodEnvironment.get_object hd v m = ⟨.returned i, m, []⟩ ∧
      ((hd.fixnum_p i = true ∨ hd.symbol_p i = true) → v = i) ∧
      (i = hd.Qnil → v = hd.cCApiHandleQnil) ∧
      (i = hd.Qtrue → v = hd.cCApiHandleQtrue) ∧
      (i = hd.Qfalse → v = hd.cCApiHandleQfalse) ∧
      (i = hd.Qundef → v = hd.cCApiHandleQundef) := by
  obtain ⟨v, hget, hobj, hbits, hnil, htrue, hfalse, hundef⟩ :=
    NativeMethodEnvironment.immediate_round_trip hd hc i himm
  exact ⟨v, hget m, hget, hobj m, hbits, hnil, htrue, hfalse, hundef⟩

/-- C3 on an instance: `nil` goes to the sentinel and back. -/
theorem get_object_get_handle_immediate_witness :
    ∃ v : VALUE,
      NativeMethodEnvironment.get_handle tagged 26 (Machine.initial tagged)
        = ⟨.returned v, Machine.initial tagged, []⟩ ∧
      (∀ m2 : Machine,
        NativeMethodEnvironment.get_handle tagged 26 m2 = ⟨.returned v, m2, []⟩) ∧
      NativeMethodEnvironment.get_object tagged v (Machine.initial tagged)
        = ⟨.returned 26, Machine.initial tagged, []⟩ ∧
      ((tagged.fixnum_p 26 = true ∨ tagged.symbol_p 26 = true) → v = 26) ∧
      ((26 : Nat) = tagged.Qnil → v = tagged.cCApiHandleQnil) ∧
      ((26 : Nat) = tagged.Qtrue → v = tagged.cCApiHandleQtrue) ∧
      ((26 : Nat) = tagged.Qfalse → v = tagged.cCApiHandleQfalse) ∧
      ((26 : Nat) = tagged.Qundef → v = tagged.cCApiHandleQundef) :=
  get_object_get_handle_immediate tagged tagged_contract 26 (by decide) (Machine.initial tagged)

/-- C4: for a declared arity `N` in `0..5` and exactly `N` arguments, in a crossing and
with receiver and arguments of known classes, `NativeMethod::call` obtains the handles
of the receiver and of the arguments in argument order (`get_handles`), invokes the
foreign function exactly once, with these `N + 1` values (receiver's handle first),
and, when the function returns `ret`, ends as `get_object(ret)` does on the machine the
function left. With the encoding contract and sound recorded Handles, the value passed
in each position denotes the object in that position. -/
theorem call_fixed_arity (hd : Headers) (nm : NativeMethod) (args : Arguments) (m : Machine)
    (h0 : 0 ≤ nm.arity) (h5 : nm.arity ≤ 5) (hlen : (args.total : Int) = nm.arity)
    (hframe : m.env.current_native_frame_ ≠ NULL)
    (hknown : ∀ obj ∈ args.recv :: args.arguments, hd.known_p obj = true) :
    ∃ vs m1 t1,
      get_handles hd (args.recv :: args.arguments) m = ⟨.returned vs, m1, t1⟩ ∧
      vs.length = args.total + 1 ∧
      (positional_args vs).values = vs ∧
      foreign_calls (nm.call hd args m).trace = [.foreign_call (positional_args vs)] ∧
      (∀ ret m2, nm.functor (positional_args vs) m1 = ⟨some ret, m2⟩ →
        nm.call hd args m
          = ⟨(NativeMethodEnvironment.get_object hd ret m2).out,
             (NativeMethodEnvironment.get_object hd ret m2).m,
             t1 ++ .foreign_call (positional_args vs) ::
               (NativeMethodEnvironment.get_object hd ret m2).trace⟩) ∧
      (hd.EncodingContract → m.handles_sound hd →
        List.Forall₂ (fun obj v =>
            NativeMethodEnvironment.get_object hd v m1 = ⟨.returned obj, m1, []⟩)
          (args.recv :: args.arguments) vs) := by
  obtain ⟨vs, m1, t1, hvs, hvlen, -⟩ :=
    get_handles_returns hd (args.recv :: args.arguments) m hframe hknown
  have hN : vs.length = args.total + 1 := by simpa [Arguments.total] using hvlen
  have hcall := NativeMethod.call_positional hd nm args h0 h5 hlen
  have hb := Exec.bind_returned (get_handles hd (args.recv :: args.arguments))
    (fun vs => Exec.bind (nm.invoke (positional_args vs)) fun ret =>
      NativeMethodEnvironment.get_object hd ret) m m1 vs t1 hvs
  simp only at hb
  obtain ⟨hone, hret, -⟩ := NativeMethod.invoke_get_object hd nm (positional_args vs) m1
  refine ⟨vs, m1, t1, hvs, hN, ?_, ?_, ?_, fun hc hs =>
    get_handles_denote hd hc _ m hs hframe hknown vs m1 t1 hvs⟩
  · have hle : vs.length ≤ 6 := by omega
    rcases vs with _ | ⟨r, _ | ⟨a1, _ | ⟨a2, _ | ⟨a3, _ | ⟨a4, _ | ⟨a5, _ | ⟨a6, rest⟩⟩⟩⟩⟩⟩⟩
    all_goals first
      | rfl
      | (exfalso; simp only [List.length_cons, List.length_nil] at hN hle; omega)
  · rw [hcall, hb]
    rw [foreign_calls_append,
      foreign_calls_bookkeeping t1 (by rw [← show (get_handles hd _ m).trace = t1 from by rw [hvs]]
                                       exact emits_only_get_handles hd _ m), hone]
    rfl
  · intro ret m2 hf
    rw [hcall, hb, hret ret m2 hf]

/-- C4 on an instance: a 2-argument native method invoked with a small integer and a
heap reference. -/
theorem call_fixed_arity_witness :
    ∃ vs m1 t1,
      get_handles tagged [1000, 5, 2000] (Machine.entered tagged 64)
        = ⟨.returned vs, m1, t1⟩ ∧
      vs.length = 2 + 1 ∧
      (positional_args vs).values = vs ∧
      foreign_calls ((NativeMethod.mk 2 echo_functor).call tagged ⟨1000, 26, [5, 2000]⟩
        (Machine.entered tagged 64)).trace = [.foreign_call (positional_args vs)] ∧
      (∀ ret m2, echo_functor (positional_args vs) m1 = ⟨some ret, m2⟩ →
        (NativeMethod.mk 2 echo_functor).call tagged ⟨1000, 26, [5, 2000]⟩
            (Machine.entered tagged 64)
          = ⟨(NativeMethodEnvironment.get_object tagged ret m2).out,
             (NativeMethodEnvironment.get_object tagged ret m2).m,
             t1 ++ .foreign_call (positional_args vs) ::
               (NativeMethodEnvironment.get_object tagged ret m2).trace⟩) ∧
      List.Forall₂ (fun obj v =>
          NativeMethodEnvironment.get_object tagged v m1 = ⟨.returned obj, m1, []⟩)
        [1000, 5, 2000] vs := by
  obtain ⟨vs, m1, t1, h1, h2, h3, h4, h5, h6⟩ :=
    call_fixed_arity tagged ⟨2, echo_functor⟩ ⟨1000, 26, [5, 2000]⟩ (Machine.entered tagged 64)
      (by decide) (by decide) (by decide) (by decide) (by decide)
  exact ⟨vs, m1, t1, h1, h2, h3, h4, h5,
    h6 tagged_contract (Machine.entered_sound tagged 64)⟩

/-- C5, where the code departs from it: a crossing of arity -1 with two arguments whose
foreign function raises. `NativeMethod::call` allocates the transient array
(`new VALUE[2]`), fills it with the handles of the arguments in order and invokes the
foreign function once with `count = 2`, that array and the handle of the receiver; control
then leaves through the exception point and `delete[] ary` is never reached: no
`delete_array` event follows the `new_array`, neither in `call` nor in the rest of the
crossing, which returns `NULL`. -/
theorem argc_array_not_freed_on_raise :
    (NativeMethod.call tagged ⟨-1, raise_functor⟩ ⟨1000, 26, [5, 2000]⟩
        (Machine.entered tagged 64)).out = .raised ∧
    (NativeMethod.call tagged ⟨-1, raise_functor⟩ ⟨1000, 26, [5, 2000]⟩
        (Machine.entered tagged 64)).trace
      = [.handle_created 8 1000, .handle_ref 8, .new_array 2,
         .handle_created 16 2000, .handle_ref 16,
         .foreign_call (.ArgcFunctor 2 [5, 16] 8)] ∧
    (NativeMethod.executor_implementation tagged 64 7 ⟨3, ⟨-1, raise_functor⟩⟩
        ⟨1000, 26, [5, 2000]⟩ (Machine.initial tagged)).out = .returned NULL ∧
    (NativeMethod.executor_implementation tagged 64 7 ⟨3, ⟨-1, raise_functor⟩⟩
        ⟨1000, 26, [5, 2000]⟩ (Machine.initial tagged)).trace
      = [.frame_constructed 64, .handle_created 8 1000, .handle_ref 8, .new_array 2,
         .handle_created 16 2000, .handle_ref 16,
         .foreign_call (.ArgcFunctor 2 [5, 16] 8),
         .frame_destroyed 64, .handle_deref 8, .handle_deref 16] ∧
    Event.delete_array ∉
      (NativeMethod.executor_implementation tagged 64 7 ⟨3, ⟨-1, raise_functor⟩⟩
        ⟨1000, 26, [5, 2000]⟩ (Machine.initial tagged)).trace := by
  decide!

/-- C6, as amended: for an arity code outside the supported set
`{-3, -2, -1, 0, ..., 5, INIT_FUNCTION}` the foreign function is never called, whatever
the arguments. The argument-count check of `executor_implementation` comes first: a
non-negative arity that differs from the argument count fails with ArgumentError.
Otherwise (in a crossing whose frame is not null, with a receiver of a known class)
`NativeMethod::call` obtains the receiver's handle and raises RuntimeError
'unrecognized arity'; `executor_implementation` returns `NULL` with that exception as
the thread's exception. -/
theorem unsupported_arity_is_rejected (hd : Headers) (nmf call_frame : Word) (msg : Dispatch)
    (args : Arguments) (m : Machine) (hun : ¬hd.supported_arity msg.method.arity) :
    foreign_calls (NativeMethod.executor_implementation hd nmf call_frame msg args m).trace
      = [] ∧
    ((0 ≤ msg.method.arity ∧ msg.method.arity ≠ (args.total : Int)) →
      (NativeMethod.executor_implementation hd nmf call_frame msg args m).out
        = .returned NULL ∧
      (NativeMethod.executor_implementation hd nmf call_frame msg args m).m.thread_state
        = some (.argument_error msg.method.arity args.total msg.name call_frame)) ∧
    (¬(0 ≤ msg.method.arity ∧ msg.method.arity ≠ (args.total : Int)) →
      nmf ≠ NULL → hd.known_p args.recv = true →
      (NativeMethod.executor_implementation hd nmf call_frame msg args m).out
        = .returned NULL ∧
      (NativeMethod.executor_implementation hd nmf call_frame msg args m).m.thread_state
        = some (.runtime_error .unrecognized_arity) ∧
      Event.raise_exception (.runtime_error .unrecognized_arity) ∈
        (NativeMethod.executor_implementation hd nmf call_frame msg args m).trace) := by
  have hiff : (msg.method.arity ≥ 0 ∧ msg.method.arity.toNat ≠ args.total) ↔
      (0 ≤ msg.method.arity ∧ msg.method.arity ≠ (args.total : Int)) := by
    constructor
    · rintro ⟨h1, h2⟩
      exact ⟨h1, by omega⟩
    · rintro ⟨h1, h2⟩
      exact ⟨h1, by omega⟩
  have hcall := NativeMethod.call_unrecognized hd msg.method args hun
  refine ⟨?_, ?_, ?_⟩
  · by_cases hmis : msg.method.arity ≥ 0 ∧ msg.method.arity.toNat ≠ args.total
    · rw [NativeMethod.executor_implementation_mismatch hd nmf call_frame msg args m hmis]
      rfl
    · rw [NativeMethod.executor_implementation_passed hd nmf call_frame msg args m hmis]
      apply foreign_calls_bookkeeping
      intro e he
      simp only [List.mem_cons] at he
      rcases he with rfl | he
      · exact ⟨rfl, rfl⟩
      · refine NativeMethod.emits_only_crossing_of hd msg.method args nmf _ _ ?_
          (fun _ h => h) _ e he
        rw [hcall]
        exact Exec.emits_only_bind (NativeMethodEnvironment.emits_only_get_handle hd _)
          fun _ => capi.emits_only_raise _
  · intro hmis
    rw [NativeMethod.executor_implementation_mismatch hd nmf call_frame msg args m (hiff.2 hmis)]
    exact ⟨rfl, rfl⟩
  · intro hpass hnmf hknown
    have hmis : ¬(msg.method.arity ≥ 0 ∧ msg.method.arity.toNat ≠ args.total) :=
      fun h => hpass (hiff.1 h)
    obtain ⟨v, m1, t1, hv, -⟩ := NativeMethodEnvironment.get_handle_returns hd args.recv
      (m.enter nmf call_frame args.block) hnmf hknown
    have hraised : msg.method.call hd args (m.enter nmf call_frame args.block)
        = ⟨.raised, { m1 with thread_state := some (.runtime_error .unrecognized_arity) },
            t1 ++ [.raise_exception (.runtime_error .unrecognized_arity)]⟩ := by
      rw [hcall, Exec.bind_returned _ _ _ m1 v t1 hv]
      rfl
    obtain ⟨m3, t3, hcross, hc3⟩ := NativeMethod.crossing_raised hd msg.method args nmf
      m.env.current_call_frame_ m.env.current_block_ _ _ _ hraised
    rw [NativeMethod.executor_implementation_passed hd nmf call_frame msg args m hmis, hcross]
    refine ⟨rfl, ?_, ?_⟩
    · rw [hc3.2.2.1]
      rfl
    · simp

/-- C6 on an instance: arity 6 with six arguments passes the argument-count check and
fails with RuntimeError 'unrecognized arity'. -/
theorem unsupported_arity_is_rejected_witness :
    (NativeMethod.executor_implementation tagged 64 7 ⟨3, ⟨6, echo_functor⟩⟩
        ⟨1000, 26, [1, 3, 5, 7, 9, 11]⟩ (Machine.entered tagged 32)).out = .returned NULL ∧
    (NativeMethod.executor_implementation tagged 64 7 ⟨3, ⟨6, echo_functor⟩⟩
        ⟨1000, 26, [1, 3, 5, 7, 9, 11]⟩ (Machine.entered tagged 32)).m.thread_state
      = some (.runtime_error .unrecognized_arity) ∧
    Event.raise_exception (.runtime_error .unrecognized_arity) ∈
      (NativeMethod.executor_implementation tagged 64 7 ⟨3, ⟨6, echo_functor⟩⟩
        ⟨1000, 26, [1, 3, 5, 7, 9, 11]⟩ (Machine.entered tagged 32)).trace :=
  (unsupported_arity_is_rejected tagged 64 7 ⟨3, ⟨6, echo_functor⟩⟩ ⟨1000, 26, [1, 3, 5, 7, 9, 11]⟩
    (Machine.entered tagged 32) (by simp [Headers.supported_arity, tagged])).2.2
    (by decide) (by decide) (by decide)

/-- C6 as stated fails: arity 6 is outside the supported set, yet with two arguments
the invocation fails with ArgumentError, not with RuntimeError 'unrecognized arity'. -/
theorem unsupported_arity_counterexample :
    ¬tagged.supported_arity 6 ∧
    (NativeMethod.executor_implementation tagged 64 7 ⟨3, ⟨6, echo_functor⟩⟩
        ⟨1000, 26, [5, 2000]⟩ (Machine.entered tagged 32)).m.thread_state
      = some (.argument_error 6 2 3 7) ∧
    (NativeMethod.executor_implementation tagged 64 7 ⟨3, ⟨6, echo_functor⟩⟩
        ⟨1000, 26, [5, 2000]⟩ (Machine.entered tagged 32)).m.thread_state
      ≠ some (.runtime_error .unrecognized_arity) ∧
    (NativeMethod.executor_implementation tagged 64 7 ⟨3, ⟨6, echo_functor⟩⟩
        ⟨1000, 26, [5, 2000]⟩ (Machine.entered tagged 32)).trace
      = [.raise_exception (.argument_error 6 2 3 7)] := by
  have h := NativeMethod.executor_implementation_mismatch tagged 64 7 ⟨3, ⟨6, echo_functor⟩⟩
    ⟨1000, 26, [5, 2000]⟩ (Machine.entered tagged 32) (by decide)
  refine ⟨by simp [Headers.supported_arity, tagged], ?_, ?_, ?_⟩
  · rw [h]
    rfl
  · rw [h]
    simp
  · rw [h]
    rfl

/-- C7 fails on `NativeMethodFrame::get_object`: on a machine whose Handle at `8` is
marked invalid, the value `8` denotes a heap reference;
`NativeMethodEnvironment::get_object` aborts, but `NativeMethodFrame::get_object`
returns the stale object `1000` of the invalid Handle. -/
theorem frame_get_object_invalid_handle :
    tagged.CAPI_REFERENCE_P 8 = true ∧
    ((Machine.stale tagged).shared.handle_mem (capi.Handle.from_ 8)).valid_p = false ∧
    NativeMethodEnvironment.get_object tagged 8 (Machine.stale tagged)
      = ⟨.aborted, Machine.stale tagged, []⟩ ∧
    NativeMethodFrame.get_object 8 (Machine.stale tagged)
      = ⟨.returned 1000, Machine.stale tagged, []⟩ := by
  refine ⟨by decide, by decide, ?_, ?_⟩
  · exact NativeMethodEnvironment.get_object_invalid tagged 8 (Machine.stale tagged)
      (by decide) (by decide)
  · rw [NativeMethodFrame.get_object_eq]
    rfl

/-- C8, as amended: `NativeMethodEnvironment::get_handle` raises (RuntimeError 'handle
requested for unknown object type') exactly for a word of none of the object classes,
whatever the current native frame; for a heap reference it goes through the current
native frame without testing it for null and raises no RuntimeError.
`NativeMethodEnvironment::get_object` raises (RuntimeError 'requested Object for
unknown handle type') exactly for a foreign value of none of the encodings. -/
theorem get_handle_get_object_runtime_error (hd : Headers) (m : Machine) :
    (∀ obj, (NativeMethodEnvironment.get_handle hd obj m).out = .raised ↔
      hd.known_p obj = false) ∧
    (∀ obj, hd.known_p obj = false →
      NativeMethodEnvironment.get_handle hd obj m
        = ⟨.raised,
            { m with
              thread_state := some (.runtime_error .handle_requested_for_unknown_object_type) },
            [.raise_exception (.runtime_error .handle_requested_for_unknown_object_type)]⟩) ∧
    (∀ obj, hd.reference_p obj = true →
      (NativeMethodEnvironment.get_handle hd obj m).out ≠ .raised) ∧
    (∀ val, (NativeMethodEnvironment.get_object hd val m).out = .raised ↔
      hd.known_value_p val = false) ∧
    (∀ val, hd.known_value_p val = false →
      NativeMethodEnvironment.get_object hd val m
        = ⟨.raised,
            { m with
              thread_state := some (.runtime_error .requested_Object_for_unknown_handle_type) },
            [.raise_exception (.runtime_error .requested_Object_for_unknown_handle_type)]⟩) := by
  refine ⟨fun obj => NativeMethodEnvironment.get_handle_raised_iff hd obj m,
    fun obj h => NativeMethodEnvironment.get_handle_unknown hd obj m h, ?_,
    fun val => NativeMethodEnvironment.get_object_raised_iff hd val m,
    fun val h => NativeMethodEnvironment.get_object_unknown hd val m h⟩
  intro obj href h
  have := (NativeMethodEnvironment.get_handle_raised_iff hd obj m).1 h
  simp [Headers.known_p, Headers.object_classes, href] at this

/-- C8 on an instance: the word `2` is of no object class and of no encoding. -/
theorem get_handle_get_object_runtime_error_witness :
    NativeMethodEnvironment.get_handle tagged 2 (Machine.initial tagged)
      = ⟨.raised,
          { Machine.initial tagged with
            thread_state := some (.runtime_error .handle_requested_for_unknown_object_type) },
          [.raise_exception (.runtime_error .handle_requested_for_unknown_object_type)]⟩ ∧
    NativeMethodEnvironment.get_object tagged 2 (Machine.initial tagged)
      = ⟨.raised,
          { Machine.initial tagged with
            thread_state := some (.runtime_error .requested_Object_for_unknown_handle_type) },
          [.raise_exception (.runtime_error .requested_Object_for_unknown_handle_type)]⟩ :=
  ⟨(get_handle_get_object_runtime_error tagged (Machine.initial tagged)).2.1 2 (by decide),
   (get_handle_get_object_runtime_error tagged (Machine.initial tagged)).2.2.2.2 2 (by decide)⟩

/-- C8 as stated fails: for the heap reference `1000`, with the current native frame
null, `NativeMethodEnvironment::get_handle` raises no RuntimeError; the call goes
through the null frame pointer. -/
theorem get_handle_null_frame_counterexample :
    tagged.reference_p 1000 = true ∧
    (Machine.initial tagged).env.current_native_frame_ = NULL ∧
    (NativeMethodEnvironment.get_handle tagged 1000 (Machine.initial tagged)).out
      = .undefined ∧
    (NativeMethodEnvironment.get_handle tagged 1000 (Machine.initial tagged)).out ≠ .raised ∧
    (NativeMethodEnvironment.get_handle tagged 1000 (Machine.initial tagged)).m.thread_state
      = none ∧
    (NativeMethodEnvironment.get_handle tagged 1000 (Machine.initial tagged)).trace = [] := by
  have h := NativeMethodEnvironment.get_handle_null_frame tagged 1000 (Machine.initial tagged)
    (by decide) (by decide)
  refine ⟨by decide, by decide, ?_, ?_, ?_, ?_⟩
  · rw [h]
  · rw [h]
    simp
  · rw [h]
    rfl
  · rw [h]

/-- C9: take a frame just constructed at `self`, and any sequence of mints, through
this frame or through others. The sequence returns; the destructor of the frame then
returns too, and it calls `deref` exactly once on each distinct Handle minted through
the frame and on no other Handle: the list of its releases has no repetition, its
members are the values minted through the frame, and its length is the number of
distinct values minted through the frame. -/
theorem frame_destroy_releases_minted (hd : Headers) (self prev : Word)
    (ops : List (Word × Object)) (m : Machine) :
    ∃ minted m1 t1 m2 t2,
      mints hd ops (NativeMethodFrame.construct self prev m).m = ⟨.returned minted, m1, t1⟩ ∧
      minted.map Prod.fst = ops.map Prod.fst ∧
      NativeMethodFrame.destroy hd self m1 = ⟨.returned (), m2, t2⟩ ∧
      (releases t2).Nodup ∧
      (∀ h, h ∈ releases t2 ↔ (self, h) ∈ minted) ∧
      (releases t2).length
        = (((minted.filter fun p => p.1 = self).map Prod.snd).dedup).length := by
  obtain ⟨minted, m1, t1, hrun, hfst, hnodup, hmem⟩ :=
    mints_handles hd ops (NativeMethodFrame.construct self prev m).m self
  obtain ⟨m2, t2, hdes, -, hrel⟩ := NativeMethodFrame.destroy_returns hd self m1
  have hempty : ((NativeMethodFrame.construct self prev m).m.frame_mem self).handles_ = [] := by
    simp [NativeMethodFrame.construct, store]
  rw [hempty] at hnodup hmem
  have hnd : (releases t2).Nodup := by
    rw [hrel]
    exact hnodup List.nodup_nil
  have hiff : ∀ h, h ∈ releases t2 ↔ (self, h) ∈ minted := by
    intro h
    rw [hrel, hmem h]
    simp
  refine ⟨minted, m1, t1, m2, t2, hrun, hfst, hdes, hnd, hiff, ?_⟩
  apply List.Perm.length_eq
  rw [List.perm_ext_iff_of_nodup hnd (List.nodup_dedup _)]
  intro h
  rw [hiff h, List.mem_dedup, List.mem_map]
  constructor
  · intro hm
    exact ⟨(self, h), List.mem_filter.2 ⟨hm, by simp⟩, rfl⟩
  · rintro ⟨⟨f, k⟩, hp, rfl⟩
    obtain ⟨hm, hf⟩ := List.mem_filter.1 hp
    simp only [decide_eq_true_eq] at hf
    subst hf
    exact hm

/-- C10: for an object `o` with no Handle recorded yet, the first
`NativeMethodFrame::get_handle(o)` creates a Handle, adds it to the global handle table
and records it in the `capi_handle` slot of `o`. After that, along any sequence of
mints (of any objects, through any frames), every mint of `o` returns the same value,
no Handle is created for `o`, and the global table grows only by the Handles created
for other objects; a further `get_handle(o)` through any frame returns the same value
again and leaves the global table as it is. -/
theorem at_most_one_handle (hd : Headers) (f1 f2 : Word) (o : Object)
    (ops : List (Word × Object)) (m : Machine)
    (hfirst : (m.shared.capi_handle_ivar o).try_as_CApiHandle = none) :
    ∃ v m1,
      NativeMethodFrame.get_handle hd f1 o m
        = ⟨.returned v, m1, [.handle_created v o, .handle_ref v]⟩ ∧
      m1.shared.global_handles = m.shared.global_handles ++ [v] ∧
      m1.shared.capi_handle_ivar o = .wrapper v ∧
      ∃ minted m2 t2,
        mints hd ops m1 = ⟨.returned minted, m2, t2⟩ ∧
        List.Forall₂ (fun op r => r.1 = op.1 ∧ (op.2 = o → r.2 = v)) ops minted ∧
        (∀ e ∈ t2, ∀ h, e ≠ .handle_created h o) ∧
        m2.shared.global_handles = m1.shared.global_handles ++ created_handles t2 ∧
        NativeMethodFrame.get_handle hd f2 o m2
          = ⟨.returned v, m2.after_found f2 v, [.handle_ref v]⟩ ∧
        (m2.after_found f2 v).shared.global_handles = m2.shared.global_handles := by
  have hcreated := NativeMethodFrame.get_handle_created hd f1 o m hfirst
  have hslot1 : (m.after_created f1 (hd.handle_addr m.shared.handles_allocated)
      o).shared.capi_handle_ivar o = .wrapper (hd.handle_addr m.shared.handles_allocated) := by
    simp [Machine.after_created, store]
  obtain ⟨minted, m2, t2, hrun, hslot2, hall, hno, hglob⟩ :=
    mints_recorded hd ops _ o _ hslot1
  exact ⟨_, _, hcreated, rfl, hslot1, minted, m2, t2, hrun, hall, hno, hglob,
    NativeMethodFrame.get_handle_found hd f2 o m2 _ hslot2, rfl⟩

/-- C10 on an instance: the object at `1000` is minted through the frame at `64`, then
another object and `1000` again through other frames. -/
theorem at_most_one_handle_witness :
    ∃ v m1,
      NativeMethodFrame.get_handle tagged 64 1000 (Machine.initial tagged)
        = ⟨.returned v, m1, [.handle_created v 1000, .handle_ref v]⟩ ∧
      m1.shared.global_handles = (Machine.initial tagged).shared.global_handles ++ [v] ∧
      m1.shared.capi_handle_ivar 1000 = .wrapper v ∧
      ∃ minted m2 t2,
        mints tagged [(64, 2000), (128, 1000)] m1 = ⟨.returned minted, m2, t2⟩ ∧
        List.Forall₂ (fun op r => r.1 = op.1 ∧ (op.2 = 1000 → r.2 = v))
          [(64, 2000), (128, 1000)] minted ∧
        (∀ e ∈ t2, ∀ h, e ≠ .handle_created h 1000) ∧
        m2.shared.global_handles = m1.shared.global_handles ++ created_handles t2 ∧
        NativeMethodFrame.get_handle tagged 192 1000 m2
          = ⟨.returned v, m2.after_found 192 v, [.handle_ref v]⟩ ∧
        (m2.after_found 192 v).shared.global_handles = m2.shared.global_handles :=
  at_most_one_handle tagged 64 192 1000 [(64, 2000), (128, 1000)] (Machine.initial tagged)
    (by decide)

/-- C11: in a crossing (the argument count passed the check) whose foreign function
leaves the link of the new frame to its previous frame alone, the call runs on a machine
whose triple of current call frame, current native frame and current block is the
call frame of the crossing, the new frame and `args.block()`, and the foreign function
is invoked only with that triple: guarding it by the triple changes nothing. When the
call returns `ret`, `executor_implementation` returns `ret` with the triple it was
entered with; when control leaves the call through the exception point it returns `NULL`
with the triple it was entered with; and whenever `executor_implementation` returns,
the triple is the one at entry. -/
theorem crossing_restores_environment (hd : Headers) (nmf call_frame : Word) (msg : Dispatch)
    (args : Arguments) (m : Machine)
    (hpass : ¬(0 ≤ msg.method.arity ∧ msg.method.arity ≠ (args.total : Int)))
    (hfun : ∀ (a : ForeignArgs) (m0 : Machine),
      m0.same_previous nmf (msg.method.functor a m0).m) :
    (m.enter nmf call_frame args.block).env = ⟨call_frame, nmf, args.block⟩ ∧
    NativeMethod.executor_implementation hd nmf call_frame
        ⟨msg.name, msg.method.guarded ⟨call_frame, nmf, args.block⟩⟩ args m
      = NativeMethod.executor_implementation hd nmf call_frame msg args m ∧
    (∀ ret, (msg.method.call hd args (m.enter nmf call_frame args.block)).out = .returned ret →
      (NativeMethod.executor_implementation hd nmf call_frame msg args m).out = .returned ret ∧
      (NativeMethod.executor_implementation hd nmf call_frame msg args m).m.env = m.env) ∧
    ((msg.method.call hd args (m.enter nmf call_frame args.block)).out = .raised →
      (NativeMethod.executor_implementation hd nmf call_frame msg args m).out
        = .returned NULL ∧
      (NativeMethod.executor_implementation hd nmf call_frame msg args m).m.env = m.env) ∧
    (∀ ret, (NativeMethod.executor_implementation hd nmf call_frame msg args m).out
        = .returned ret →
      (NativeMethod.executor_implementation hd nmf call_frame msg args m).m.env = m.env) := by
  have hmis : ¬(msg.method.arity ≥ 0 ∧ msg.method.arity.toNat ≠ args.total) := by
    rintro ⟨h1, h2⟩
    exact hpass ⟨h1, by omega⟩
  have hexec := NativeMethod.executor_implementation_passed hd nmf call_frame msg args m hmis
  have hexec1 := NativeMethod.executor_implementation_passed hd nmf call_frame
    ⟨msg.name, msg.method.guarded ⟨call_frame, nmf, args.block⟩⟩ args m hmis
  obtain ⟨-, -, hepret, hepraise, -⟩ :=
    exception_point_trace (msg.method.call hd args) (m.enter nmf call_frame args.block)
  obtain ⟨-, hnot⟩ := NativeMethod.crossing_eq hd msg.method args nmf
    m.env.current_call_frame_ m.env.current_block_ (m.enter nmf call_frame args.block)
  have hrest := NativeMethod.crossing_restores hd msg.method args nmf call_frame m hfun
  refine ⟨rfl, ?_, ?_, ?_, ?_⟩
  · have hcall := NativeMethod.guarded_call hd msg.method args ⟨call_frame, nmf, args.block⟩
      (m.enter nmf call_frame args.block) rfl
    have hcr : (msg.method.guarded ⟨call_frame, nmf, args.block⟩).crossing hd args nmf
          m.env.current_call_frame_ m.env.current_block_ (m.enter nmf call_frame args.block)
        = msg.method.crossing hd args nmf m.env.current_call_frame_ m.env.current_block_
          (m.enter nmf call_frame args.block) := by
      simp only [NativeMethod.crossing, Exec.bind, exception_point, hcall]
    rw [hexec1, hexec]
    simp only [hcr]
  · intro ret h
    rw [hexec]
    exact hrest ret (hepret ret h)
  · intro h
    rw [hexec]
    exact hrest NULL (hepraise h)
  · intro ret h
    rw [hexec] at h ⊢
    simp only at h
    by_cases hex : ∃ r, (exception_point (msg.method.call hd args)
        (m.enter nmf call_frame args.block)).out = .returned r
    · obtain ⟨r, hr⟩ := hex
      exact (hrest r hr).2
    · exact absurd h ((hnot fun r hr => hex ⟨r, hr⟩).2 ret)

/-- A crossing of arity 1 with the foreign function that returns its last argument: the
result is the argument and the environment is restored. -/
theorem crossing_restores_environment_witness :
    (NativeMethod.executor_implementation tagged 64 7 ⟨5, ⟨1, echo_functor⟩⟩ ⟨1000, 2000, [1008]⟩
        (Machine.entered tagged 32)).out = .returned 1008 ∧
    (NativeMethod.executor_implementation tagged 64 7 ⟨5, ⟨1, echo_functor⟩⟩ ⟨1000, 2000, [1008]⟩
        (Machine.entered tagged 32)).m.env = (Machine.entered tagged 32).env :=
  (crossing_restores_environment tagged 64 7 ⟨5, ⟨1, echo_functor⟩⟩ ⟨1000, 2000, [1008]⟩
    (Machine.entered tagged 32) (by decide) (fun _ _ => rfl)).2.2.1 1008 (by decide!)

/-- C13, as amended: the destructor of a `NativeMethodFrame` first flushes the cached
conversions (`flush_cached_data()`: for every cached Handle of kind array, string, data
or float the conversion routine of that kind is called) and then releases every Handle
of the handle set of the frame, each exactly once. It returns, and its events are, in
order: the flush events, then one `deref` per Handle of the set. -/
theorem destroy_flushes_then_releases (hd : Headers) (self : Word) (m : Machine) :
    (NativeMethodFrame.destroy hd self m).out = .returned () ∧
    (NativeMethodFrame.destroy hd self m).trace
      = .frame_destroyed self ::
          ((NativeMethodFrame.flush_cached_data hd m).trace ++
            (m.frame_mem self).handles_.map Event.handle_deref) ∧
    (NativeMethodFrame.flush_cached_data hd m).trace = m.flush_events ∧
    (∀ i ∈ m.shared.cached_handles, ∀ c,
      flush_conversion (m.shared.handle_mem i).type_ i = some c →
        Event.conversion c ∈ (NativeMethodFrame.destroy hd self m).trace) ∧
    releases (NativeMethodFrame.destroy hd self m).trace = (m.frame_mem self).handles_ := by
  obtain ⟨m1, m2, hflush, -, -, hdes⟩ := NativeMethodFrame.destroy_eq hd self m
  obtain ⟨n1, t1, hd1, -, hrel⟩ := NativeMethodFrame.destroy_returns hd self m
  refine ⟨by rw [hdes], by rw [hdes, hflush], by rw [hflush], ?_, by rw [hd1]; exact hrel⟩
  intro i hi c hc
  rw [hdes]
  exact List.mem_cons_of_mem _ (List.mem_append_left _ (Machine.mem_flush_events m i c hi hc))

/-- C13 as stated fails: with a cached Handle of kind array, at `8`, the destructor of
the frame that minted it calls `capi_get_array` on it before it releases the Handle. -/
theorem destroy_flushes_counterexample :
    (NativeMethodFrame.destroy tagged 64
        (NativeMethodFrame.get_handle tagged 64 1000 (Machine.cached tagged)).m).trace
      = [.frame_destroyed 64, .conversion (.capi_get_array 8), .handle_deref 8] := by
  decide!

/-- C14: when the table of cached Handles is empty, `flush_cached_data` followed
immediately by `update_cached_data` is a no-op: each of the two returns without calling
any conversion routine (no event is recorded) and leaves the machine as it was, and so
does their sequence. -/
theorem flush_then_update_without_cached (hd : Headers) (m : Machine)
    (h : m.shared.cached_handles = []) :
    NativeMethodFrame.flush_cached_data hd m = ⟨.returned (), m, []⟩ ∧
    NativeMethodFrame.update_cached_data hd m = ⟨.returned (), m, []⟩ ∧
    Exec.bind (NativeMethodFrame.flush_cached_data hd)
        (fun _ => NativeMethodFrame.update_cached_data hd) m = ⟨.returned (), m, []⟩ := by
  have hf := NativeMethodFrame.flush_cached_data_empty hd m h
  have hu := NativeMethodFrame.update_cached_data_empty hd m h
  refine ⟨hf, hu, ?_⟩
  rw [Exec.bind_returned _ _ m m () [] hf, hu]
  rfl

/-- C14 on an instance: the initial machine has no cached Handle. -/
theorem flush_then_update_without_cached_witness :
    NativeMethodFrame.flush_cached_data tagged (Machine.initial tagged)
      = ⟨.returned (), Machine.initial tagged, []⟩ ∧
    NativeMethodFrame.update_cached_data tagged (Machine.initial tagged)
      = ⟨.returned (), Machine.initial tagged, []⟩ ∧
    Exec.bind (NativeMethodFrame.flush_cached_data tagged)
        (fun _ => NativeMethodFrame.update_cached_data tagged) (Machine.initial tagged)
      = ⟨.returned (), Machine.initial tagged, []⟩ :=
  flush_then_update_without_cached tagged (Machine.initial tagged) rfl

/-- C15: an object is minted `k >= 1` times through a frame just constructed, and the
frame is then destroyed. Each mint calls `ref()` once on the Handle of the object, the
destructor calls `deref()` on it once, and the reference count of the Handle after the
destruction is its value before the first mint (for a Handle created by the first
mint: the count it is created with) plus `k - 1`. It is back at the prior value exactly
when `k = 1`. -/
theorem refcount_after_mints_and_destroy (hd : Headers) (self prev : Word) (o : Object)
    (k : Nat) (m : Machine) (hk : 1 ≤ k) :
    (mints hd (List.replicate k (self, o)) (NativeMethodFrame.construct self prev m).m).out
      = .returned (List.replicate k (self, m.handle_of hd o)) ∧
    (mints hd (List.replicate k (self, o))
        (NativeMethodFrame.construct self prev m).m).trace.count
          (.handle_ref (m.handle_of hd o)) = k ∧
    releases (NativeMethodFrame.destroy hd self
        (mints hd (List.replicate k (self, o))
          (NativeMethodFrame.construct self prev m).m).m).trace = [m.handle_of hd o] ∧
    ((NativeMethodFrame.destroy hd self
        (mints hd (List.replicate k (self, o))
          (NativeMethodFrame.construct self prev m).m).m).m.shared.handle_mem
            (m.handle_of hd o)).references_ = m.count_before o + k - 1 ∧
    (((NativeMethodFrame.destroy hd self
        (mints hd (List.replicate k (self, o))
          (NativeMethodFrame.construct self prev m).m).m).m.shared.handle_mem
            (m.handle_of hd o)).references_ = m.count_before o ↔ k = 1) := by
  have hnil : ((NativeMethodFrame.construct self prev m).m.frame_mem self).handles_ = [] := by
    simp [NativeMethodFrame.construct, store]
  have hshared : (NativeMethodFrame.construct self prev m).m.shared = m.shared := rfl
  have key : ∃ mk tk,
      mints hd (List.replicate k (self, o)) (NativeMethodFrame.construct self prev m).m
        = ⟨.returned (List.replicate k (self, m.handle_of hd o)), mk, tk⟩ ∧
      tk.count (.handle_ref (m.handle_of hd o)) = k ∧
      (mk.shared.handle_mem (m.handle_of hd o)).references_ = m.count_before o + k ∧
      (mk.frame_mem self).handles_ = [m.handle_of hd o] := by
    cases hslot : m.shared.capi_handle_ivar o with
    | wrapper h =>
      obtain ⟨mk, hrun, hcount, -, hset⟩ := mints_replicate_found hd self o h k
        (NativeMethodFrame.construct self prev m).m (by rw [hshared]; exact hslot)
      have hh : m.handle_of hd o = h := by simp [Machine.handle_of, hslot]
      have hb : m.count_before o = (m.shared.handle_mem h).references_ := by
        simp [Machine.count_before, hslot]
      rw [hh, hb]
      refine ⟨mk, List.replicate k (.handle_ref h), hrun, ?_, ?_, hset hk hnil⟩
      · simp
      · rw [hcount, hshared]
    | other x =>
      obtain ⟨j, rfl⟩ : ∃ j, k = j + 1 := ⟨k - 1, by omega⟩
      obtain ⟨mk, tk, hrun, htk, hcount, hset⟩ := mints_replicate_created hd self o j
        (NativeMethodFrame.construct self prev m).m
        (by rw [hshared, hslot]; rfl) hnil
      rw [hshared] at hrun htk hcount hset
      have hh : m.handle_of hd o = hd.handle_addr m.shared.handles_allocated := by
        simp [Machine.handle_of, hslot]
      have hb : m.count_before o = 0 := by simp [Machine.count_before, hslot]
      rw [hh, hb]
      refine ⟨mk, tk, hrun, ?_, hcount, hset⟩
      rw [htk]
      simp [List.count_cons]
  obtain ⟨mk, tk, hrun, hrefs, hcount, hset⟩ := key
  obtain ⟨hfinal, hrel⟩ := NativeMethodFrame.destroy_single hd self _ mk hset
  rw [hrun]
  simp only
  refine ⟨trivial, hrefs, hrel, ?_, ?_⟩
  · rw [hfinal, hcount]
  · rw [hfinal, hcount]
    constructor
    · intro h
      omega
    · intro h
      subst h
      simp

/-- C15 on an instance: the object at `1000`, with no Handle yet, is minted three
times through the frame at `64`; after the destruction the count is `0 + 3 - 1`. -/
theorem refcount_after_mints_and_destroy_witness :
    ((NativeMethodFrame.destroy tagged 64
        (mints tagged (List.replicate 3 (64, 1000))
          (NativeMethodFrame.construct 64 0 (Machine.initial tagged)).m).m).m.shared.handle_mem
            ((Machine.initial tagged).handle_of tagged 1000)).references_
      = (Machine.initial tagged).count_before 1000 + (3 : Nat) - 1 :=
  (refcount_after_mints_and_destroy tagged 64 0 1000 3 (Machine.initial tagged)
    (by decide)).2.2.2.1

end rubinius
